import Mathlib

set_option maxHeartbeats 1000000
set_option maxRecDepth 40000

/-!
Verification of the formathtml pretty-printer: a shallow embedding of the
word-wrap engine (src/wordwrap.go), the first-line lookahead writer
(src/line_or_pass.go) and the HTML tree printer (src/unnamed/part_004),
together with proofs and refutations of the specification claims.

Strings are modelled as `List Char` (Go iterates strings rune by rune);
Go `uint` arithmetic is modelled as `Nat` with explicit wrap-around
modulo `2 ^ 64` at every site where Go performs `uint` addition or
subtraction.
-/

namespace Formathtml

/-! ## Go unsigned integer arithmetic -/

/-- Modulus of Go's 64-bit `uint`. -/
def U64 : Nat := 2 ^ 64

/-- Go `uint` addition (wraps modulo `2 ^ 64`). -/
def addU (a b : Nat) : Nat := (a + b) % U64

/-- Go `uint` subtraction (wraps modulo `2 ^ 64`). -/
def subU (a b : Nat) : Nat := (a + (U64 - b % U64)) % U64

theorem addU_eq_of_lt {a b : Nat} (h : a + b < U64) : addU a b = a + b := by
  simpa [addU] using Nat.mod_eq_of_lt h

theorem subU_eq_of_le {a b : Nat} (hba : b ≤ a) (ha : a < U64) : subU a b = a - b := by
  have hb : b < U64 := lt_of_le_of_lt hba ha
  have hbm : b % U64 = b := Nat.mod_eq_of_lt hb
  have hU : 0 < U64 := by decide
  have h1 : a + (U64 - b) = U64 + (a - b) := by omega
  have h2 : a - b < U64 := by omega
  calc (a + (U64 - b % U64)) % U64 = (U64 + (a - b)) % U64 := by rw [hbm, h1]
    _ = (a - b) % U64 := Nat.add_mod_left _ _
    _ = a - b := Nat.mod_eq_of_lt h2

theorem dropWhile_length_le {α : Type} (p : α → Bool) (l : List α) :
    (l.dropWhile p).length ≤ l.length := by
  induction l with
  | nil => simp
  | cons a l ih =>
    rw [List.dropWhile_cons]
    by_cases h : p a
    · rw [if_pos h]
      exact le_trans ih (by simp)
    · rw [if_neg h]

/-! ## Character classification

`goIsSpace` is Go's `unicode.IsSpace`: the Unicode White_Space property
(the full table; it is small). -/

/-- Go's `unicode.IsSpace`: the Unicode White_Space property. -/
def goIsSpace (c : Char) : Bool :=
  let n := c.toNat
  n == 9 || n == 10 || n == 11 || n == 12 || n == 13 || n == 32 ||
  n == 0x85 || n == 0xA0 || n == 0x1680 ||
  (0x2000 ≤ n && n ≤ 0x200A) ||
  n == 0x2028 || n == 0x2029 || n == 0x202F || n == 0x205F || n == 0x3000

/-- The non-breaking space code point (src/wordwrap.go: `const nbsp = 0xA0`). -/
def nbsp : Nat := 0xA0

/-! ## Wrap units (src/wordwrap.go) -/

/-- The unit kinds of the word wrapper (`WordWrapType` in src/wordwrap.go). -/
inductive WordWrapType where
  | NullUnit
  | Spaces
  | NewLine
  | Word
  deriving DecidableEq, Repr

/-- The classification the lexer `FeedWordsForWrapping` applies to each rune:
line break, breakable whitespace (any Unicode space except U+00A0), or
word content (everything else, including U+00A0). -/
def classify (c : Char) : WordWrapType :=
  if c = '\n' then .NewLine
  else if goIsSpace c ∧ c.toNat ≠ nbsp then .Spaces
  else .Word

/-- A lexed unit: payload, kind and display width (`WrapUnit`). -/
structure WrapUnit where
  value : List Char
  typ : WordWrapType
  width : Nat
  deriving DecidableEq, Repr

/-- `WrapUnit.Merge` from src/wordwrap.go. -/
def WrapUnit.Merge (unit other : WrapUnit) : WrapUnit :=
  if unit.typ = .NullUnit then other
  else if unit.typ ≠ other.typ then unit
  else if unit.typ = .NewLine then unit
  else ⟨unit.value ++ other.value, unit.typ, addU unit.width other.width⟩

/-- `WrapUnit.IsNull`. -/
def WrapUnit.IsNull (unit : WrapUnit) : Bool := unit.typ = .NullUnit

/-- The shared newline unit (`newlineUnit`); its width is zero. -/
def newlineUnit : WrapUnit := ⟨['\n'], .NewLine, 0⟩

/-- The shared null unit (`nullUnit`). -/
def nullUnit : WrapUnit := ⟨[], .NullUnit, 0⟩

/-- `WordUnit`: width is the rune count of the payload. -/
def WordUnit (word : List Char) : WrapUnit := ⟨word, .Word, word.length⟩

/-- `SpaceUnit`: width is the rune count of the payload. -/
def SpaceUnit (spaces : List Char) : WrapUnit := ⟨spaces, .Spaces, spaces.length⟩

/-- `wordToFeed` from src/wordwrap.go. -/
def wordToFeed (typ : WordWrapType) (str : List Char) : WrapUnit :=
  match typ with
  | .NewLine => newlineUnit
  | .Word => WordUnit str
  | .Spaces => SpaceUnit str
  | .NullUnit => nullUnit

/-! ## The unit lexer (`FeedWordsForWrapping`)

The Go function drives a callback; since the callback cannot influence the
lexer's own state, we model it as returning the list of units delivered, in
order.  The loop state is the accumulated run `str` and the class
`lastWordType` of the previous rune. -/

/-- The loop body of `FeedWordsForWrapping`: remaining input, accumulated
run, class of the last consumed rune. -/
def feedLoop : List Char → List Char → WordWrapType → List WrapUnit
  | [], str, last => if 0 < str.length then [wordToFeed last str] else []
  | c :: cs, str, last =>
    let cur := classify c
    if last ≠ .NullUnit ∧ (last ≠ cur ∨ c = '\n') then
      wordToFeed last str :: feedLoop cs [c] cur
    else
      feedLoop cs (str ++ [c]) cur

/-- `FeedWordsForWrapping` from src/wordwrap.go: lex a string into units,
delivered in input order. -/
def FeedWordsForWrapping (s : List Char) : List WrapUnit :=
  feedLoop s [] .NullUnit

/-! ## Specification-side lexer (for claim C4)

`lexSpec` is written from the words of the spec (§4.1): classify each
character; consecutive characters of the same class merge into one unit; a
class change or an explicit line break always closes the current unit, so
each `'\n'` forms its own NewLine unit. -/

/-- Specification-side lexer: maximal same-class runs, with every `'\n'`
closing the current unit and standing alone. -/
def lexSpec : List Char → List WrapUnit
  | [] => []
  | c :: cs =>
    let cl := classify c
    if cl = .NewLine then
      newlineUnit :: lexSpec cs
    else
      wordToFeed cl (c :: cs.takeWhile (fun d => classify d = cl)) ::
        lexSpec (cs.dropWhile (fun d => classify d = cl))
termination_by s => s.length
decreasing_by
  all_goals simp_wf
  all_goals have := dropWhile_length_le (fun d => decide (classify d = classify c)) cs
  all_goals omega

/-! ### Lexer refinement: `FeedWordsForWrapping` matches the spec lexer -/

theorem takeWhile_append_of_all {α : Type} (p : α → Bool) (xs ys : List α)
    (h : ∀ a ∈ xs, p a = true) :
    (xs ++ ys).takeWhile p = xs ++ ys.takeWhile p := by
  induction xs with
  | nil => simp
  | cons a xs ih =>
    have ha : p a = true := h a (by simp)
    simp only [List.cons_append, List.takeWhile_cons, ha, if_true]
    rw [ih (fun b hb => h b (by simp [hb]))]

theorem dropWhile_append_of_all {α : Type} (p : α → Bool) (xs ys : List α)
    (h : ∀ a ∈ xs, p a = true) :
    (xs ++ ys).dropWhile p = ys.dropWhile p := by
  induction xs with
  | nil => simp
  | cons a xs ih =>
    have ha : p a = true := h a (by simp)
    simp only [List.cons_append, List.dropWhile_cons, ha, if_true]
    exact ih (fun b hb => h b (by simp [hb]))

theorem classify_ne_null (c : Char) : classify c ≠ .NullUnit := by
  unfold classify
  split
  · simp
  · split <;> simp

theorem classify_eq_newline_iff (c : Char) : classify c = .NewLine ↔ c = '\n' := by
  unfold classify
  split
  · simp_all
  · split <;> simp_all

theorem classify_newline : classify '\n' = WordWrapType.NewLine := by
  rw [classify_eq_newline_iff]

theorem lexSpec_nil : lexSpec [] = [] := by rw [lexSpec]

theorem lexSpec_cons_newline (cs : List Char) :
    lexSpec ('\n' :: cs) = newlineUnit :: lexSpec cs := by
  rw [lexSpec]
  simp only [classify_newline, if_true, eq_self_iff_true]

theorem lexSpec_cons_other (c : Char) (cs : List Char)
    (h : classify c ≠ .NewLine) :
    lexSpec (c :: cs) =
      wordToFeed (classify c)
          (c :: cs.takeWhile (fun d => classify d = classify c)) ::
        lexSpec (cs.dropWhile (fun d => classify d = classify c)) := by
  rw [lexSpec]
  simp only [if_neg h]

theorem feedLoop_eq_lexSpec (cs : List Char) :
    ∀ str last, str ≠ [] → (∀ c ∈ str, classify c = last) →
      (last = .NewLine → str = ['\n']) →
      feedLoop cs str last = lexSpec (str ++ cs) := by
  induction cs with
  | nil =>
    intro str last hne hcl hnl
    obtain ⟨s0, stail, rfl⟩ := List.exists_cons_of_ne_nil hne
    have hs0 : classify s0 = last := hcl s0 (by simp)
    have hpos : 0 < (s0 :: stail).length := by simp
    rw [feedLoop, if_pos hpos, List.append_nil]
    by_cases hNL : last = WordWrapType.NewLine
    · have heq : s0 :: stail = ['\n'] := hnl hNL
      rw [heq, lexSpec_cons_newline, lexSpec_nil, hNL]
      rfl
    · rw [lexSpec_cons_other s0 stail (by rw [hs0]; exact hNL), hs0]
      have htk : stail.takeWhile (fun d => decide (classify d = last)) = stail := by
        rw [List.takeWhile_eq_self_iff]
        intro d hd
        simp [hcl d (by simp [hd])]
      have hdr : stail.dropWhile (fun d => decide (classify d = last)) = [] := by
        rw [List.dropWhile_eq_nil_iff]
        intro d hd
        simp [hcl d (by simp [hd])]
      rw [htk, hdr, lexSpec_nil]
  | cons c cs ih =>
    intro str last hne hcl hnl
    have hlastnn : last ≠ .NullUnit := by
      obtain ⟨s0, stail, rfl⟩ := List.exists_cons_of_ne_nil hne
      have := classify_ne_null s0
      rw [hcl s0 (by simp)] at this
      exact this
    rw [feedLoop]
    by_cases hcond : last ≠ WordWrapType.NullUnit ∧ (last ≠ classify c ∨ c = '\n')
    · rw [if_pos hcond]
      have hrec : feedLoop cs [c] (classify c) = lexSpec (c :: cs) := by
        have := ih [c] (classify c) (by simp) (by simp)
          (fun h => by rw [(classify_eq_newline_iff c).mp h])
        simpa using this
      rw [hrec]
      by_cases hNL : last = WordWrapType.NewLine
      · have hstr : str = ['\n'] := hnl hNL
        subst hstr
        rw [List.cons_append, List.nil_append, lexSpec_cons_newline, hNL]
        rfl
      · have hne' : classify c ≠ last := by
          rcases hcond.2 with h | h
          · exact fun hh => h hh.symm
          · subst h
            rw [classify_newline]
            exact fun hh => hNL hh.symm
        obtain ⟨s0, stail, rfl⟩ := List.exists_cons_of_ne_nil hne
        have hs0 : classify s0 = last := hcl s0 (by simp)
        rw [List.cons_append, lexSpec_cons_other s0 _ (by rw [hs0]; exact hNL), hs0]
        have htk : (stail ++ c :: cs).takeWhile (fun d => decide (classify d = last))
            = stail := by
          rw [takeWhile_append_of_all _ _ _
            (fun d hd => by simp [hcl d (by simp [hd])])]
          have h0 : (c :: cs).takeWhile (fun d => decide (classify d = last)) = [] := by
            simp only [List.takeWhile_cons]
            rw [if_neg (by simp [hne'])]
          rw [h0, List.append_nil]
        have hdr : (stail ++ c :: cs).dropWhile (fun d => decide (classify d = last))
            = c :: cs := by
          rw [dropWhile_append_of_all _ _ _
            (fun d hd => by simp [hcl d (by simp [hd])])]
          simp only [List.dropWhile_cons]
          rw [if_neg (by simp [hne'])]
        rw [htk, hdr]
    · rw [if_neg hcond]
      have h2 : ¬ (last ≠ classify c ∨ c = '\n') := by tauto
      push_neg at h2
      obtain ⟨hlc, hcn⟩ := h2
      have hcl' : ∀ d ∈ str ++ [c], classify d = classify c := by
        intro d hd
        rcases List.mem_append.mp hd with h | h
        · rw [hcl d h, hlc]
        · simp at h
          subst h
          rfl
      have hrec := ih (str ++ [c]) (classify c) (by simp) hcl'
        (fun h => absurd ((classify_eq_newline_iff c).mp h) hcn)
      rw [hrec, List.append_assoc]
      rfl

/-- The unit lexer coincides with the specification lexer on every input. -/
theorem Feed_eq_lexSpec (s : List Char) :
    FeedWordsForWrapping s = lexSpec s := by
  cases s with
  | nil =>
    rw [lexSpec_nil]
    rfl
  | cons c cs =>
    rw [FeedWordsForWrapping, feedLoop]
    rw [if_neg (by simp)]
    have := feedLoop_eq_lexSpec cs [c] (classify c) (by simp) (by simp)
      (fun h => by rw [(classify_eq_newline_iff c).mp h])
    simpa using this

/-- Claim C4: the unit lexer `FeedWordsForWrapping` classifies each character
as NewLine (`'\n'`), Spaces (any Unicode space except U+00A0) or Word
(everything else, including U+00A0), merges consecutive same-class
characters into one unit, closes the current unit on every class change and
on every `'\n'` (consecutive newlines give one NewLine unit each), delivers
units in input order, and yields no units for empty input: it coincides with
the specification lexer `lexSpec` on every input. -/
theorem claim_C4_unit_lexer (s : List Char) :
    FeedWordsForWrapping s = lexSpec s :=
  Feed_eq_lexSpec s

/-! ## Unit pairs (`UnitPair` in src/wordwrap.go)

Go holds `*UnitPair` pointers and `Line.IsLastPair` compares pointers, so we
give each pair an identity `id` drawn from a counter in the wrapper; pointer
equality is modelled as `id` equality. -/

structure UnitPair where
  Word : WrapUnit
  LeadSpace : WrapUnit
  precededByNewLine : Bool
  id : Nat
  deriving DecidableEq, Repr

/-- `NewUnitPair` from src/wordwrap.go. -/
def NewUnitPair (precededByNewLine : Bool) (id : Nat) : UnitPair :=
  ⟨nullUnit, nullUnit, precededByNewLine, id⟩

/-- `UnitPair.isPrecededByNewLine`. -/
def UnitPair.isPrecededByNewLine (pair : UnitPair) : Bool := pair.precededByNewLine

/-- `UnitPair.IsNull`. -/
def UnitPair.IsNull (pair : UnitPair) : Bool :=
  pair.Word.IsNull && pair.LeadSpace.IsNull

/-- `UnitPair.HasWord`. -/
def UnitPair.HasWord (pair : UnitPair) : Bool := ! pair.Word.IsNull

/-- `UnitPair.Width` (Go `uint` addition). -/
def UnitPair.Width (pair : UnitPair) : Nat :=
  addU pair.Word.width pair.LeadSpace.width

/-- `UnitPair.WordWidth`. -/
def UnitPair.WordWidth (pair : UnitPair) : Nat := pair.Word.width

/-- `UnitPair.AddSpace` (the Go method also reports whether the unit was a
space unit; only the state matters to callers). -/
def UnitPair.AddSpace (pair : UnitPair) (unit : WrapUnit) : UnitPair :=
  if unit.typ ≠ .Spaces then pair
  else { pair with LeadSpace := pair.LeadSpace.Merge unit }

/-- `UnitPair.AddWord`. -/
def UnitPair.AddWord (pair : UnitPair) (unit : WrapUnit) : UnitPair :=
  if unit.typ ≠ .Word then pair
  else { pair with Word := pair.Word.Merge unit }

/-- `UnitPair.Write`: the characters the pair contributes to the output
(lead space only when `withSpace`). -/
def UnitPair.WriteChars (pair : UnitPair) (withSpace : Bool) : List Char :=
  (if withSpace then pair.LeadSpace.value else []) ++ pair.Word.value

/-! ## The line accumulator (`Line` in src/wordwrap.go) -/

structure Line where
  pairs : List UnitPair
  width : Nat
  limit : Nat
  deriving DecidableEq, Repr

/-- `NewLineObject`. -/
def NewLineObject (start limit : Nat) : Line := ⟨[], start, limit⟩

/-- `Line.AppendPair`: charge only the word's width for the first pair on
the line when it is not preceded by an explicit newline. -/
def Line.AppendPair (l : Line) (pair : UnitPair) : Line :=
  if pair.IsNull then l
  else
    let widthToUse :=
      if l.pairs.length = 0 ∧ ¬ pair.isPrecededByNewLine
      then pair.WordWidth else pair.Width
    { l with pairs := l.pairs ++ [pair], width := addU l.width widthToUse }

/-- `Line.LastPair` (`none` models Go's nil pointer). -/
def Line.LastPair (l : Line) : Option UnitPair := l.pairs.getLast?

/-- `Line.IsLastPair`: pointer comparison, modelled by pair identity. -/
def Line.IsLastPair (l : Line) (pair : UnitPair) : Bool :=
  match l.LastPair with
  | none => false
  | some p => p.id == pair.id

/-- `Line.Width`. -/
def Line.Width (l : Line) : Nat := l.width

/-- `Line.IsPrecededByNewLine`. -/
def Line.IsPrecededByNewLine (l : Line) : Bool :=
  match l.pairs with
  | [] => false
  | p :: _ => p.precededByNewLine

/-- `Line.NotEmpty`. -/
def Line.NotEmpty (l : Line) : Bool := 0 < l.width

/-- `Line.Fits` (the `uint` sum wraps as in Go). -/
def Line.Fits (l : Line) (width : Nat) : Bool :=
  l.pairs.length = 0 || addU l.width width ≤ l.limit

/-- `Line.PairFits`. -/
def Line.PairFits (l : Line) (pair : UnitPair) : Bool := l.Fits pair.Width

/-- `Line.Filled`. -/
def Line.Filled (l : Line) : Bool := l.limit ≤ l.width

/-- `Line.PopLast`: remove and return the last pair, decreasing the width by
the popped pair's full width (Go `uint` subtraction, which wraps). -/
def Line.PopLast (l : Line) : Line × Option UnitPair :=
  match l.pairs.getLast? with
  | none => (l, none)
  | some lastPair =>
      ({ l with pairs := l.pairs.dropLast, width := subU l.width lastPair.Width },
       some lastPair)

/-- Rendering of the non-first pairs of `Line.Write`: every pair writes its
lead space; a trailing pair holding no word is dropped. -/
def renderRest : List UnitPair → List Char
  | [] => []
  | [p] => if ¬ p.HasWord then [] else p.WriteChars true
  | p :: rest => p.WriteChars true ++ renderRest rest

/-- The characters `Line.Write` emits for a pair list: the first pair's lead
space is written only when that pair is preceded by an explicit newline; a
trailing pair holding no word is dropped. -/
def renderPairs : List UnitPair → List Char
  | [] => []
  | [p] => if ¬ p.HasWord then [] else p.WriteChars p.isPrecededByNewLine
  | p :: rest => p.WriteChars p.isPrecededByNewLine ++ renderRest rest

/-- `Line.Write`: the rendered characters of the line. -/
def Line.render (l : Line) : List Char := renderPairs l.pairs

/-! ## The word wrapper (`WordWrapper` in src/wordwrap.go)

The wrapper writes through an `io.Writer` and discards the count and error
results of every write, so the writer is modelled as a pure state
transition. -/

/-- The writer interface as the word wrapper uses it (results of
`io.Writer.Write` are discarded by the wrapper). -/
class GoWriter (ω : Type) where
  write : ω → List Char → ω

/-- The plain in-memory writer (`bytes.Buffer`). -/
instance : GoWriter (List Char) := ⟨fun out chunk => out ++ chunk⟩

structure WrapOptions where
  Limit : Nat
  StartsAt : Nat
  Indentation : List Char
  deriving DecidableEq, Repr

structure WordWrapper (ω : Type) where
  Limit : Nat
  StartsAt : Nat
  Indentation : List Char
  Writer : ω
  Column : Nat
  started : Bool
  flushed : Bool
  lastUnit : WrapUnit
  currentLine : Line
  currentPair : UnitPair
  nextId : Nat
  filledLineLast : Bool

/-- `NewWordWrapper`. -/
def NewWordWrapper {ω : Type} (writer : ω) (options : WrapOptions) :
    WordWrapper ω :=
  { Limit := options.Limit, StartsAt := options.StartsAt,
    Indentation := options.Indentation, Writer := writer,
    Column := 0, started := false, flushed := false,
    lastUnit := nullUnit,
    currentPair := NewUnitPair true 0,
    currentLine := NewLineObject options.StartsAt options.Limit,
    nextId := 1, filledLineLast := false }

variable {ω : Type} [GoWriter ω]

/-- `WordWrapper.writeNewLine`. -/
def WordWrapper.writeNewLine (ww : WordWrapper ω) : WordWrapper ω :=
  { ww with Writer := GoWriter.write ww.Writer ['\n'] }

/-- `WordWrapper.flushLine`. -/
def WordWrapper.flushLine (ww : WordWrapper ω) : WordWrapper ω :=
  if ¬ ww.currentLine.NotEmpty then ww
  else
    let w1 := if ww.flushed ∧ ¬ ww.currentLine.IsPrecededByNewLine
      then GoWriter.write ww.Writer ['\n'] else ww.Writer
    let w2 := if ww.flushed ∨ ww.StartsAt = 0
      then GoWriter.write w1 ww.Indentation else w1
    let w3 := GoWriter.write w2 ww.currentLine.render
    { ww with
      Writer := w3
      filledLineLast := false
      currentLine := NewLineObject 0 ww.Limit
      flushed := true }

/-- `WordWrapper.appendPair`. -/
def WordWrapper.appendPair (ww : WordWrapper ω) (pair : UnitPair) :
    WordWrapper ω :=
  { ww with currentLine := ww.currentLine.AppendPair pair }

/-- `WordWrapper.AddUnit`.  In Go, `currentPair` is mutated through a
pointer; the `Word` case therefore also updates any alias of the pair held
inside `currentLine` (in reachable states there is none). -/
def WordWrapper.AddUnit (ww : WordWrapper ω) (unit : WrapUnit) :
    WordWrapper ω :=
  let aNewLine := ¬ ww.started ∨ ww.lastUnit.typ = .NewLine
  match unit.typ with
  | .NullUnit => ww
  | .NewLine =>
      let ww1 := if ww.currentPair.HasWord ∧ ¬ ww.currentLine.IsLastPair ww.currentPair
        then ww.appendPair ww.currentPair else ww
      let ww2 := if ww1.lastUnit.typ ≠ .NewLine
        then
          let wwf := ww1.flushLine
          { wwf with
            currentPair := NewUnitPair true wwf.nextId
            nextId := wwf.nextId + 1 }
        else ww1
      let ww3 := ww2.writeNewLine
      { ww3 with started := true, lastUnit := unit }
  | .Spaces =>
      let ww4 :=
        if ww.lastUnit.typ ≠ .Spaces then
          let ww1 := if ¬ ww.currentLine.PairFits ww.currentPair
            then ww.flushLine else ww
          let ww2 := if ww1.currentPair.HasWord
            then ww1.appendPair ww1.currentPair else ww1
          let ww3 := if ww2.currentLine.Filled then ww2.flushLine else ww2
          { ww3 with
            currentPair := (NewUnitPair aNewLine ww3.nextId).AddSpace unit
            nextId := ww3.nextId + 1 }
        else ww
      { ww4 with started := true, lastUnit := unit }
  | .Word =>
      let c := ww.currentPair.AddWord unit
      let line1 : Line := { ww.currentLine with
        pairs := ww.currentLine.pairs.map (fun p => if p.id = c.id then c else p) }
      let ww1 : WordWrapper ω := { ww with
        currentPair := c
        currentLine := line1 }
      let ww2 := if ¬ ww1.currentLine.PairFits ww1.currentPair
        then ww1.flushLine else ww1
      { ww2 with started := true, lastUnit := unit }

/-- `WordWrapper.FinalFlush`. -/
def WordWrapper.FinalFlush (ww : WordWrapper ω) : WordWrapper ω :=
  let ww1 := if ww.currentPair.HasWord ∧ ¬ ww.currentLine.IsLastPair ww.currentPair
    then ww.appendPair ww.currentPair else ww
  if ww1.currentLine.NotEmpty then ww1.flushLine else ww1

/-- `WordWrapper.AddWord`. -/
def WordWrapper.AddWord (ww : WordWrapper ω) (word : List Char) : WordWrapper ω :=
  ww.AddUnit (WordUnit word)

/-- `WordWrapper.AddSpaces`. -/
def WordWrapper.AddSpaces (ww : WordWrapper ω) (spaces : List Char) :
    WordWrapper ω :=
  ww.AddUnit (SpaceUnit spaces)

/-- `WordWrapper.AddNewLine`. -/
def WordWrapper.AddNewLine (ww : WordWrapper ω) : WordWrapper ω :=
  ww.AddUnit newlineUnit

/-- Feeding a list of units in order. -/
def WordWrapper.wrapUnits (ww : WordWrapper ω) (units : List WrapUnit) :
    WordWrapper ω :=
  units.foldl WordWrapper.AddUnit ww

/-- `WordWrapper.WrapString`: lex, feed every unit, final flush. -/
def WordWrapper.WrapString (ww : WordWrapper ω) (s : List Char) :
    WordWrapper ω :=
  (ww.wrapUnits (FeedWordsForWrapping s)).FinalFlush

/-- Output of a whole wrapping pass over a fresh in-memory writer. -/
def wrapOutput (options : WrapOptions) (s : List Char) : List Char :=
  ((NewWordWrapper ([] : List Char) options).WrapString s).Writer

/-! ### Sanity checks against the cases of src/wordwrap_test.go -/

example : wrapOutput ⟨4, 0, []⟩ "foo".data = "foo".data := by decide
example : wrapOutput ⟨4, 0, []⟩ "foobarbaz".data = "foobarbaz".data := by decide
example : wrapOutput ⟨4, 0, []⟩ "foo bar baz".data = "foo\nbar\nbaz".data := by decide
example : wrapOutput ⟨7, 0, []⟩ "foo bar baz".data = "foo bar\nbaz".data := by decide
example : wrapOutput ⟨8, 0, []⟩ "foo bar baz".data = "foo bar\nbaz".data := by decide
example : wrapOutput ⟨4, 0, []⟩ "fo sop".data = "fo\nsop".data := by decide
example : wrapOutput ⟨4, 0, []⟩ "foo\nb\t r\n baz".data = "foo\nb\t r\n baz".data := by
  decide
example : wrapOutput ⟨4, 0, []⟩ "foo    \nb   ar   ".data = "foo\nb\nar".data := by
  decide
example : wrapOutput ⟨4, 0, []⟩ "foo bar baz\n".data = "foo\nbar\nbaz\n".data := by
  decide
example : wrapOutput ⟨4, 0, []⟩ "\nfoo bar\n\n\nbaz\n".data
    = "\nfoo\nbar\n\n\nbaz\n".data := by decide
example : wrapOutput ⟨4, 0, []⟩ "\n\n foo\n\n\t bar".data
    = "\n\n foo\n\n\t bar".data := by decide
example : wrapOutput ⟨6, 0, []⟩ " This is a list: \n\n\t* foo\n\t* bar\n\n\n\t* baz  \nBAM    ".data
    = " This\nis a\nlist:\n\n\t* foo\n\t* bar\n\n\n\t* baz\nBAM".data := by decide
example : wrapOutput ⟨5, 2, []⟩ "aa bb cc dd ee ff gg".data
    = "aa\nbb cc\ndd ee\nff gg".data := by decide
example : wrapOutput ⟨5, 0, "  ".data⟩ "aa bb cc dd ee ff gg".data
    = "  aa bb\n  cc dd\n  ee ff\n  gg".data := by decide
example : wrapOutput ⟨5, 2, "xx".data⟩ "aa bb cc dd ee ff gg".data
    = "aa\nxxbb cc\nxxdd ee\nxxff gg".data := by decide

/-! ## Output structure of a wrapping pass

A wrapping pass emits a sequence of flushed lines, grouped into blocks that
are separated by exactly one `'\n'` per explicit NewLine unit; inside a
block, consecutive flushed lines are separated by one wrap-inserted `'\n'`.
`LineD` describes one flushed line: whether the indentation prefix was
written, the initial width the accumulator line was created with, and the
pairs it held when flushed. -/

structure LineD where
  ind : Bool
  st : Nat
  pairs : List UnitPair
  deriving DecidableEq, Repr

/-- The characters of one flushed line. -/
def LineD.render (indentation : List Char) (ld : LineD) : List Char :=
  (if ld.ind then indentation else []) ++ renderPairs ld.pairs

/-- A block's characters: its flushed lines joined by single newlines. -/
def joinLines (indentation : List Char) : List LineD → List Char
  | [] => []
  | [ld] => ld.render indentation
  | ld :: rest => ld.render indentation ++ '\n' :: joinLines indentation rest

/-- The full output: blocks joined by single newlines (one per explicit
NewLine unit). -/
def renderOutput (indentation : List Char) : List (List LineD) → List Char
  | [] => []
  | [b] => joinLines indentation b
  | b :: bs => joinLines indentation b ++ '\n' :: renderOutput indentation bs

/-- Mid-pass output: the closed blocks followed by the still-open block. -/
def renderState (indentation : List Char) (closed : List (List LineD))
    (cur : List LineD) : List Char :=
  renderOutput indentation (closed ++ [cur])

/-! ### Width accounting -/

/-- The un-wrapped width of a pair (its full space-plus-word width). -/
def pairWidthN (p : UnitPair) : Nat := p.Word.width + p.LeadSpace.width

/-- The width `Line.AppendPair` charges for a pair: word-only for a first
pair not preceded by an explicit newline, full width otherwise. -/
def chargeOf (first : Bool) (p : UnitPair) : Nat :=
  if first ∧ p.precededByNewLine = false then p.Word.width else pairWidthN p

/-- Total charged width of a pair list (only the first pair is special). -/
def chargeSum : List UnitPair → Nat
  | [] => 0
  | p :: rest => chargeOf true p + (rest.map pairWidthN).sum

/-! ### Well-formedness of units and pairs produced by a lexer-driven pass -/

/-- A word unit as produced by the lexer: nonempty, all characters of Word
class, width equal to the code-point count. -/
def WordOK (u : WrapUnit) : Prop :=
  u.typ = .Word ∧ u.value ≠ [] ∧ (∀ ch ∈ u.value, classify ch = .Word) ∧
  u.width = u.value.length

/-- A lead space as held by a pair: null, or all characters of Spaces class
with width equal to the code-point count. -/
def LeadOK (u : WrapUnit) : Prop :=
  u = nullUnit ∨
  (u.typ = .Spaces ∧ (∀ ch ∈ u.value, classify ch = .Spaces) ∧
    u.width = u.value.length)

/-- A pair stored in the line: a real word plus a well-formed lead space. -/
def PairOK (p : UnitPair) : Prop := WordOK p.Word ∧ LeadOK p.LeadSpace

/-- The pending pair: its word is null or a real word. -/
def CPairOK (p : UnitPair) : Prop :=
  (p.Word = nullUnit ∨ WordOK p.Word) ∧ LeadOK p.LeadSpace

/-- Facts holding of every flushed line of a lexer-driven pass:
it is nonempty, all pairs are well-formed, a line holding at least two
pairs fits the limit (starting-column charge included), and an overlong
word occupies its line alone. -/
def LDOK (limit : Nat) (ld : LineD) : Prop :=
  ld.pairs ≠ [] ∧ (∀ p ∈ ld.pairs, PairOK p) ∧
  (2 ≤ ld.pairs.length → ld.st + chargeSum ld.pairs ≤ limit) ∧
  (∀ p ∈ ld.pairs, limit < p.Word.width → ld.pairs = [p])

/-! ### Word bookkeeping -/

/-- The word payloads of one flushed line, in order. -/
def wordsOfLD (ld : LineD) : List (List Char) :=
  ld.pairs.map (fun p => p.Word.value)

/-- The word payloads of a block sequence, in order. -/
def wordsOfBlocks (bs : List (List LineD)) : List (List Char) :=
  (bs.map (fun b => (b.map wordsOfLD).flatten)).flatten

/-- The word payload still pending in the current pair. -/
def cWords (p : UnitPair) : List (List Char) :=
  if p.Word.IsNull then [] else [p.Word.value]

/-- All word payloads present in a wrapper state, in order: already written,
held by the current line, pending in the current pair. -/
def stateWords (ww : WordWrapper (List Char)) (closed : List (List LineD))
    (cur : List LineD) : List (List Char) :=
  wordsOfBlocks (closed ++ [cur]) ++
    ww.currentLine.pairs.map (fun p => p.Word.value) ++ cWords ww.currentPair

/-! ### Stream facts about units -/

/-- Properties of every unit the lexer produces. -/
def UnitWF (u : WrapUnit) : Prop :=
  (u.typ = .Word → WordOK u) ∧
  (u.typ = .Spaces →
    u.value ≠ [] ∧ (∀ ch ∈ u.value, classify ch = .Spaces) ∧
    u.width = u.value.length) ∧
  (u.typ = .NewLine → u = newlineUnit) ∧
  u.typ ≠ .NullUnit

/-- Adjacency discipline of a lexed unit stream relative to the type of the
previously consumed unit: two consecutive units never share a type unless
both are NewLine. -/
def StreamOK : WordWrapType → List WrapUnit → Prop
  | _, [] => True
  | prev, u :: us => (u.typ ≠ prev ∨ u.typ = .NewLine) ∧ StreamOK u.typ us

/-- Total width carried by a unit list. -/
def widthSum (us : List WrapUnit) : Nat := (us.map (fun u => u.width)).sum

/-- The word payloads of a unit list, in order. -/
def wordVals (us : List WrapUnit) : List (List Char) :=
  (us.filter (fun u => u.typ = .Word)).map (fun u => u.value)

/-- Number of NewLine units of a unit list. -/
def countNL (us : List WrapUnit) : Nat :=
  us.countP (fun u => u.typ = .NewLine)

/-! ### The reachability invariant of a lexer-driven wrapping pass -/

/-- The initial width of the accumulator line currently held by the
wrapper: `StartsAt` until the first flush, 0 afterwards. -/
def lineInit (ww : WordWrapper (List Char)) : Nat :=
  if ww.flushed then 0 else ww.StartsAt

/-- The invariant tying a reachable wrapper state to the ghost description
of its output: `closed` are the blocks ended by an explicit newline, `cur`
the open block, `used` an upper bound on the width consumed so far, `ws`
the word payloads consumed so far. -/
structure WwInv (ww : WordWrapper (List Char)) (closed : List (List LineD))
    (cur : List LineD) (used : Nat) (ws : List (List Char)) : Prop where
  hout : ww.Writer = renderState ww.Indentation closed cur
  hlim : ww.currentLine.limit = ww.Limit
  hwidth : ww.currentLine.width = lineInit ww + chargeSum ww.currentLine.pairs
  hsmall : ww.StartsAt + used < U64
  hbound : ww.currentLine.width + pairWidthN ww.currentPair ≤ ww.StartsAt + used
  hpairs : ∀ p ∈ ww.currentLine.pairs, PairOK p
  hcp : CPairOK ww.currentPair
  hids : ∀ p ∈ ww.currentLine.pairs, p.id ≠ ww.currentPair.id
  hidlt : ∀ p ∈ ww.currentLine.pairs, p.id < ww.nextId
  hcidlt : ww.currentPair.id < ww.nextId
  hflat : ∀ ld ∈ closed.flatten ++ cur, LDOK ww.Limit ld
  hst : ∀ ld ∈ closed.flatten ++ cur,
    ld.st = 0 ∨ (ld.st = ww.StartsAt ∧ (closed.flatten ++ cur).head? = some ld)
  hover : ∀ p ∈ ww.currentLine.pairs,
    ww.Limit < p.Word.width → ww.currentLine.pairs = [p]
  hfits2 : 2 ≤ ww.currentLine.pairs.length → ww.currentLine.width ≤ ww.Limit
  hQ : ww.currentLine.pairs ≠ [] → ww.currentPair.precededByNewLine = false
  hsepA : ∀ p pr, ww.currentLine.pairs = p :: pr →
    ((ww.flushed = true ∧ p.precededByNewLine = false) ↔ cur ≠ [])
  hsepB : ww.currentLine.pairs = [] →
    ((ww.flushed = true ∧ ww.currentPair.precededByNewLine = false) ↔ cur ≠ [])
  hlastNL : ww.lastUnit.typ = .NewLine →
    ww.currentPair.Word = nullUnit ∧ ww.currentPair.LeadSpace = nullUnit ∧
    ww.currentPair.precededByNewLine = true ∧ ww.currentLine.pairs = []
  hlastW : ww.lastUnit.typ = .Word →
    (ww.currentLine.pairs = [] ∨
      ww.currentLine.width + pairWidthN ww.currentPair ≤ ww.Limit)
  hlastS : ww.lastUnit.typ = .Spaces → ww.currentPair.Word = nullUnit
  hlastWd : ww.lastUnit.typ = .Word → ww.currentPair.HasWord = true
  hstart : ww.started = false →
    ww.lastUnit = nullUnit ∧ ww.currentPair.Word = nullUnit ∧
    ww.currentPair.LeadSpace = nullUnit ∧
    ww.currentPair.precededByNewLine = true ∧
    ww.currentLine.pairs = [] ∧ ww.flushed = false
  hlastNull : ww.lastUnit.typ = .NullUnit → ww.started = false
  hnoflush : ww.flushed = false → (∀ b ∈ closed, b = []) ∧ cur = []
  hwords : stateWords ww closed cur = ws

/-! ### Rendering algebra -/

theorem joinLines_cons_cons (ind : List Char) (a b : LineD) (ls : List LineD) :
    joinLines ind (a :: b :: ls) = a.render ind ++ '\n' :: joinLines ind (b :: ls) :=
  rfl

theorem joinLines_append (ind : List Char) (ls : List LineD) (ld : LineD) :
    joinLines ind (ls ++ [ld]) =
      joinLines ind ls ++ (if ls.isEmpty then [] else ['\n']) ++ ld.render ind := by
  induction ls with
  | nil => simp [joinLines]
  | cons a ls ih =>
    cases ls with
    | nil => simp [joinLines]
    | cons b ls' =>
      have h1 : joinLines ind ((a :: b :: ls') ++ [ld])
          = a.render ind ++ '\n' :: joinLines ind ((b :: ls') ++ [ld]) := by
        simp only [List.cons_append]
        exact joinLines_cons_cons ind a b (ls' ++ [ld])
      rw [h1, ih, joinLines_cons_cons]
      simp

theorem renderOutput_cons_cons (ind : List Char) (a b : List LineD)
    (bs : List (List LineD)) :
    renderOutput ind (a :: b :: bs) =
      joinLines ind a ++ '\n' :: renderOutput ind (b :: bs) :=
  rfl

theorem renderOutput_cons (ind : List Char) (b : List LineD)
    (bs : List (List LineD)) (h : bs ≠ []) :
    renderOutput ind (b :: bs) = joinLines ind b ++ '\n' :: renderOutput ind bs := by
  cases bs with
  | nil => exact absurd rfl h
  | cons b' bs' => exact renderOutput_cons_cons ind b b' bs'

theorem renderOutput_append (ind : List Char) (bs : List (List LineD))
    (b : List LineD) (h : bs ≠ []) :
    renderOutput ind (bs ++ [b]) =
      renderOutput ind bs ++ '\n' :: joinLines ind b := by
  induction bs with
  | nil => exact absurd rfl h
  | cons a bs ih =>
    cases bs with
    | nil => simp [renderOutput, joinLines]
    | cons a' bs' =>
      rw [List.cons_append, renderOutput_cons _ _ _ (by simp),
        renderOutput_cons _ _ _ (by simp), ih (by simp)]
      simp

theorem renderState_newBlock (ind : List Char) (closed : List (List LineD))
    (cur : List LineD) :
    renderState ind (closed ++ [cur]) [] = renderState ind closed cur ++ ['\n'] := by
  unfold renderState
  rw [renderOutput_append ind (closed ++ [cur]) [] (by simp)]
  simp [joinLines]

theorem renderState_appendLine (ind : List Char) (closed : List (List LineD))
    (cur : List LineD) (ld : LineD) :
    renderState ind closed (cur ++ [ld]) =
      renderState ind closed cur ++
        (if cur.isEmpty then [] else ['\n']) ++ ld.render ind := by
  unfold renderState
  cases closed with
  | nil =>
    simp only [List.nil_append, renderOutput, joinLines_append]
  | cons b bs =>
    rw [List.cons_append, List.cons_append,
      renderOutput_cons _ _ _ (by simp), renderOutput_cons _ _ _ (by simp)]
    cases bs with
    | nil =>
      simp only [List.nil_append, renderOutput, joinLines_append]
      simp
    | cons b' bs' =>
      rw [renderOutput_append _ _ _ (by simp), renderOutput_append _ _ _ (by simp)]
      simp only [joinLines, joinLines_append]
      simp

/-! ### Charge and word accounting -/

theorem chargeSum_append (ps : List UnitPair) (p : UnitPair) :
    chargeSum (ps ++ [p]) =
      chargeSum ps + (if ps.isEmpty then chargeOf true p else pairWidthN p) := by
  cases ps with
  | nil => simp [chargeSum]
  | cons a rest => simp [chargeSum, Nat.add_assoc]

theorem chargeOf_le (first : Bool) (p : UnitPair) :
    chargeOf first p ≤ pairWidthN p := by
  unfold chargeOf pairWidthN
  split <;> omega

theorem word_le_chargeOf (first : Bool) (p : UnitPair) :
    p.Word.width ≤ chargeOf first p := by
  unfold chargeOf pairWidthN
  split <;> omega

theorem chargeSum_le (ps : List UnitPair) :
    chargeSum ps ≤ (ps.map pairWidthN).sum := by
  cases ps with
  | nil => simp [chargeSum]
  | cons a rest =>
    simp only [chargeSum, List.map_cons, List.sum_cons]
    have := chargeOf_le true a
    omega

theorem wordsOfBlocks_append (bs : List (List LineD)) (b : List LineD) :
    wordsOfBlocks (bs ++ [b]) = wordsOfBlocks bs ++ (b.map wordsOfLD).flatten := by
  simp [wordsOfBlocks]

theorem wordsOfBlocks_lastLine (closed : List (List LineD)) (cur : List LineD)
    (ld : LineD) :
    wordsOfBlocks (closed ++ [cur ++ [ld]]) =
      wordsOfBlocks (closed ++ [cur]) ++ wordsOfLD ld := by
  rw [wordsOfBlocks_append, wordsOfBlocks_append]
  simp

theorem wordsOfBlocks_newBlock (closed : List (List LineD)) (cur : List LineD) :
    wordsOfBlocks ((closed ++ [cur]) ++ [[]]) = wordsOfBlocks (closed ++ [cur]) := by
  rw [wordsOfBlocks_append]
  simp [wordsOfLD]

/-! ### Small facts about units, pairs and lines -/

theorem Merge_null_left (u : WrapUnit) : nullUnit.Merge u = u := by
  simp [WrapUnit.Merge, nullUnit]

theorem Merge_word_word (w u : WrapUnit) (hw : w.typ = .Word) (hu : u.typ = .Word) :
    w.Merge u = ⟨w.value ++ u.value, .Word, addU w.width u.width⟩ := by
  simp [WrapUnit.Merge, hw, hu]

theorem HasWord_of_WordOK {p : UnitPair} (h : WordOK p.Word) : p.HasWord = true := by
  simp [UnitPair.HasWord, WrapUnit.IsNull, h.1]

theorem HasWord_null {p : UnitPair} (h : p.Word = nullUnit) : p.HasWord = false := by
  simp [UnitPair.HasWord, WrapUnit.IsNull, h, nullUnit]

theorem IsNull_false_of_WordOK {p : UnitPair} (h : WordOK p.Word) :
    p.IsNull = false := by
  simp [UnitPair.IsNull, WrapUnit.IsNull, h.1]

theorem getLast?_mem_of_eq {α : Type} {l : List α} {a : α}
    (h : l.getLast? = some a) : a ∈ l := by
  obtain ⟨hne, rfl⟩ := List.mem_getLast?_eq_getLast (Option.mem_def.mpr h)
  exact List.getLast_mem hne

theorem isLastPair_false {l : Line} {c : UnitPair}
    (h : ∀ p ∈ l.pairs, p.id ≠ c.id) : l.IsLastPair c = false := by
  unfold Line.IsLastPair Line.LastPair
  cases hl : l.pairs.getLast? with
  | none => rfl
  | some p =>
    have := h p (getLast?_mem_of_eq hl)
    simp [this]

theorem AppendPair_eq {l : Line} {p : UnitPair} (h : p.IsNull = false) :
    l.AppendPair p =
      ⟨l.pairs ++ [p],
        addU l.width
          (if l.pairs.length = 0 ∧ ¬ p.isPrecededByNewLine
           then p.WordWidth else p.Width),
        l.limit⟩ := by
  simp [Line.AppendPair, h]

theorem goWrite_list (out chunk : List Char) : GoWriter.write out chunk = out ++ chunk :=
  rfl

theorem Width_eq {p : UnitPair} (h : pairWidthN p < U64) : p.Width = pairWidthN p :=
  addU_eq_of_lt h

theorem AppendPair_spec {l : Line} {p : UnitPair} (hp : WordOK p.Word)
    (hsm : l.width + pairWidthN p < U64) :
    l.AppendPair p =
      ⟨l.pairs ++ [p],
        l.width + (if l.pairs.isEmpty then chargeOf true p else pairWidthN p),
        l.limit⟩ := by
  have hpn : pairWidthN p < U64 := by omega
  rw [AppendPair_eq (IsNull_false_of_WordOK hp)]
  have hcharge :
      (if l.pairs.length = 0 ∧ ¬ p.isPrecededByNewLine
       then p.WordWidth else p.Width) =
      (if l.pairs.isEmpty then chargeOf true p else pairWidthN p) := by
    rw [Width_eq hpn]
    unfold chargeOf UnitPair.WordWidth UnitPair.isPrecededByNewLine
    rcases hl : l.pairs with _ | ⟨q, qs⟩ <;>
      rcases hb : p.precededByNewLine <;> simp
  rw [hcharge]
  have hle : (if l.pairs.isEmpty then chargeOf true p else pairWidthN p)
      ≤ pairWidthN p := by
    split
    · exact chargeOf_le true p
    · exact le_rfl
  rw [addU_eq_of_lt (by omega)]

theorem PairFits_iff {l : Line} {p : UnitPair}
    (hsm : l.width + pairWidthN p < U64) :
    l.PairFits p = true ↔ (l.pairs = [] ∨ l.width + pairWidthN p ≤ l.limit) := by
  unfold Line.PairFits Line.Fits
  rw [Width_eq (by omega), addU_eq_of_lt hsm]
  simp [List.length_eq_zero]

theorem Filled_iff {l : Line} : l.Filled = true ↔ l.limit ≤ l.width := by
  simp [Line.Filled]

theorem NotEmpty_iff {l : Line} : l.NotEmpty = true ↔ 0 < l.width := by
  simp [Line.NotEmpty]

theorem flatten_nil_of_all {α : Type} {bs : List (List α)}
    (h : ∀ b ∈ bs, b = []) : bs.flatten = [] := by
  induction bs with
  | nil => rfl
  | cons b rest ih =>
    rw [List.flatten_cons, h b (by simp), ih (fun x hx => h x (by simp [hx]))]
    rfl

theorem head?_append_left {α : Type} {xs : List α} (ys : List α) (h : xs ≠ []) :
    (xs ++ ys).head? = xs.head? := by
  cases xs with
  | nil => exact absurd rfl h
  | cons a rest => simp

/-! ### `flushLine` characterization -/

theorem flushLine_noop (ww : WordWrapper (List Char))
    (h : ww.currentLine.width = 0) : ww.flushLine = ww := by
  unfold WordWrapper.flushLine
  rw [if_pos]
  simp [Line.NotEmpty, h]

theorem flushLine_run (ww : WordWrapper (List Char))
    (hw : ww.currentLine.width ≠ 0) :
    ww.flushLine = { ww with
      Writer := ww.Writer ++
        ((if ww.flushed ∧ ¬ ww.currentLine.IsPrecededByNewLine
          then ['\n'] else []) ++
         (if ww.flushed ∨ ww.StartsAt = 0 then ww.Indentation else []) ++
         renderPairs ww.currentLine.pairs)
      currentLine := NewLineObject 0 ww.Limit
      flushed := true
      filledLineLast := false } := by
  unfold WordWrapper.flushLine
  rw [if_neg (by simp [Line.NotEmpty]; omega)]
  simp only [goWrite_list, Line.render]
  split_ifs <;> simp [List.append_assoc]

/-! ### Definitional shapes of `AddUnit` at each unit kind -/

theorem AddUnit_newline (ww : WordWrapper (List Char)) :
    ww.AddUnit newlineUnit =
      (let ww1 := if ww.currentPair.HasWord ∧ ¬ ww.currentLine.IsLastPair ww.currentPair
        then ww.appendPair ww.currentPair else ww
      let ww2 := if ww1.lastUnit.typ ≠ WordWrapType.NewLine
        then
          let wwf := ww1.flushLine
          { wwf with
            currentPair := NewUnitPair true wwf.nextId
            nextId := wwf.nextId + 1 }
        else ww1
      let ww3 := ww2.writeNewLine
      { ww3 with started := true, lastUnit := newlineUnit }) := rfl

theorem AddUnit_spaces (ww : WordWrapper (List Char)) (u : WrapUnit)
    (ht : u.typ = .Spaces) :
    ww.AddUnit u =
      (let aNewLine := ¬ ww.started ∨ ww.lastUnit.typ = .NewLine
      let ww4 :=
        if ww.lastUnit.typ ≠ WordWrapType.Spaces then
          let ww1 := if ¬ ww.currentLine.PairFits ww.currentPair
            then ww.flushLine else ww
          let ww2 := if ww1.currentPair.HasWord
            then ww1.appendPair ww1.currentPair else ww1
          let ww3 := if ww2.currentLine.Filled then ww2.flushLine else ww2
          { ww3 with
            currentPair := (NewUnitPair aNewLine ww3.nextId).AddSpace u
            nextId := ww3.nextId + 1 }
        else ww
      { ww4 with started := true, lastUnit := u }) := by
  unfold WordWrapper.AddUnit
  rw [ht]

theorem AddUnit_word (ww : WordWrapper (List Char)) (u : WrapUnit)
    (ht : u.typ = .Word) :
    ww.AddUnit u =
      (let c := ww.currentPair.AddWord u
      let line1 : Line := { ww.currentLine with
        pairs := ww.currentLine.pairs.map (fun p => if p.id = c.id then c else p) }
      let ww1 : WordWrapper (List Char) := { ww with
        currentPair := c
        currentLine := line1 }
      let ww2 := if ¬ ww1.currentLine.PairFits ww1.currentPair
        then ww1.flushLine else ww1
      { ww2 with started := true, lastUnit := u }) := by
  unfold WordWrapper.AddUnit
  rw [ht]

/-! ### Emission helpers -/

/-- Whether a flush at this state writes the indentation prefix. -/
def wwIndFlag (ww : WordWrapper (List Char)) : Bool :=
  ww.flushed || ww.StartsAt == 0

theorem indEmit_eq (ww : WordWrapper (List Char)) (X : List Char) :
    (if ww.flushed ∨ ww.StartsAt = 0 then X else []) =
      (if wwIndFlag ww = true then X else []) := by
  unfold wwIndFlag
  by_cases h1 : ww.flushed = true <;> by_cases h2 : ww.StartsAt = 0 <;>
    simp [h1, h2]

theorem word_le_chargeSum {ps : List UnitPair} {p : UnitPair} (h : p ∈ ps) :
    p.Word.width ≤ chargeSum ps := by
  cases ps with
  | nil => cases h
  | cons q qs =>
    simp only [chargeSum]
    rcases List.mem_cons.mp h with rfl | hmem
    · have := word_le_chargeOf true p
      omega
    · have h1 : p.Word.width ≤ pairWidthN p := by unfold pairWidthN; omega
      have h2 : pairWidthN p ≤ (qs.map pairWidthN).sum :=
        List.single_le_sum (fun x _ => Nat.zero_le x) _ (List.mem_map_of_mem _ hmem)
      omega

theorem isPbn_cons (p : UnitPair) (pr : List UnitPair) (w l : Nat) :
    Line.IsPrecededByNewLine ⟨p :: pr, w, l⟩ = p.precededByNewLine := rfl

theorem sep_emit_eq {f pbnX : Bool} {cur : List LineD}
    (hiff : (f = true ∧ pbnX = false) ↔ cur ≠ []) :
    (if f = true ∧ ¬ (pbnX = true) then (['\n'] : List Char) else []) =
      (if cur.isEmpty then [] else ['\n']) := by
  by_cases hc : cur = []
  · subst hc
    have h2 : (if ([] : List LineD).isEmpty then ([] : List Char) else ['\n']) = [] := by
      simp
    rw [h2, if_neg]
    intro h
    exact (hiff.mp ⟨h.1, by simpa using h.2⟩) rfl
  · have h2 : (if cur.isEmpty then ([] : List Char) else ['\n']) = ['\n'] := by
      rw [if_neg]
      simpa using hc
    obtain ⟨hf1, hp1⟩ := hiff.mpr hc
    rw [h2, if_pos ⟨hf1, by simp [hp1]⟩]

theorem cWords_hasWord {p : UnitPair} (h : p.HasWord = true) :
    cWords p = [p.Word.value] := by
  unfold cWords
  unfold UnitPair.HasWord at h
  simp at h
  simp [h]

theorem cWords_nullWord {p : UnitPair} (h : p.Word = nullUnit) : cWords p = [] := by
  unfold cWords
  simp [h, WrapUnit.IsNull, nullUnit]

theorem word_width_pos {u : WrapUnit} (h : WordOK u) : 1 ≤ u.width := by
  obtain ⟨_, hne, _, hw⟩ := h
  rw [hw]
  exact List.length_pos.mpr hne

/-! ### The NewLine step -/

theorem step_newline {ww : WordWrapper (List Char)} {closed : List (List LineD)}
    {cur : List LineD} {used : Nat} {ws : List (List Char)} {u : WrapUnit}
    (inv : WwInv ww closed cur used ws) (hu : UnitWF u) (ht : u.typ = .NewLine) :
    ∃ closed' cur',
      WwInv (ww.AddUnit u) closed' cur' (used + u.width) ws ∧
      closed'.length = closed.length + 1 := by
  have hune : u = newlineUnit := hu.2.2.1 ht
  subst hune
  by_cases hLU : ww.lastUnit.typ = WordWrapType.NewLine
  · -- the previous unit was already a NewLine: only the literal newline is
    -- written, the pending pair stays fresh
    obtain ⟨hcw, hcl, hcb, hlp⟩ := inv.hlastNL hLU
    have hHW : ww.currentPair.HasWord = false := HasWord_null hcw
    have hcur : cur = [] := by
      by_contra hne
      have := (inv.hsepB hlp).mpr hne
      rw [hcb] at this
      simp at this
    subst hcur
    have hstep : ww.AddUnit newlineUnit =
        { ww with
          Writer := ww.Writer ++ ['\n']
          started := true
          lastUnit := newlineUnit } := by
      have h1 : ¬ (ww.currentPair.HasWord ∧ ¬ ww.currentLine.IsLastPair ww.currentPair) := by
        simp [hHW]
      have h2 : ¬ (ww.lastUnit.typ ≠ WordWrapType.NewLine) := by simp [hLU]
      rw [AddUnit_newline]
      simp only [if_neg h1, if_neg h2, WordWrapper.writeNewLine, goWrite_list]
    refine ⟨closed ++ [[]], [], ?_, by simp⟩
    rw [hstep]
    exact {
      hout := by
        show ww.Writer ++ ['\n'] = renderState ww.Indentation (closed ++ [[]]) []
        rw [renderState_newBlock, inv.hout]
      hlim := inv.hlim
      hwidth := inv.hwidth
      hsmall := inv.hsmall
      hbound := inv.hbound
      hpairs := inv.hpairs
      hcp := inv.hcp
      hids := inv.hids
      hidlt := inv.hidlt
      hcidlt := inv.hcidlt
      hflat := by simpa using inv.hflat
      hst := by simpa using inv.hst
      hover := inv.hover
      hfits2 := inv.hfits2
      hQ := inv.hQ
      hsepA := by
        intro p pr h
        rw [hlp] at h
        cases h
      hsepB := by
        intro _
        rw [hcb]
        simp
      hlastNL := fun _ => ⟨hcw, hcl, hcb, hlp⟩
      hlastW := by intro h; simp [newlineUnit] at h
      hlastS := by intro h; simp [newlineUnit] at h
      hlastWd := by intro h; simp [newlineUnit] at h
      hstart := by intro h; simp at h
      hlastNull := by intro h; simp [newlineUnit] at h
      hnoflush := by
        intro hf
        obtain ⟨hall, hc⟩ := inv.hnoflush hf
        refine ⟨?_, rfl⟩
        intro b hb
        rcases List.mem_append.mp hb with h | h
        · exact hall b h
        · simpa using h
      hwords := by
        have hold := inv.hwords
        unfold stateWords at hold ⊢
        rw [wordsOfBlocks_newBlock]
        rw [hlp] at hold ⊢
        simpa using hold }
  · -- the previous unit was not a NewLine: append a pending word, flush,
    -- then emit the literal newline with a fresh pair
    by_cases hcw : ww.currentPair.HasWord = true
    · -- B1: the pending pair holds a word
      have hcW : WordOK ww.currentPair.Word := by
        rcases inv.hcp.1 with h | h
        · exact absurd hcw (by simp [HasWord_null h])
        · exact h
      have hIsLast : ww.currentLine.IsLastPair ww.currentPair = false :=
        isLastPair_false inv.hids
      have hWT : ww.lastUnit.typ = WordWrapType.Word := by
        cases htyp : ww.lastUnit.typ with
        | NullUnit =>
          obtain ⟨_, hw0, _, _, _, _⟩ := inv.hstart (inv.hlastNull htyp)
          exact absurd hcw (by simp [HasWord_null hw0])
        | Spaces => exact absurd hcw (by simp [HasWord_null (inv.hlastS htyp)])
        | NewLine => exact absurd htyp hLU
        | Word => rfl
      have hWfits := inv.hlastW hWT
      have hsm1 : ww.currentLine.width + pairWidthN ww.currentPair < U64 :=
        lt_of_le_of_lt inv.hbound inv.hsmall
      have happ := AppendPair_spec hcW hsm1
      have hchpos : 1 ≤ (if ww.currentLine.pairs.isEmpty
          then chargeOf true ww.currentPair else pairWidthN ww.currentPair) := by
        have h1 := word_le_chargeOf true ww.currentPair
        have h2 := word_width_pos hcW
        have h3 : ww.currentPair.Word.width ≤ pairWidthN ww.currentPair := by
          unfold pairWidthN
          omega
        split <;> omega
      have hW1 : (ww.currentLine.AppendPair ww.currentPair).width ≠ 0 := by
        rw [happ]
        show ww.currentLine.width + (if ww.currentLine.pairs.isEmpty
          then chargeOf true ww.currentPair else pairWidthN ww.currentPair) ≠ 0
        omega
      have hflush := flushLine_run
        { ww with currentLine := ww.currentLine.AppendPair ww.currentPair } hW1
      have hpbnEq : Line.IsPrecededByNewLine (ww.currentLine.AppendPair ww.currentPair)
          = (match ww.currentLine.pairs with
             | [] => ww.currentPair.precededByNewLine
             | p0 :: _ => p0.precededByNewLine) := by
        rw [happ]
        cases hLp : ww.currentLine.pairs with
        | nil => simp only [List.nil_append, isPbn_cons]
        | cons p0 rest => simp only [List.cons_append, isPbn_cons]
      have hsepEq : (if ww.flushed ∧
            ¬ Line.IsPrecededByNewLine (ww.currentLine.AppendPair ww.currentPair)
          then (['\n'] : List Char) else []) =
          (if cur.isEmpty then [] else ['\n']) := by
        rw [hpbnEq]
        cases hLp : ww.currentLine.pairs with
        | nil => exact sep_emit_eq (inv.hsepB hLp)
        | cons p0 rest => exact sep_emit_eq (inv.hsepA p0 rest hLp)
      have hrendEq : renderPairs (ww.currentLine.AppendPair ww.currentPair).pairs
          = renderPairs (ww.currentLine.pairs ++ [ww.currentPair]) := by
        rw [happ]
      have hstep : ww.AddUnit newlineUnit = { ww with
          Writer := ww.Writer ++
            ((if cur.isEmpty then [] else ['\n']) ++
             ((if wwIndFlag ww = true then ww.Indentation else []) ++
              renderPairs (ww.currentLine.pairs ++ [ww.currentPair])) ++ ['\n'])
          currentLine := NewLineObject 0 ww.Limit
          flushed := true
          filledLineLast := false
          currentPair := NewUnitPair true ww.nextId
          nextId := ww.nextId + 1
          started := true
          lastUnit := newlineUnit } := by
        have h1 : (ww.currentPair.HasWord ∧
            ¬ ww.currentLine.IsLastPair ww.currentPair) :=
          ⟨hcw, by simp [hIsLast]⟩
        rw [AddUnit_newline]
        simp only [if_pos h1, WordWrapper.appendPair]
        rw [if_pos (show ww.lastUnit.typ ≠ WordWrapType.NewLine from hLU)]
        rw [hflush]
        simp only [WordWrapper.writeNewLine, goWrite_list, Line.render]
        rw [hsepEq, indEmit_eq, hrendEq]
        simp [List.append_assoc]
      refine ⟨closed ++
        [cur ++ [⟨wwIndFlag ww, lineInit ww,
          ww.currentLine.pairs ++ [ww.currentPair]⟩]], [], ?_, by simp⟩
      have hLDOK : LDOK ww.Limit ⟨wwIndFlag ww, lineInit ww,
          ww.currentLine.pairs ++ [ww.currentPair]⟩ := by
        refine ⟨by simp, ?_, ?_, ?_⟩
        · show ∀ p ∈ ww.currentLine.pairs ++ [ww.currentPair], PairOK p
          intro p hp
          rcases List.mem_append.mp hp with h | h
          · exact inv.hpairs p h
          · simp at h
            subst h
            exact ⟨hcW, inv.hcp.2⟩
        · show 2 ≤ (ww.currentLine.pairs ++ [ww.currentPair]).length →
            lineInit ww + chargeSum (ww.currentLine.pairs ++ [ww.currentPair])
              ≤ ww.Limit
          intro hlen
          have hLpne : ww.currentLine.pairs ≠ [] := by
            intro h0
            rw [h0] at hlen
            simp at hlen
          rcases hWfits with h | h
          · exact absurd h hLpne
          · rw [chargeSum_append,
              if_neg (by simpa [List.isEmpty_iff] using hLpne)]
            have hw := inv.hwidth
            omega
        · show ∀ p ∈ ww.currentLine.pairs ++ [ww.currentPair],
            ww.Limit < p.Word.width →
              ww.currentLine.pairs ++ [ww.currentPair] = [p]
          intro p hp hbig
          cases hLp : ww.currentLine.pairs with
          | nil =>
            rw [hLp] at hp
            simp only [List.nil_append] at hp
            simp at hp
            subst hp
            simp [hLp]
          | cons p0 rest =>
            exfalso
            have hLpne : ww.currentLine.pairs ≠ [] := by rw [hLp]; simp
            rcases hWfits with h | h
            · exact absurd h hLpne
            · rcases List.mem_append.mp hp with hpl | hpc
              · have h1 := word_le_chargeSum hpl
                have h2 := inv.hwidth
                omega
              · simp at hpc
                subst hpc
                have h3 : ww.currentPair.Word.width ≤ pairWidthN ww.currentPair := by
                  unfold pairWidthN
                  omega
                omega
      rw [hstep]
      exact {
        hout := by
          show ww.Writer ++ _ = renderState ww.Indentation _ []
          rw [renderState_newBlock, renderState_appendLine, inv.hout]
          simp [LineD.render, List.append_assoc]
        hlim := rfl
        hwidth := rfl
        hsmall := inv.hsmall
        hbound := by
          show 0 + pairWidthN (NewUnitPair true ww.nextId) ≤ ww.StartsAt + (used + 0)
          simp [pairWidthN, NewUnitPair, nullUnit]
        hpairs := by
          intro p hp
          simp [NewLineObject] at hp
        hcp := ⟨Or.inl rfl, Or.inl rfl⟩
        hids := by
          intro p hp
          simp [NewLineObject] at hp
        hidlt := by
          intro p hp
          simp [NewLineObject] at hp
        hcidlt := Nat.lt_succ_self _
        hflat := by
          intro ld0 h0
          simp only [List.append_nil] at h0
          rw [List.flatten_append] at h0
          simp only [List.flatten_cons, List.flatten_nil, List.append_nil] at h0
          rcases List.mem_append.mp h0 with h | h
          · exact inv.hflat ld0 (List.mem_append.mpr (Or.inl h))
          · rcases List.mem_append.mp h with h' | h'
            · exact inv.hflat ld0 (List.mem_append.mpr (Or.inr h'))
            · simp at h'
              subst h'
              exact hLDOK
        hst := by
          intro ld0 h0
          simp only [List.append_nil] at h0 ⊢
          rw [List.flatten_append] at h0 ⊢
          simp only [List.flatten_cons, List.flatten_nil, List.append_nil] at h0 ⊢
          have hPres : ld0 ∈ closed.flatten ++ cur →
              ld0.st = 0 ∨ (ld0.st = ww.StartsAt ∧
                (closed.flatten ++ (cur ++ [(⟨wwIndFlag ww, lineInit ww,
                  ww.currentLine.pairs ++ [ww.currentPair]⟩ : LineD)])).head?
                  = some ld0) := by
            intro hm
            rcases inv.hst ld0 hm with hl | ⟨he, hh⟩
            · exact Or.inl hl
            · refine Or.inr ⟨he, ?_⟩
              have hne : closed.flatten ++ cur ≠ [] := by
                intro hempty
                rw [hempty] at hh
                simp at hh
              rw [← List.append_assoc, head?_append_left _ hne]
              exact hh
          rcases List.mem_append.mp h0 with h | h
          · exact hPres (List.mem_append.mpr (Or.inl h))
          · rcases List.mem_append.mp h with h' | h'
            · exact hPres (List.mem_append.mpr (Or.inr h'))
            · simp at h'
              subst h'
              by_cases hf : ww.flushed = true
              · exact Or.inl (by simp [lineInit, hf])
              · refine Or.inr ⟨by simp [lineInit, hf], ?_⟩
                obtain ⟨hall, hc⟩ := inv.hnoflush (by simpa using hf)
                rw [flatten_nil_of_all hall, hc]
                rfl
        hover := by
          intro p hp
          simp [NewLineObject] at hp
        hfits2 := by
          intro h
          simp [NewLineObject] at h
        hQ := by
          intro h
          exact absurd rfl h
        hsepA := by
          intro p pr h
          simp [NewLineObject] at h
        hsepB := by
          intro _
          simp [NewUnitPair]
        hlastNL := fun _ => ⟨rfl, rfl, rfl, rfl⟩
        hlastW := by intro h; simp [newlineUnit] at h
        hlastS := by intro h; simp [newlineUnit] at h
        hlastWd := by intro h; simp [newlineUnit] at h
        hstart := by intro h; simp at h
        hlastNull := by intro h; simp [newlineUnit] at h
        hnoflush := by intro h; simp at h
        hwords := by
          have hold := inv.hwords
          unfold stateWords at hold ⊢
          rw [cWords_hasWord hcw] at hold
          rw [wordsOfBlocks_newBlock, wordsOfBlocks_lastLine]
          rw [cWords_nullWord rfl]
          show wordsOfBlocks (closed ++ [cur]) ++
            wordsOfLD ⟨wwIndFlag ww, lineInit ww,
              ww.currentLine.pairs ++ [ww.currentPair]⟩ ++ [] ++ [] = ws
          simp only [wordsOfLD, List.map_append, List.map_cons, List.map_nil,
            List.append_nil]
          simpa [List.append_assoc] using hold }
    · -- B2: the pending pair holds no word and is not appended
      have hwnull : ww.currentPair.Word = nullUnit := by
        rcases inv.hcp.1 with h | h
        · exact h
        · exact absurd (HasWord_of_WordOK h) (by simpa using hcw)
      have hHW : ww.currentPair.HasWord = false := HasWord_null hwnull
      have hHWn : ¬ ww.currentPair.HasWord = true := by simp [hHW]
      have h1 : ¬ (ww.currentPair.HasWord ∧
          ¬ ww.currentLine.IsLastPair ww.currentPair) := by
        simp [hHW]
      cases hLp : ww.currentLine.pairs with
      | cons p0 rest =>
        -- B2a: the line holds pairs and is flushed before the newline
        have hp0 : PairOK p0 := inv.hpairs p0 (by rw [hLp]; simp)
        have hwpos : ww.currentLine.width ≠ 0 := by
          have h2 := word_le_chargeSum
            (show p0 ∈ ww.currentLine.pairs by rw [hLp]; simp)
          have h3 := word_width_pos hp0.1
          have h4 := inv.hwidth
          omega
        have hflush := flushLine_run ww hwpos
        have hsepEq : (if ww.flushed ∧ ¬ ww.currentLine.IsPrecededByNewLine
            then (['\n'] : List Char) else []) =
            (if cur.isEmpty then [] else ['\n']) := by
          have hpbn : ww.currentLine.IsPrecededByNewLine = p0.precededByNewLine := by
            unfold Line.IsPrecededByNewLine
            rw [hLp]
          rw [hpbn]
          exact sep_emit_eq (inv.hsepA p0 rest hLp)
        have hstep : ww.AddUnit newlineUnit = { ww with
            Writer := ww.Writer ++
              ((if cur.isEmpty then [] else ['\n']) ++
               ((if wwIndFlag ww = true then ww.Indentation else []) ++
                renderPairs ww.currentLine.pairs) ++ ['\n'])
            currentLine := NewLineObject 0 ww.Limit
            flushed := true
            filledLineLast := false
            currentPair := NewUnitPair true ww.nextId
            nextId := ww.nextId + 1
            started := true
            lastUnit := newlineUnit } := by
          rw [AddUnit_newline]
          simp only [if_neg h1]
          rw [if_pos (show ww.lastUnit.typ ≠ WordWrapType.NewLine from hLU)]
          rw [hflush]
          simp only [WordWrapper.writeNewLine, goWrite_list, Line.render]
          rw [hsepEq, indEmit_eq]
          simp [List.append_assoc]
        refine ⟨closed ++
          [cur ++ [⟨wwIndFlag ww, lineInit ww, ww.currentLine.pairs⟩]], [],
          ?_, by simp⟩
        have hLDOK : LDOK ww.Limit
            ⟨wwIndFlag ww, lineInit ww, ww.currentLine.pairs⟩ := by
          refine ⟨by rw [hLp]; simp, ?_, ?_, ?_⟩
          · show ∀ p ∈ ww.currentLine.pairs, PairOK p
            exact inv.hpairs
          · show 2 ≤ ww.currentLine.pairs.length →
              lineInit ww + chargeSum ww.currentLine.pairs ≤ ww.Limit
            intro hlen
            have h2 := inv.hfits2 hlen
            have h3 := inv.hwidth
            omega
          · show ∀ p ∈ ww.currentLine.pairs, ww.Limit < p.Word.width →
              ww.currentLine.pairs = [p]
            exact inv.hover
        rw [hstep]
        exact {
          hout := by
            show ww.Writer ++ _ = renderState ww.Indentation _ []
            rw [renderState_newBlock, renderState_appendLine, inv.hout]
            simp [LineD.render, List.append_assoc]
          hlim := rfl
          hwidth := rfl
          hsmall := inv.hsmall
          hbound := by
            show 0 + pairWidthN (NewUnitPair true ww.nextId)
              ≤ ww.StartsAt + (used + 0)
            simp [pairWidthN, NewUnitPair, nullUnit]
          hpairs := by
            intro p hp
            simp [NewLineObject] at hp
          hcp := ⟨Or.inl rfl, Or.inl rfl⟩
          hids := by
            intro p hp
            simp [NewLineObject] at hp
          hidlt := by
            intro p hp
            simp [NewLineObject] at hp
          hcidlt := Nat.lt_succ_self _
          hflat := by
            intro ld0 h0
            simp only [List.append_nil] at h0
            rw [List.flatten_append] at h0
            simp only [List.flatten_cons, List.flatten_nil, List.append_nil] at h0
            rcases List.mem_append.mp h0 with h | h
            · exact inv.hflat ld0 (List.mem_append.mpr (Or.inl h))
            · rcases List.mem_append.mp h with h' | h'
              · exact inv.hflat ld0 (List.mem_append.mpr (Or.inr h'))
              · simp at h'
                subst h'
                exact hLDOK
          hst := by
            intro ld0 h0
            simp only [List.append_nil] at h0 ⊢
            rw [List.flatten_append] at h0 ⊢
            simp only [List.flatten_cons, List.flatten_nil, List.append_nil] at h0 ⊢
            have hPres : ld0 ∈ closed.flatten ++ cur →
                ld0.st = 0 ∨ (ld0.st = ww.StartsAt ∧
                  (closed.flatten ++ (cur ++ [(⟨wwIndFlag ww, lineInit ww,
                    ww.currentLine.pairs⟩ : LineD)])).head? = some ld0) := by
              intro hm
              rcases inv.hst ld0 hm with hl | ⟨he, hh⟩
              · exact Or.inl hl
              · refine Or.inr ⟨he, ?_⟩
                have hne : closed.flatten ++ cur ≠ [] := by
                  intro hempty
                  rw [hempty] at hh
                  simp at hh
                rw [← List.append_assoc, head?_append_left _ hne]
                exact hh
            rcases List.mem_append.mp h0 with h | h
            · exact hPres (List.mem_append.mpr (Or.inl h))
            · rcases List.mem_append.mp h with h' | h'
              · exact hPres (List.mem_append.mpr (Or.inr h'))
              · simp at h'
                subst h'
                by_cases hf : ww.flushed = true
                · exact Or.inl (by simp [lineInit, hf])
                · refine Or.inr ⟨by simp [lineInit, hf], ?_⟩
                  obtain ⟨hall, hc⟩ := inv.hnoflush (by simpa using hf)
                  rw [flatten_nil_of_all hall, hc]
                  rfl
          hover := by
            intro p hp
            simp [NewLineObject] at hp
          hfits2 := by
            intro h
            simp [NewLineObject] at h
          hQ := by
            intro h
            exact absurd rfl h
          hsepA := by
            intro p pr h
            simp [NewLineObject] at h
          hsepB := by
            intro _
            simp [NewUnitPair]
          hlastNL := fun _ => ⟨rfl, rfl, rfl, rfl⟩
          hlastW := by intro h; simp [newlineUnit] at h
          hlastS := by intro h; simp [newlineUnit] at h
          hlastWd := by intro h; simp [newlineUnit] at h
          hstart := by intro h; simp at h
          hlastNull := by intro h; simp [newlineUnit] at h
          hnoflush := by intro h; simp at h
          hwords := by
            have hold := inv.hwords
            unfold stateWords at hold ⊢
            rw [cWords_nullWord hwnull] at hold
            rw [wordsOfBlocks_newBlock, wordsOfBlocks_lastLine]
            rw [cWords_nullWord rfl]
            show wordsOfBlocks (closed ++ [cur]) ++
              wordsOfLD ⟨wwIndFlag ww, lineInit ww, ww.currentLine.pairs⟩
                ++ [] ++ [] = ws
            simp only [wordsOfLD, List.append_nil]
            simpa [List.append_assoc] using hold }
      | nil =>
        by_cases hw0 : ww.currentLine.width = 0
        · -- B2c: nothing to flush; only the pending pair is replaced
          have hstep : ww.AddUnit newlineUnit = { ww with
              Writer := ww.Writer ++ ['\n']
              currentPair := NewUnitPair true ww.nextId
              nextId := ww.nextId + 1
              started := true
              lastUnit := newlineUnit } := by
            rw [AddUnit_newline]
            simp only [if_neg h1]
            rw [if_pos (show ww.lastUnit.typ ≠ WordWrapType.NewLine from hLU)]
            rw [flushLine_noop ww hw0]
            simp only [WordWrapper.writeNewLine, goWrite_list]
          refine ⟨closed ++ [cur], [], ?_, by simp⟩
          rw [hstep]
          exact {
            hout := by
              show ww.Writer ++ ['\n'] = renderState ww.Indentation _ []
              rw [renderState_newBlock, inv.hout]
            hlim := inv.hlim
            hwidth := inv.hwidth
            hsmall := inv.hsmall
            hbound := by
              show ww.currentLine.width + pairWidthN (NewUnitPair true ww.nextId)
                ≤ ww.StartsAt + (used + 0)
              have := inv.hbound
              simp only [pairWidthN, NewUnitPair, nullUnit] at this ⊢
              omega
            hpairs := inv.hpairs
            hcp := ⟨Or.inl rfl, Or.inl rfl⟩
            hids := by
              intro p hp
              rw [hLp] at hp
              simp at hp
            hidlt := by
              intro p hp
              rw [hLp] at hp
              simp at hp
            hcidlt := Nat.lt_succ_self _
            hflat := by simpa using inv.hflat
            hst := by simpa using inv.hst
            hover := inv.hover
            hfits2 := inv.hfits2
            hQ := by
              intro h
              exact absurd hLp h
            hsepA := by
              intro p pr h
              rw [hLp] at h
              cases h
            hsepB := by
              intro _
              simp [NewUnitPair]
            hlastNL := fun _ => ⟨rfl, rfl, rfl, hLp⟩
            hlastW := by intro h; simp [newlineUnit] at h
            hlastS := by intro h; simp [newlineUnit] at h
            hlastWd := by intro h; simp [newlineUnit] at h
            hstart := by intro h; simp at h
            hlastNull := by intro h; simp [newlineUnit] at h
            hnoflush := by
              intro hf
              obtain ⟨hall, hc⟩ := inv.hnoflush hf
              refine ⟨?_, rfl⟩
              intro b hb
              rcases List.mem_append.mp hb with h | h
              · exact hall b h
              · simp at h
                rw [h, hc]
            hwords := by
              have hold := inv.hwords
              unfold stateWords at hold ⊢
              rw [cWords_nullWord hwnull] at hold
              rw [wordsOfBlocks_newBlock, cWords_nullWord rfl]
              rw [hLp] at hold ⊢
              simpa using hold }
        · -- B2b: a phantom flush: the not-yet-flushed initial line carries
          -- only its starting column; nothing is written for it
          have hfl : ww.flushed = false := by
            by_contra hff
            have : ww.flushed = true := by simpa using hff
            have h2 := inv.hwidth
            rw [hLp] at h2
            simp [lineInit, this, chargeSum] at h2
            exact hw0 h2
          have hSA : ww.StartsAt ≠ 0 := by
            have h2 := inv.hwidth
            rw [hLp] at h2
            simp [lineInit, hfl, chargeSum] at h2
            intro h3
            rw [h2, h3] at hw0
            exact hw0 rfl
          have hflush := flushLine_run ww hw0
          have hstep : ww.AddUnit newlineUnit = { ww with
              Writer := ww.Writer ++ ['\n']
              currentLine := NewLineObject 0 ww.Limit
              flushed := true
              filledLineLast := false
              currentPair := NewUnitPair true ww.nextId
              nextId := ww.nextId + 1
              started := true
              lastUnit := newlineUnit } := by
            rw [AddUnit_newline]
            simp only [if_neg h1]
            rw [if_pos (show ww.lastUnit.typ ≠ WordWrapType.NewLine from hLU)]
            rw [hflush]
            simp only [WordWrapper.writeNewLine, goWrite_list]
            rw [if_neg (by simp [hfl]), if_neg (by simp [hfl, hSA]), hLp]
            simp [renderPairs]
          obtain ⟨hall, hcur⟩ := inv.hnoflush hfl
          refine ⟨closed ++ [cur], [], ?_, by simp⟩
          rw [hstep]
          exact {
            hout := by
              show ww.Writer ++ ['\n'] = renderState ww.Indentation _ []
              rw [renderState_newBlock, inv.hout]
            hlim := rfl
            hwidth := rfl
            hsmall := inv.hsmall
            hbound := by
              show 0 + pairWidthN (NewUnitPair true ww.nextId)
                ≤ ww.StartsAt + (used + 0)
              simp [pairWidthN, NewUnitPair, nullUnit]
            hpairs := by
              intro p hp
              simp [NewLineObject] at hp
            hcp := ⟨Or.inl rfl, Or.inl rfl⟩
            hids := by
              intro p hp
              simp [NewLineObject] at hp
            hidlt := by
              intro p hp
              simp [NewLineObject] at hp
            hcidlt := Nat.lt_succ_self _
            hflat := by simpa using inv.hflat
            hst := by simpa using inv.hst
            hover := by
              intro p hp
              simp [NewLineObject] at hp
            hfits2 := by
              intro h
              simp [NewLineObject] at h
            hQ := by
              intro h
              exact absurd rfl h
            hsepA := by
              intro p pr h
              simp [NewLineObject] at h
            hsepB := by
              intro _
              simp [NewUnitPair]
            hlastNL := fun _ => ⟨rfl, rfl, rfl, rfl⟩
            hlastW := by intro h; simp [newlineUnit] at h
            hlastS := by intro h; simp [newlineUnit] at h
            hlastWd := by intro h; simp [newlineUnit] at h
            hstart := by intro h; simp at h
            hlastNull := by intro h; simp [newlineUnit] at h
            hnoflush := by intro h; simp at h
            hwords := by
              have hold := inv.hwords
              unfold stateWords at hold ⊢
              rw [cWords_nullWord hwnull] at hold
              rw [wordsOfBlocks_newBlock, cWords_nullWord rfl]
              rw [hLp] at hold
              show wordsOfBlocks (closed ++ [cur]) ++
                List.map (fun p => p.Word.value) (NewLineObject 0 ww.Limit).pairs
                  ++ [] = ws
              simpa [NewLineObject] using hold }

/-! ### The Spaces step -/

theorem AddSpace_fresh {u : WrapUnit} (h : u.typ = .Spaces) (b : Bool) (n : Nat) :
    (NewUnitPair b n).AddSpace u = ⟨nullUnit, u, b, n⟩ := by
  unfold UnitPair.AddSpace NewUnitPair
  rw [if_neg (by simp [h])]
  simp [Merge_null_left]

theorem lastUnit_word_of_hasWord {ww : WordWrapper (List Char)}
    {closed : List (List LineD)} {cur : List LineD} {used : Nat}
    {ws : List (List Char)} (inv : WwInv ww closed cur used ws)
    (hcw : ww.currentPair.HasWord = true) :
    ww.lastUnit.typ = WordWrapType.Word := by
  cases htyp : ww.lastUnit.typ with
  | NullUnit =>
    obtain ⟨_, hw0, _, _, _, _⟩ := inv.hstart (inv.hlastNull htyp)
    exact absurd hcw (by simp [HasWord_null hw0])
  | Spaces => exact absurd hcw (by simp [HasWord_null (inv.hlastS htyp)])
  | NewLine =>
    obtain ⟨hw0, _, _, _⟩ := inv.hlastNL htyp
    exact absurd hcw (by simp [HasWord_null hw0])
  | Word => rfl

theorem started_of_lastWord {ww : WordWrapper (List Char)}
    {closed : List (List LineD)} {cur : List LineD} {used : Nat}
    {ws : List (List Char)} (inv : WwInv ww closed cur used ws)
    (hWT : ww.lastUnit.typ = WordWrapType.Word) : ww.started = true := by
  by_cases h : ww.started = true
  · exact h
  · obtain ⟨hl0, _⟩ := inv.hstart (by simpa using h)
    rw [hl0] at hWT
    simp [nullUnit] at hWT

theorem pairFits_reachable {ww : WordWrapper (List Char)}
    {closed : List (List LineD)} {cur : List LineD} {used : Nat}
    {ws : List (List Char)} (inv : WwInv ww closed cur used ws)
    (hns : ww.lastUnit.typ ≠ WordWrapType.Spaces) :
    ww.currentLine.PairFits ww.currentPair = true := by
  have hsm1 : ww.currentLine.width + pairWidthN ww.currentPair < U64 :=
    lt_of_le_of_lt inv.hbound inv.hsmall
  rw [PairFits_iff hsm1]
  cases htyp : ww.lastUnit.typ with
  | NullUnit => exact Or.inl (inv.hstart (inv.hlastNull htyp)).2.2.2.2.1
  | Spaces => exact absurd htyp hns
  | NewLine => exact Or.inl (inv.hlastNL htyp).2.2.2
  | Word =>
    rcases inv.hlastW htyp with h | h
    · exact Or.inl h
    · exact Or.inr (by rw [inv.hlim]; exact h)

theorem step_spaces {ww : WordWrapper (List Char)} {closed : List (List LineD)}
    {cur : List LineD} {used : Nat} {ws : List (List Char)} {u : WrapUnit}
    (inv : WwInv ww closed cur used ws) (hu : UnitWF u) (ht : u.typ = .Spaces)
    (hsm : ww.StartsAt + (used + u.width) < U64) :
    ∃ cur', WwInv (ww.AddUnit u) closed cur' (used + u.width) ws := by
  obtain ⟨huv, huc, huw⟩ := hu.2.1 ht
  have hLeadOK : LeadOK u := Or.inr ⟨ht, huc, huw⟩
  by_cases hLS : ww.lastUnit.typ = WordWrapType.Spaces
  · -- S0: consecutive space units are ignored by the branch
    have hstep : ww.AddUnit u = { ww with started := true, lastUnit := u } := by
      rw [AddUnit_spaces ww u ht]
      simp only []
      rw [if_neg (by simp [hLS])]
    refine ⟨cur, ?_⟩
    rw [hstep]
    exact {
      hout := inv.hout
      hlim := inv.hlim
      hwidth := inv.hwidth
      hsmall := hsm
      hbound := by
        show ww.currentLine.width + pairWidthN ww.currentPair
          ≤ ww.StartsAt + (used + u.width)
        have := inv.hbound
        omega
      hpairs := inv.hpairs
      hcp := inv.hcp
      hids := inv.hids
      hidlt := inv.hidlt
      hcidlt := inv.hcidlt
      hflat := inv.hflat
      hst := inv.hst
      hover := inv.hover
      hfits2 := inv.hfits2
      hQ := inv.hQ
      hsepA := inv.hsepA
      hsepB := inv.hsepB
      hlastNL := by intro h; exact absurd h (by simp [ht])
      hlastW := by intro h; exact absurd h (by simp [ht])
      hlastS := fun _ => inv.hlastS hLS
      hlastWd := by intro h; exact absurd h (by simp [ht])
      hstart := by intro h; simp at h
      hlastNull := by intro h; exact absurd h (by simp [ht])
      hnoflush := inv.hnoflush
      hwords := inv.hwords }
  · -- S1: a space after a non-space unit
    have hLS' : ww.lastUnit.typ ≠ WordWrapType.Spaces := hLS
    have hPF := pairFits_reachable inv hLS'
    have hPFn : ¬ ¬ ww.currentLine.PairFits ww.currentPair = true := fun h => h hPF
    have hsm1 : ww.currentLine.width + pairWidthN ww.currentPair < U64 :=
      lt_of_le_of_lt inv.hbound inv.hsmall
    by_cases hcw : ww.currentPair.HasWord = true
    · -- SC1: the pending pair holds a word and is appended to the line
      have hcW : WordOK ww.currentPair.Word := by
        rcases inv.hcp.1 with h | h
        · exact absurd hcw (by simp [HasWord_null h])
        · exact h
      have hWT := lastUnit_word_of_hasWord inv hcw
      have hstarted := started_of_lastWord inv hWT
      have hWfits := inv.hlastW hWT
      have happ := AppendPair_spec hcW hsm1
      have hpbnval : decide (¬ ww.started = true ∨
          ww.lastUnit.typ = WordWrapType.NewLine) = false := by
        simp [hstarted, hWT]
      have hchpos : 1 ≤ (if ww.currentLine.pairs.isEmpty
          then chargeOf true ww.currentPair else pairWidthN ww.currentPair) := by
        have h1 := word_le_chargeOf true ww.currentPair
        have h2 := word_width_pos hcW
        have h3 : ww.currentPair.Word.width ≤ pairWidthN ww.currentPair := by
          unfold pairWidthN
          omega
        split <;> omega
      have hchle : (if ww.currentLine.pairs.isEmpty
          then chargeOf true ww.currentPair else pairWidthN ww.currentPair)
          ≤ pairWidthN ww.currentPair := by
        split
        · exact chargeOf_le true ww.currentPair
        · exact le_rfl
      have hw1v : (ww.currentLine.AppendPair ww.currentPair).width
          = ww.currentLine.width + (if ww.currentLine.pairs.isEmpty
            then chargeOf true ww.currentPair else pairWidthN ww.currentPair) := by
        rw [happ]
      have hlim1 : (ww.currentLine.AppendPair ww.currentPair).limit = ww.Limit := by
        rw [happ]
        exact inv.hlim
      have hFilled_iff : ((ww.currentLine.AppendPair ww.currentPair).Filled = true)
          ↔ ww.Limit ≤ ww.currentLine.width + (if ww.currentLine.pairs.isEmpty
            then chargeOf true ww.currentPair else pairWidthN ww.currentPair) := by
        rw [Filled_iff, hlim1, hw1v]
      have hLDOK : LDOK ww.Limit ⟨wwIndFlag ww, lineInit ww,
          ww.currentLine.pairs ++ [ww.currentPair]⟩ := by
        refine ⟨by simp, ?_, ?_, ?_⟩
        · show ∀ p ∈ ww.currentLine.pairs ++ [ww.currentPair], PairOK p
          intro p hp
          rcases List.mem_append.mp hp with h | h
          · exact inv.hpairs p h
          · simp at h
            subst h
            exact ⟨hcW, inv.hcp.2⟩
        · show 2 ≤ (ww.currentLine.pairs ++ [ww.currentPair]).length →
            lineInit ww + chargeSum (ww.currentLine.pairs ++ [ww.currentPair])
              ≤ ww.Limit
          intro hlen
          have hLpne : ww.currentLine.pairs ≠ [] := by
            intro h0
            rw [h0] at hlen
            simp at hlen
          rcases hWfits with h | h
          · exact absurd h hLpne
          · rw [chargeSum_append,
              if_neg (by simpa [List.isEmpty_iff] using hLpne)]
            have hw := inv.hwidth
            omega
        · show ∀ p ∈ ww.currentLine.pairs ++ [ww.currentPair],
            ww.Limit < p.Word.width →
              ww.currentLine.pairs ++ [ww.currentPair] = [p]
          intro p hp hbig
          cases hLp : ww.currentLine.pairs with
          | nil =>
            rw [hLp] at hp
            simp only [List.nil_append] at hp
            simp at hp
            subst hp
            simp [hLp]
          | cons p0 rest =>
            exfalso
            have hLpne : ww.currentLine.pairs ≠ [] := by rw [hLp]; simp
            rcases hWfits with h | h
            · exact absurd h hLpne
            · rcases List.mem_append.mp hp with hpl | hpc
              · have h1 := word_le_chargeSum hpl
                have h2 := inv.hwidth
                omega
              · simp at hpc
                subst hpc
                have h3 : ww.currentPair.Word.width ≤ pairWidthN ww.currentPair := by
                  unfold pairWidthN
                  omega
                omega
      by_cases hFil : ww.Limit ≤ ww.currentLine.width +
          (if ww.currentLine.pairs.isEmpty
           then chargeOf true ww.currentPair else pairWidthN ww.currentPair)
      · -- SC1a: the line filled up and is flushed
        have hW1 : (ww.currentLine.AppendPair ww.currentPair).width ≠ 0 := by
          rw [hw1v]
          omega
        have hflush := flushLine_run
          { ww with currentLine := ww.currentLine.AppendPair ww.currentPair } hW1
        have hpbnEq : Line.IsPrecededByNewLine
            (ww.currentLine.AppendPair ww.currentPair)
            = (match ww.currentLine.pairs with
               | [] => ww.currentPair.precededByNewLine
               | p0 :: _ => p0.precededByNewLine) := by
          rw [happ]
          cases hLp : ww.currentLine.pairs with
          | nil => simp only [List.nil_append, isPbn_cons]
          | cons p0 rest => simp only [List.cons_append, isPbn_cons]
        have hsepEq : (if ww.flushed ∧
              ¬ Line.IsPrecededByNewLine (ww.currentLine.AppendPair ww.currentPair)
            then (['\n'] : List Char) else []) =
            (if cur.isEmpty then [] else ['\n']) := by
          rw [hpbnEq]
          cases hLp : ww.currentLine.pairs with
          | nil => exact sep_emit_eq (inv.hsepB hLp)
          | cons p0 rest => exact sep_emit_eq (inv.hsepA p0 rest hLp)
        have hrendEq : renderPairs (ww.currentLine.AppendPair ww.currentPair).pairs
            = renderPairs (ww.currentLine.pairs ++ [ww.currentPair]) := by
          rw [happ]
        have hstep : ww.AddUnit u = { ww with
            Writer := ww.Writer ++
              ((if cur.isEmpty then [] else ['\n']) ++
               ((if wwIndFlag ww = true then ww.Indentation else []) ++
                renderPairs (ww.currentLine.pairs ++ [ww.currentPair])))
            currentLine := NewLineObject 0 ww.Limit
            flushed := true
            filledLineLast := false
            currentPair := ⟨nullUnit, u, false, ww.nextId⟩
            nextId := ww.nextId + 1
            started := true
            lastUnit := u } := by
          rw [AddUnit_spaces ww u ht]
          simp only []
          rw [if_pos hLS']
          rw [if_neg hPFn]
          rw [if_pos hcw]
          simp only [WordWrapper.appendPair]
          rw [if_pos (show ({ ww with
            currentLine := ww.currentLine.AppendPair ww.currentPair } :
              WordWrapper (List Char)).currentLine.Filled = true by
            rw [Filled_iff, hlim1, hw1v]
            exact hFil)]
          rw [hflush]
          simp only [AddSpace_fresh ht, hpbnval]
          rw [hsepEq, indEmit_eq, hrendEq]
          simp [List.append_assoc]
        refine ⟨cur ++ [⟨wwIndFlag ww, lineInit ww,
          ww.currentLine.pairs ++ [ww.currentPair]⟩], ?_⟩
        rw [hstep]
        exact {
          hout := by
            show ww.Writer ++ _ = renderState ww.Indentation closed _
            rw [renderState_appendLine, inv.hout]
            simp [LineD.render, List.append_assoc]
          hlim := rfl
          hwidth := rfl
          hsmall := hsm
          hbound := by
            show 0 + pairWidthN ⟨nullUnit, u, false, ww.nextId⟩
              ≤ ww.StartsAt + (used + u.width)
            simp [pairWidthN, nullUnit]
            omega
          hpairs := by
            intro p hp
            simp [NewLineObject] at hp
          hcp := ⟨Or.inl rfl, hLeadOK⟩
          hids := by
            intro p hp
            simp [NewLineObject] at hp
          hidlt := by
            intro p hp
            simp [NewLineObject] at hp
          hcidlt := Nat.lt_succ_self _
          hflat := by
            intro ld0 h0
            rcases List.mem_append.mp h0 with h | h
            · exact inv.hflat ld0 (List.mem_append.mpr (Or.inl h))
            · rcases List.mem_append.mp h with h' | h'
              · exact inv.hflat ld0 (List.mem_append.mpr (Or.inr h'))
              · simp at h'
                subst h'
                exact hLDOK
          hst := by
            intro ld0 h0
            have hPres : ld0 ∈ closed.flatten ++ cur →
                ld0.st = 0 ∨ (ld0.st = ww.StartsAt ∧
                  (closed.flatten ++ (cur ++ [(⟨wwIndFlag ww, lineInit ww,
                    ww.currentLine.pairs ++ [ww.currentPair]⟩ : LineD)])).head?
                    = some ld0) := by
              intro hm
              rcases inv.hst ld0 hm with hl | ⟨he, hh⟩
              · exact Or.inl hl
              · refine Or.inr ⟨he, ?_⟩
                have hne : closed.flatten ++ cur ≠ [] := by
                  intro hempty
                  rw [hempty] at hh
                  simp at hh
                rw [← List.append_assoc, head?_append_left _ hne]
                exact hh
            rcases List.mem_append.mp h0 with h | h
            · exact hPres (List.mem_append.mpr (Or.inl h))
            · rcases List.mem_append.mp h with h' | h'
              · exact hPres (List.mem_append.mpr (Or.inr h'))
              · simp at h'
                subst h'
                by_cases hf : ww.flushed = true
                · exact Or.inl (by simp [lineInit, hf])
                · refine Or.inr ⟨by simp [lineInit, hf], ?_⟩
                  obtain ⟨hall, hc⟩ := inv.hnoflush (by simpa using hf)
                  rw [flatten_nil_of_all hall, hc]
                  rfl
          hover := by
            intro p hp
            simp [NewLineObject] at hp
          hfits2 := by
            intro h
            simp [NewLineObject] at h
          hQ := by
            intro h
            exact absurd rfl h
          hsepA := by
            intro p pr h
            simp [NewLineObject] at h
          hsepB := by
            intro _
            constructor
            · intro _
              simp
            · intro _
              exact ⟨rfl, rfl⟩
          hlastNL := by intro h; exact absurd h (by simp [ht])
          hlastW := by intro h; exact absurd h (by simp [ht])
          hlastS := fun _ => rfl
          hlastWd := by intro h; exact absurd h (by simp [ht])
          hstart := by intro h; simp at h
          hlastNull := by intro h; exact absurd h (by simp [ht])
          hnoflush := by intro h; simp at h
          hwords := by
            have hold := inv.hwords
            unfold stateWords at hold ⊢
            rw [cWords_hasWord hcw] at hold
            rw [wordsOfBlocks_lastLine]
            rw [cWords_nullWord rfl]
            show wordsOfBlocks (closed ++ [cur]) ++
              wordsOfLD ⟨wwIndFlag ww, lineInit ww,
                ww.currentLine.pairs ++ [ww.currentPair]⟩ ++ [] ++ [] = ws
            simp only [wordsOfLD, List.map_append, List.map_cons, List.map_nil,
              List.append_nil]
            simpa [List.append_assoc] using hold }
      · -- SC1b: the appended pair leaves the line unfilled
        have hstep : ww.AddUnit u = { ww with
            currentLine := ww.currentLine.AppendPair ww.currentPair
            currentPair := ⟨nullUnit, u, false, ww.nextId⟩
            nextId := ww.nextId + 1
            started := true
            lastUnit := u } := by
          rw [AddUnit_spaces ww u ht]
          simp only []
          rw [if_pos hLS']
          rw [if_neg hPFn]
          rw [if_pos hcw]
          simp only [WordWrapper.appendPair]
          rw [if_neg (show ¬ ({ ww with
            currentLine := ww.currentLine.AppendPair ww.currentPair } :
              WordWrapper (List Char)).currentLine.Filled = true by
            rw [Filled_iff, hlim1, hw1v]
            omega)]
          simp only [AddSpace_fresh ht, hpbnval]
        refine ⟨cur, ?_⟩
        rw [hstep]
        exact {
          hout := inv.hout
          hlim := hlim1
          hwidth := by
            show (ww.currentLine.AppendPair ww.currentPair).width
              = lineInit ww + chargeSum (ww.currentLine.AppendPair ww.currentPair).pairs
            rw [happ]
            show ww.currentLine.width + _ = lineInit ww +
              chargeSum (ww.currentLine.pairs ++ [ww.currentPair])
            rw [chargeSum_append]
            have h1 := inv.hwidth
            rcases hLp : ww.currentLine.pairs with _ | ⟨p0, rest⟩
            · rw [hLp] at h1
              simp only [List.isEmpty_nil, if_true, chargeSum] at h1 ⊢
              omega
            · rw [hLp] at h1
              simp only [List.isEmpty_cons, if_false]
              omega
          hsmall := hsm
          hbound := by
            show (ww.currentLine.AppendPair ww.currentPair).width +
              pairWidthN ⟨nullUnit, u, false, ww.nextId⟩
                ≤ ww.StartsAt + (used + u.width)
            rw [hw1v]
            have h1 := inv.hbound
            have h2 : pairWidthN ⟨nullUnit, u, false, ww.nextId⟩ = u.width := by
              simp [pairWidthN, nullUnit]
            rw [h2]
            omega
          hpairs := by
            show ∀ p ∈ (ww.currentLine.AppendPair ww.currentPair).pairs, PairOK p
            rw [happ]
            intro p hp
            rcases List.mem_append.mp hp with h | h
            · exact inv.hpairs p h
            · simp at h
              subst h
              exact ⟨hcW, inv.hcp.2⟩
          hcp := ⟨Or.inl rfl, hLeadOK⟩
          hids := by
            show ∀ p ∈ (ww.currentLine.AppendPair ww.currentPair).pairs,
              p.id ≠ ww.nextId
            rw [happ]
            intro p hp
            rcases List.mem_append.mp hp with h | h
            · exact Nat.ne_of_lt (inv.hidlt p h)
            · simp at h
              subst h
              exact Nat.ne_of_lt inv.hcidlt
          hidlt := by
            show ∀ p ∈ (ww.currentLine.AppendPair ww.currentPair).pairs,
              p.id < ww.nextId + 1
            rw [happ]
            intro p hp
            rcases List.mem_append.mp hp with h | h
            · exact Nat.lt_succ_of_lt (inv.hidlt p h)
            · simp at h
              subst h
              exact Nat.lt_succ_of_lt inv.hcidlt
          hcidlt := Nat.lt_succ_self _
          hflat := inv.hflat
          hst := inv.hst
          hover := by
            show ∀ p ∈ (ww.currentLine.AppendPair ww.currentPair).pairs,
              ww.Limit < p.Word.width →
                (ww.currentLine.AppendPair ww.currentPair).pairs = [p]
            rw [happ]
            intro p hp hbig
            cases hLp : ww.currentLine.pairs with
            | nil =>
              rw [hLp] at hp
              simp only [List.nil_append] at hp
              simp at hp
              subst hp
              simp [hLp]
            | cons p0 rest =>
              exfalso
              have hLpne : ww.currentLine.pairs ≠ [] := by rw [hLp]; simp
              rcases hWfits with h | h
              · exact absurd h hLpne
              · rcases List.mem_append.mp hp with hpl | hpc
                · have h1 := word_le_chargeSum hpl
                  have h2 := inv.hwidth
                  omega
                · simp at hpc
                  subst hpc
                  have h3 : ww.currentPair.Word.width ≤ pairWidthN ww.currentPair := by
                    unfold pairWidthN
                    omega
                  omega
          hfits2 := by
            show 2 ≤ (ww.currentLine.AppendPair ww.currentPair).pairs.length →
              (ww.currentLine.AppendPair ww.currentPair).width ≤ ww.Limit
            rw [hw1v]
            intro _
            omega
          hQ := fun _ => rfl
          hsepA := by
            show ∀ p pr, (ww.currentLine.AppendPair ww.currentPair).pairs = p :: pr →
              ((ww.flushed = true ∧ p.precededByNewLine = false) ↔ cur ≠ [])
            rw [happ]
            intro p pr heq
            cases hLp : ww.currentLine.pairs with
            | nil =>
              rw [hLp] at heq
              simp only [List.nil_append] at heq
              cases heq
              exact inv.hsepB hLp
            | cons p0 rest =>
              rw [hLp] at heq
              simp only [List.cons_append] at heq
              have hp0 : p = p0 := by
                injection heq with h1 _
                exact h1.symm
              subst hp0
              exact inv.hsepA p rest hLp
          hsepB := by
            show (ww.currentLine.AppendPair ww.currentPair).pairs = [] → _
            rw [happ]
            intro h
            simp at h
          hlastNL := by intro h; exact absurd h (by simp [ht])
          hlastW := by intro h; exact absurd h (by simp [ht])
          hlastS := fun _ => rfl
          hlastWd := by intro h; exact absurd h (by simp [ht])
          hstart := by intro h; simp at h
          hlastNull := by intro h; exact absurd h (by simp [ht])
          hnoflush := inv.hnoflush
          hwords := by
            have hold := inv.hwords
            unfold stateWords at hold ⊢
            rw [cWords_hasWord hcw] at hold
            rw [cWords_nullWord rfl]
            show wordsOfBlocks (closed ++ [cur]) ++
              List.map (fun p => p.Word.value)
                (ww.currentLine.AppendPair ww.currentPair).pairs ++ [] = ws
            rw [happ]
            show wordsOfBlocks (closed ++ [cur]) ++
              List.map (fun p => p.Word.value)
                (ww.currentLine.pairs ++ [ww.currentPair]) ++ [] = ws
            simp only [List.map_append, List.map_cons, List.map_nil]
            simpa [List.append_assoc] using hold }
    · -- SC2: the pending pair holds no word; the line is empty
      have hwnull : ww.currentPair.Word = nullUnit := by
        rcases inv.hcp.1 with h | h
        · exact h
        · exact absurd (HasWord_of_WordOK h) (by simpa using hcw)
      have hHW : ww.currentPair.HasWord = false := HasWord_null hwnull
      have hHWn : ¬ ww.currentPair.HasWord = true := by simp [hHW]
      have hNLorNull : ww.lastUnit.typ = WordWrapType.NewLine ∨
          ww.lastUnit.typ = WordWrapType.NullUnit := by
        cases htyp : ww.lastUnit.typ with
        | NullUnit => exact Or.inr rfl
        | Spaces => exact absurd htyp hLS
        | NewLine => exact Or.inl rfl
        | Word => exact absurd (inv.hlastWd htyp) (by simpa using hcw)
      have hlp : ww.currentLine.pairs = [] := by
        rcases hNLorNull with h | h
        · exact (inv.hlastNL h).2.2.2
        · exact (inv.hstart (inv.hlastNull h)).2.2.2.2.1
      have hcb : ww.currentPair.precededByNewLine = true := by
        rcases hNLorNull with h | h
        · exact (inv.hlastNL h).2.2.1
        · exact (inv.hstart (inv.hlastNull h)).2.2.2.1
      have hcur : cur = [] := by
        by_contra hne
        have := (inv.hsepB hlp).mpr hne
        rw [hcb] at this
        simp at this
      subst hcur
      have hpbnval : decide (¬ ww.started = true ∨
          ww.lastUnit.typ = WordWrapType.NewLine) = true := by
        rcases hNLorNull with h | h
        · simp [h]
        · simp [inv.hlastNull h]
      have hwv : ww.currentLine.width = lineInit ww := by
        have := inv.hwidth
        rw [hlp] at this
        simpa [chargeSum] using this
      by_cases hFil : ww.Limit ≤ ww.currentLine.width
      · -- the (empty) line counts as filled: flushing writes nothing
        by_cases hw0 : ww.currentLine.width = 0
        · -- the flush is a no-op
          have hstep : ww.AddUnit u = { ww with
              currentPair := ⟨nullUnit, u, true, ww.nextId⟩
              nextId := ww.nextId + 1
              started := true
              lastUnit := u } := by
            rw [AddUnit_spaces ww u ht]
            simp only []
            rw [if_pos hLS']
            rw [if_neg hPFn]
            rw [if_neg hHWn]
            rw [if_pos (show ww.currentLine.Filled = true by
              rw [Filled_iff, inv.hlim]
              exact hFil)]
            rw [flushLine_noop ww hw0]
            simp only [AddSpace_fresh ht, hpbnval]
          refine ⟨[], ?_⟩
          rw [hstep]
          exact {
            hout := inv.hout
            hlim := inv.hlim
            hwidth := inv.hwidth
            hsmall := hsm
            hbound := by
              show ww.currentLine.width + pairWidthN ⟨nullUnit, u, true, ww.nextId⟩
                ≤ ww.StartsAt + (used + u.width)
              have h1 := inv.hbound
              simp only [pairWidthN, nullUnit] at h1 ⊢
              omega
            hpairs := inv.hpairs
            hcp := ⟨Or.inl rfl, hLeadOK⟩
            hids := by
              intro p hp
              rw [hlp] at hp
              simp at hp
            hidlt := by
              intro p hp
              rw [hlp] at hp
              simp at hp
            hcidlt := Nat.lt_succ_self _
            hflat := inv.hflat
            hst := inv.hst
            hover := inv.hover
            hfits2 := inv.hfits2
            hQ := by
              intro h
              exact absurd hlp h
            hsepA := by
              intro p pr h
              rw [hlp] at h
              cases h
            hsepB := by
              intro _
              simp
            hlastNL := by intro h; exact absurd h (by simp [ht])
            hlastW := by intro h; exact absurd h (by simp [ht])
            hlastS := fun _ => rfl
            hlastWd := by intro h; exact absurd h (by simp [ht])
            hstart := by intro h; simp at h
            hlastNull := by intro h; exact absurd h (by simp [ht])
            hnoflush := inv.hnoflush
            hwords := by
              have hold := inv.hwords
              unfold stateWords at hold ⊢
              rw [cWords_nullWord hwnull] at hold
              rw [cWords_nullWord rfl]
              exact hold }
        · -- a phantom flush: the unflushed starting column is discarded
          have hfl : ww.flushed = false := by
            by_contra hff
            have hft : ww.flushed = true := by simpa using hff
            rw [lineInit, if_pos hft] at hwv
            exact hw0 hwv
          have hSA : ww.StartsAt ≠ 0 := by
            rw [lineInit, if_neg (by simp [hfl])] at hwv
            intro h3
            rw [hwv, h3] at hw0
            exact hw0 rfl
          obtain ⟨hall, _⟩ := inv.hnoflush hfl
          have hflush := flushLine_run ww hw0
          have hstep : ww.AddUnit u = { ww with
              currentLine := NewLineObject 0 ww.Limit
              flushed := true
              filledLineLast := false
              currentPair := ⟨nullUnit, u, true, ww.nextId⟩
              nextId := ww.nextId + 1
              started := true
              lastUnit := u } := by
            rw [AddUnit_spaces ww u ht]
            simp only []
            rw [if_pos hLS']
            rw [if_neg hPFn]
            rw [if_neg hHWn]
            rw [if_pos (show ww.currentLine.Filled = true by
              rw [Filled_iff, inv.hlim]
              exact hFil)]
            rw [hflush]
            simp only [AddSpace_fresh ht, hpbnval]
            rw [if_neg (by simp [hfl]), if_neg (by simp [hfl, hSA]), hlp]
            simp [renderPairs]
          refine ⟨[], ?_⟩
          rw [hstep]
          exact {
            hout := inv.hout
            hlim := rfl
            hwidth := rfl
            hsmall := hsm
            hbound := by
              show 0 + pairWidthN ⟨nullUnit, u, true, ww.nextId⟩
                ≤ ww.StartsAt + (used + u.width)
              simp [pairWidthN, nullUnit]
              omega
            hpairs := by
              intro p hp
              simp [NewLineObject] at hp
            hcp := ⟨Or.inl rfl, hLeadOK⟩
            hids := by
              intro p hp
              simp [NewLineObject] at hp
            hidlt := by
              intro p hp
              simp [NewLineObject] at hp
            hcidlt := Nat.lt_succ_self _
            hflat := inv.hflat
            hst := inv.hst
            hover := by
              intro p hp
              simp [NewLineObject] at hp
            hfits2 := by
              intro h
              simp [NewLineObject] at h
            hQ := by
              intro h
              exact absurd rfl h
            hsepA := by
              intro p pr h
              simp [NewLineObject] at h
            hsepB := by
              intro _
              simp
            hlastNL := by intro h; exact absurd h (by simp [ht])
            hlastW := by intro h; exact absurd h (by simp [ht])
            hlastS := fun _ => rfl
            hlastWd := by intro h; exact absurd h (by simp [ht])
            hstart := by intro h; simp at h
            hlastNull := by intro h; exact absurd h (by simp [ht])
            hnoflush := by intro h; simp at h
            hwords := by
              have hold := inv.hwords
              unfold stateWords at hold ⊢
              rw [cWords_nullWord hwnull] at hold
              rw [cWords_nullWord rfl]
              rw [hlp] at hold
              show wordsOfBlocks (closed ++ [[]]) ++
                List.map (fun p => p.Word.value) (NewLineObject 0 ww.Limit).pairs
                  ++ [] = ws
              simpa [NewLineObject] using hold }
      · -- SC2a: not filled: only the pending pair is replaced
        have hstep : ww.AddUnit u = { ww with
            currentPair := ⟨nullUnit, u, true, ww.nextId⟩
            nextId := ww.nextId + 1
            started := true
            lastUnit := u } := by
          rw [AddUnit_spaces ww u ht]
          simp only []
          rw [if_pos hLS']
          rw [if_neg hPFn]
          rw [if_neg hHWn]
          rw [if_neg (show ¬ ww.currentLine.Filled = true by
            rw [Filled_iff, inv.hlim]
            omega)]
          simp only [AddSpace_fresh ht, hpbnval]
        refine ⟨[], ?_⟩
        rw [hstep]
        exact {
          hout := inv.hout
          hlim := inv.hlim
          hwidth := inv.hwidth
          hsmall := hsm
          hbound := by
            show ww.currentLine.width + pairWidthN ⟨nullUnit, u, true, ww.nextId⟩
              ≤ ww.StartsAt + (used + u.width)
            have h1 := inv.hbound
            simp only [pairWidthN, nullUnit] at h1 ⊢
            omega
          hpairs := inv.hpairs
          hcp := ⟨Or.inl rfl, hLeadOK⟩
          hids := by
            intro p hp
            rw [hlp] at hp
            simp at hp
          hidlt := by
            intro p hp
            rw [hlp] at hp
            simp at hp
          hcidlt := Nat.lt_succ_self _
          hflat := inv.hflat
          hst := inv.hst
          hover := inv.hover
          hfits2 := inv.hfits2
          hQ := by
            intro h
            exact absurd hlp h
          hsepA := by
            intro p pr h
            rw [hlp] at h
            cases h
          hsepB := by
            intro _
            simp
          hlastNL := by intro h; exact absurd h (by simp [ht])
          hlastW := by intro h; exact absurd h (by simp [ht])
          hlastS := fun _ => rfl
          hlastWd := by intro h; exact absurd h (by simp [ht])
          hstart := by intro h; simp at h
          hlastNull := by intro h; exact absurd h (by simp [ht])
          hnoflush := inv.hnoflush
          hwords := by
            have hold := inv.hwords
            unfold stateWords at hold ⊢
            rw [cWords_nullWord hwnull] at hold
            rw [cWords_nullWord rfl]
            exact hold }

/-! ### The Word step -/

theorem AddWord_id (p : UnitPair) (u : WrapUnit) : (p.AddWord u).id = p.id := by
  unfold UnitPair.AddWord
  split <;> rfl

theorem AddWord_of_null {p : UnitPair} {u : WrapUnit} (hw : p.Word = nullUnit)
    (ht : u.typ = .Word) : p.AddWord u = { p with Word := u } := by
  unfold UnitPair.AddWord
  rw [if_neg (by simp [ht]), hw, Merge_null_left]

theorem map_id_of_ne {ps : List UnitPair} {c : UnitPair}
    (h : ∀ p ∈ ps, p.id ≠ c.id) :
    ps.map (fun p => if p.id = c.id then c else p) = ps := by
  induction ps with
  | nil => rfl
  | cons a rest ih =>
    simp only [List.map_cons]
    rw [if_neg (h a (by simp)), ih (fun p hp => h p (by simp [hp]))]

theorem step_word {ww : WordWrapper (List Char)} {closed : List (List LineD)}
    {cur : List LineD} {used : Nat} {ws : List (List Char)} {u : WrapUnit}
    (inv : WwInv ww closed cur used ws) (hu : UnitWF u) (ht : u.typ = .Word)
    (hadj : ww.lastUnit.typ ≠ WordWrapType.Word)
    (hsm : ww.StartsAt + (used + u.width) < U64) :
    ∃ cur', WwInv (ww.AddUnit u) closed cur' (used + u.width) (ws ++ [u.value]) := by
  have huOK : WordOK u := hu.1 ht
  have hwnull : ww.currentPair.Word = nullUnit := by
    cases htyp : ww.lastUnit.typ with
    | NullUnit => exact (inv.hstart (inv.hlastNull htyp)).2.1
    | Spaces => exact inv.hlastS htyp
    | NewLine => exact (inv.hlastNL htyp).1
    | Word => exact absurd htyp hadj
  have hc : ww.currentPair.AddWord u = { ww.currentPair with Word := u } :=
    AddWord_of_null hwnull ht
  have hmap0 : ww.currentLine.pairs.map
      (fun p => if p.id = (ww.currentPair.AddWord u).id
        then ww.currentPair.AddWord u else p)
      = ww.currentLine.pairs :=
    map_id_of_ne (fun p hp => by rw [AddWord_id]; exact inv.hids p hp)
  have hpwold : pairWidthN ww.currentPair = ww.currentPair.LeadSpace.width := by
    simp [pairWidthN, hwnull, nullUnit]
  have hpwnew : pairWidthN { ww.currentPair with Word := u }
      = u.width + ww.currentPair.LeadSpace.width := rfl
  have hsm2 : ww.currentLine.width +
      pairWidthN { ww.currentPair with Word := u } < U64 := by
    have h1 := inv.hbound
    rw [hpwnew]
    omega
  have hcHW : UnitPair.HasWord { ww.currentPair with Word := u } = true := by
    exact HasWord_of_WordOK huOK
  by_cases hPF : ww.currentLine.PairFits { ww.currentPair with Word := u } = true
  · -- W1: the grown pair still fits; nothing is flushed
    have hstep : ww.AddUnit u = { ww with
        currentPair := { ww.currentPair with Word := u }
        started := true
        lastUnit := u } := by
      rw [AddUnit_word ww u ht]
      simp only []
      rw [hmap0]
      have heta : ({ ww.currentLine with pairs := ww.currentLine.pairs } : Line)
          = ww.currentLine := rfl
      rw [heta, hc]
      rw [if_neg (show ¬ ¬ ww.currentLine.PairFits
        { ww.currentPair with Word := u } = true from fun h => h hPF)]
    refine ⟨cur, ?_⟩
    rw [hstep]
    exact {
      hout := inv.hout
      hlim := inv.hlim
      hwidth := inv.hwidth
      hsmall := hsm
      hbound := by
        show ww.currentLine.width + pairWidthN { ww.currentPair with Word := u }
          ≤ ww.StartsAt + (used + u.width)
        have h1 := inv.hbound
        rw [hpwnew]
        omega
      hpairs := inv.hpairs
      hcp := ⟨Or.inr huOK, inv.hcp.2⟩
      hids := inv.hids
      hidlt := inv.hidlt
      hcidlt := inv.hcidlt
      hflat := inv.hflat
      hst := inv.hst
      hover := inv.hover
      hfits2 := inv.hfits2
      hQ := inv.hQ
      hsepA := inv.hsepA
      hsepB := inv.hsepB
      hlastNL := by intro h; exact absurd h (by simp [ht])
      hlastW := by
        intro _
        have h1 := (PairFits_iff hsm2).mp hPF
        rcases h1 with h | h
        · exact Or.inl h
        · rw [inv.hlim] at h
          exact Or.inr h
      hlastS := by intro h; exact absurd h (by simp [ht])
      hlastWd := fun _ => hcHW
      hstart := by intro h; simp at h
      hlastNull := by intro h; exact absurd h (by simp [ht])
      hnoflush := inv.hnoflush
      hwords := by
        have hold := inv.hwords
        unfold stateWords at hold ⊢
        rw [cWords_nullWord hwnull] at hold
        simp only [List.append_nil] at hold
        show wordsOfBlocks (closed ++ [cur]) ++
          ww.currentLine.pairs.map (fun p => p.Word.value) ++
          cWords { ww.currentPair with Word := u } = ws ++ [u.value]
        rw [cWords_hasWord hcHW, hold] }
  · -- W2: the grown pair no longer fits; the line is flushed first
    have hPFf : ww.currentLine.PairFits { ww.currentPair with Word := u } = false := by
      simpa using hPF
    have hne : ww.currentLine.pairs ≠ [] := by
      intro h0
      unfold Line.PairFits Line.Fits at hPFf
      rw [h0] at hPFf
      simp at hPFf
    obtain ⟨p0, rest, hLp⟩ : ∃ p0 rest, ww.currentLine.pairs = p0 :: rest := by
      cases hLp : ww.currentLine.pairs with
      | nil => exact absurd hLp hne
      | cons a b => exact ⟨a, b, rfl⟩
    have hQv : ww.currentPair.precededByNewLine = false := inv.hQ hne
    have hp0 : PairOK p0 := inv.hpairs p0 (by rw [hLp]; simp)
    have hwpos : ww.currentLine.width ≠ 0 := by
      have h2 := word_le_chargeSum
        (show p0 ∈ ww.currentLine.pairs by rw [hLp]; simp)
      have h3 := word_width_pos hp0.1
      have h4 := inv.hwidth
      omega
    have hflush := flushLine_run
      { ww with currentPair := { ww.currentPair with Word := u } } hwpos
    have hsepEq : (if ww.flushed ∧ ¬ ww.currentLine.IsPrecededByNewLine
        then (['\n'] : List Char) else []) =
        (if cur.isEmpty then [] else ['\n']) := by
      have hpbn : ww.currentLine.IsPrecededByNewLine = p0.precededByNewLine := by
        unfold Line.IsPrecededByNewLine
        rw [hLp]
      rw [hpbn]
      exact sep_emit_eq (inv.hsepA p0 rest hLp)
    have hstep : ww.AddUnit u = { ww with
        Writer := ww.Writer ++
          ((if cur.isEmpty then [] else ['\n']) ++
           ((if wwIndFlag ww = true then ww.Indentation else []) ++
            renderPairs ww.currentLine.pairs))
        currentLine := NewLineObject 0 ww.Limit
        flushed := true
        filledLineLast := false
        currentPair := { ww.currentPair with Word := u }
        started := true
        lastUnit := u } := by
      rw [AddUnit_word ww u ht]
      simp only []
      rw [hmap0]
      have heta : ({ ww.currentLine with pairs := ww.currentLine.pairs } : Line)
          = ww.currentLine := rfl
      rw [heta, hc]
      rw [if_pos (show ¬ ww.currentLine.PairFits
        { ww.currentPair with Word := u } = true from hPF)]
      rw [hflush]
      simp only [Line.render]
      rw [hsepEq, indEmit_eq]
      simp [List.append_assoc]
    refine ⟨cur ++ [⟨wwIndFlag ww, lineInit ww, ww.currentLine.pairs⟩], ?_⟩
    have hLDOK : LDOK ww.Limit
        ⟨wwIndFlag ww, lineInit ww, ww.currentLine.pairs⟩ := by
      refine ⟨by rw [hLp]; simp, ?_, ?_, ?_⟩
      · show ∀ p ∈ ww.currentLine.pairs, PairOK p
        exact inv.hpairs
      · show 2 ≤ ww.currentLine.pairs.length →
          lineInit ww + chargeSum ww.currentLine.pairs ≤ ww.Limit
        intro hlen
        have h2 := inv.hfits2 hlen
        have h3 := inv.hwidth
        omega
      · show ∀ p ∈ ww.currentLine.pairs, ww.Limit < p.Word.width →
          ww.currentLine.pairs = [p]
        exact inv.hover
    rw [hstep]
    exact {
      hout := by
        show ww.Writer ++ _ = renderState ww.Indentation closed _
        rw [renderState_appendLine, inv.hout]
        simp [LineD.render, List.append_assoc]
      hlim := rfl
      hwidth := rfl
      hsmall := hsm
      hbound := by
        show 0 + pairWidthN { ww.currentPair with Word := u }
          ≤ ww.StartsAt + (used + u.width)
        have h1 := inv.hbound
        rw [hpwnew]
        omega
      hpairs := by
        intro p hp
        simp [NewLineObject] at hp
      hcp := ⟨Or.inr huOK, inv.hcp.2⟩
      hids := by
        intro p hp
        simp [NewLineObject] at hp
      hidlt := by
        intro p hp
        simp [NewLineObject] at hp
      hcidlt := inv.hcidlt
      hflat := by
        intro ld0 h0
        rcases List.mem_append.mp h0 with h | h
        · exact inv.hflat ld0 (List.mem_append.mpr (Or.inl h))
        · rcases List.mem_append.mp h with h' | h'
          · exact inv.hflat ld0 (List.mem_append.mpr (Or.inr h'))
          · simp at h'
            subst h'
            exact hLDOK
      hst := by
        intro ld0 h0
        have hPres : ld0 ∈ closed.flatten ++ cur →
            ld0.st = 0 ∨ (ld0.st = ww.StartsAt ∧
              (closed.flatten ++ (cur ++ [(⟨wwIndFlag ww, lineInit ww,
                ww.currentLine.pairs⟩ : LineD)])).head? = some ld0) := by
          intro hm
          rcases inv.hst ld0 hm with hl | ⟨he, hh⟩
          · exact Or.inl hl
          · refine Or.inr ⟨he, ?_⟩
            have hne2 : closed.flatten ++ cur ≠ [] := by
              intro hempty
              rw [hempty] at hh
              simp at hh
            rw [← List.append_assoc, head?_append_left _ hne2]
            exact hh
        rcases List.mem_append.mp h0 with h | h
        · exact hPres (List.mem_append.mpr (Or.inl h))
        · rcases List.mem_append.mp h with h' | h'
          · exact hPres (List.mem_append.mpr (Or.inr h'))
          · simp at h'
            subst h'
            by_cases hf : ww.flushed = true
            · exact Or.inl (by simp [lineInit, hf])
            · refine Or.inr ⟨by simp [lineInit, hf], ?_⟩
              obtain ⟨hall, hcnil⟩ := inv.hnoflush (by simpa using hf)
              rw [flatten_nil_of_all hall, hcnil]
              rfl
      hover := by
        intro p hp
        simp [NewLineObject] at hp
      hfits2 := by
        intro h
        simp [NewLineObject] at h
      hQ := by
        intro h
        exact absurd rfl h
      hsepA := by
        intro p pr h
        simp [NewLineObject] at h
      hsepB := by
        intro _
        constructor
        · intro _
          simp
        · intro _
          exact ⟨rfl, hQv⟩
      hlastNL := by intro h; exact absurd h (by simp [ht])
      hlastW := fun _ => Or.inl rfl
      hlastS := by intro h; exact absurd h (by simp [ht])
      hlastWd := fun _ => hcHW
      hstart := by intro h; simp at h
      hlastNull := by intro h; exact absurd h (by simp [ht])
      hnoflush := by intro h; simp at h
      hwords := by
        have hold := inv.hwords
        unfold stateWords at hold ⊢
        rw [cWords_nullWord hwnull] at hold
        simp only [List.append_nil] at hold
        rw [wordsOfBlocks_lastLine]
        show wordsOfBlocks (closed ++ [cur]) ++
          wordsOfLD ⟨wwIndFlag ww, lineInit ww, ww.currentLine.pairs⟩ ++
          (NewLineObject 0 ww.Limit).pairs.map (fun p => p.Word.value) ++
          cWords { ww.currentPair with Word := u } = ws ++ [u.value]
        rw [cWords_hasWord hcHW]
        show wordsOfBlocks (closed ++ [cur]) ++
          ww.currentLine.pairs.map (fun p => p.Word.value) ++ [] ++ [u.value]
            = ws ++ [u.value]
        rw [List.append_nil, hold] }

/-! ### Stream facts about the lexer output -/

theorem wordToFeed_typ (t : WordWrapType) (str : List Char) :
    (wordToFeed t str).typ = t := by
  cases t <;> rfl

theorem wordToFeed_width_le (t : WordWrapType) (str : List Char) :
    (wordToFeed t str).width ≤ str.length := by
  cases t <;> simp [wordToFeed, WordUnit, SpaceUnit, newlineUnit, nullUnit]

theorem newlineUnit_wf : UnitWF newlineUnit := by
  refine ⟨?_, ?_, ?_, ?_⟩ <;> simp [newlineUnit]

theorem dropWhile_head_not {α : Type} (p : α → Bool) (l : List α) {d : α}
    {ds : List α} (h : l.dropWhile p = d :: ds) : p d = false := by
  induction l with
  | nil => simp at h
  | cons a as ih =>
    rw [List.dropWhile_cons] at h
    by_cases hpa : p a = true
    · rw [if_pos hpa] at h
      exact ih h
    · rw [if_neg hpa] at h
      cases h
      simpa using hpa

theorem lexSpec_wf_aux : ∀ (n : Nat) (s : List Char), s.length ≤ n →
    ∀ u ∈ lexSpec s, UnitWF u := by
  intro n
  induction n with
  | zero =>
    intro s hs u hu
    have hnil : s = [] := List.eq_nil_of_length_eq_zero (Nat.le_zero.mp hs)
    subst hnil
    rw [lexSpec_nil] at hu
    cases hu
  | succ n ih =>
    intro s hs u hu
    cases s with
    | nil =>
      rw [lexSpec_nil] at hu
      cases hu
    | cons c cs =>
      by_cases hNL : classify c = .NewLine
      · obtain rfl : c = '\n' := (classify_eq_newline_iff c).mp hNL
        rw [lexSpec_cons_newline] at hu
        rcases List.mem_cons.mp hu with rfl | hmem
        · exact newlineUnit_wf
        · exact ih cs (by simp at hs; omega) u hmem
      · rw [lexSpec_cons_other c cs hNL] at hu
        rcases List.mem_cons.mp hu with rfl | hmem
        · have hrun : ∀ ch ∈ c :: cs.takeWhile (fun d => classify d = classify c),
              classify ch = classify c := by
            intro ch hch
            rcases List.mem_cons.mp hch with rfl | hch
            · rfl
            · simpa using List.mem_takeWhile_imp hch
          cases hcl : classify c with
          | NullUnit => exact absurd hcl (classify_ne_null c)
          | NewLine => exact absurd hcl hNL
          | Word =>
            refine ⟨fun _ => ⟨?_, ?_, ?_, ?_⟩, ?_, ?_, ?_⟩ <;>
              simp [wordToFeed, hcl, WordUnit]
            intro ch hch
            have h2 := List.mem_takeWhile_imp hch
            simpa using h2
          | Spaces =>
            refine ⟨?_, fun _ => ⟨?_, ?_, ?_⟩, ?_, ?_⟩ <;>
              simp [wordToFeed, hcl, SpaceUnit]
            intro ch hch
            have h2 := List.mem_takeWhile_imp hch
            simpa using h2
        · have hlen : (cs.dropWhile (fun d => classify d = classify c)).length ≤ n := by
            have h1 := dropWhile_length_le
              (fun d => decide (classify d = classify c)) cs
            simp at hs
            omega
          exact ih _ hlen u hmem

theorem lexSpec_wf (s : List Char) : ∀ u ∈ lexSpec s, UnitWF u :=
  lexSpec_wf_aux s.length s le_rfl

theorem lexSpec_streamOK_aux : ∀ (n : Nat) (s : List Char) (prev : WordWrapType),
    s.length ≤ n →
    (∀ c cs, s = c :: cs → (classify c ≠ prev ∨ classify c = .NewLine)) →
    StreamOK prev (lexSpec s) := by
  intro n
  induction n with
  | zero =>
    intro s prev hs _
    have hnil : s = [] := List.eq_nil_of_length_eq_zero (Nat.le_zero.mp hs)
    subst hnil
    rw [lexSpec_nil]
    exact trivial
  | succ n ih =>
    intro s prev hs hprev
    cases s with
    | nil =>
      rw [lexSpec_nil]
      exact trivial
    | cons c cs =>
      have hhead := hprev c cs rfl
      by_cases hNL : classify c = .NewLine
      · obtain rfl : c = '\n' := (classify_eq_newline_iff c).mp hNL
        rw [lexSpec_cons_newline]
        refine ⟨Or.inr rfl, ?_⟩
        refine ih cs .NewLine (by simp at hs; omega) ?_
        intro d ds _
        by_cases h : classify d = .NewLine
        · exact Or.inr h
        · exact Or.inl h
      · rw [lexSpec_cons_other c cs hNL]
        refine ⟨?_, ?_⟩
        · rw [wordToFeed_typ]
          exact hhead
        · rw [wordToFeed_typ]
          have hlen : (cs.dropWhile (fun d => classify d = classify c)).length ≤ n := by
            have h1 := dropWhile_length_le
              (fun d => decide (classify d = classify c)) cs
            simp at hs
            omega
          refine ih _ (classify c) hlen ?_
          intro d ds hd
          left
          have := dropWhile_head_not _ cs hd
          simpa using this

theorem lexSpec_streamOK (s : List Char) :
    StreamOK .NullUnit (lexSpec s) :=
  lexSpec_streamOK_aux s.length s .NullUnit le_rfl
    (fun c _ _ => Or.inl (classify_ne_null c))

theorem widthSum_lexSpec_le_aux : ∀ (n : Nat) (s : List Char), s.length ≤ n →
    widthSum (lexSpec s) ≤ s.length := by
  intro n
  induction n with
  | zero =>
    intro s hs
    have hnil : s = [] := List.eq_nil_of_length_eq_zero (Nat.le_zero.mp hs)
    subst hnil
    rw [lexSpec_nil]
    simp [widthSum]
  | succ n ih =>
    intro s hs
    cases s with
    | nil =>
      rw [lexSpec_nil]
      simp [widthSum]
    | cons c cs =>
      by_cases hNL : classify c = .NewLine
      · obtain rfl : c = '\n' := (classify_eq_newline_iff c).mp hNL
        rw [lexSpec_cons_newline]
        have h1 := ih cs (by simp at hs; omega)
        simp only [widthSum, List.map_cons, List.sum_cons] at h1 ⊢
        simp [newlineUnit] at h1 ⊢
        omega
      · rw [lexSpec_cons_other c cs hNL]
        have hsplit : (cs.takeWhile (fun d => classify d = classify c)).length +
            (cs.dropWhile (fun d => classify d = classify c)).length = cs.length := by
          conv_rhs => rw [← List.takeWhile_append_dropWhile
            (fun d => decide (classify d = classify c)) cs]
          rw [List.length_append]
        have hlen : (cs.dropWhile (fun d => classify d = classify c)).length ≤ n := by
          simp at hs
          omega
        have h1 := ih _ hlen
        have h2 := wordToFeed_width_le (classify c)
          (c :: cs.takeWhile (fun d => classify d = classify c))
        simp only [widthSum, List.map_cons, List.sum_cons] at h1 h2 ⊢
        simp only [List.length_cons] at h2 ⊢
        simp at hs
        omega

theorem widthSum_lexSpec_le (s : List Char) :
    widthSum (lexSpec s) ≤ s.length :=
  widthSum_lexSpec_le_aux s.length s le_rfl

/-! ### Option preservation -/

theorem flushLine_StartsAt (ww : WordWrapper (List Char)) :
    ww.flushLine.Limit = ww.Limit ∧ ww.flushLine.StartsAt = ww.StartsAt ∧
      ww.flushLine.Indentation = ww.Indentation := by
  unfold WordWrapper.flushLine
  split
  · exact ⟨rfl, rfl, rfl⟩
  · exact ⟨rfl, rfl, rfl⟩

theorem AddUnit_opts (ww : WordWrapper (List Char)) (u : WrapUnit) :
    (ww.AddUnit u).Limit = ww.Limit ∧ (ww.AddUnit u).StartsAt = ww.StartsAt ∧
      (ww.AddUnit u).Indentation = ww.Indentation := by
  unfold WordWrapper.AddUnit
  simp only []
  split
  · exact ⟨rfl, rfl, rfl⟩
  · split_ifs <;>
      simp [WordWrapper.writeNewLine, WordWrapper.appendPair, flushLine_StartsAt]
  · split_ifs <;>
      simp [WordWrapper.writeNewLine, WordWrapper.appendPair, flushLine_StartsAt]
  · split_ifs <;>
      simp [WordWrapper.writeNewLine, WordWrapper.appendPair, flushLine_StartsAt]

theorem wrapUnits_opts (units : List WrapUnit) (ww : WordWrapper (List Char)) :
    (ww.wrapUnits units).Limit = ww.Limit ∧
      (ww.wrapUnits units).StartsAt = ww.StartsAt ∧
      (ww.wrapUnits units).Indentation = ww.Indentation := by
  induction units generalizing ww with
  | nil => exact ⟨rfl, rfl, rfl⟩
  | cons u us ih =>
    have h1 := AddUnit_opts ww u
    have h2 := ih (ww.AddUnit u)
    exact ⟨h2.1.trans h1.1, h2.2.1.trans h1.2.1, h2.2.2.trans h1.2.2⟩

theorem AddUnit_lastUnit (ww : WordWrapper (List Char)) (u : WrapUnit)
    (h : u.typ ≠ .NullUnit) : (ww.AddUnit u).lastUnit = u := by
  unfold WordWrapper.AddUnit
  simp only []
  split
  · rename_i heq
    exact absurd heq h
  · rfl
  · rfl
  · rfl

/-! ### The whole lexer-driven pass -/

theorem init_inv (options : WrapOptions) (h : options.StartsAt < U64) :
    WwInv (NewWordWrapper ([] : List Char) options) [] [] 0 [] := by
  refine {
    hout := rfl
    hlim := rfl
    hwidth := by
      show options.StartsAt = (if (false : Bool) then 0 else options.StartsAt) +
        chargeSum []
      simp [chargeSum]
    hsmall := by
      show options.StartsAt + 0 < U64
      omega
    hbound := by
      show options.StartsAt + pairWidthN (NewUnitPair true 0)
        ≤ options.StartsAt + 0
      simp [pairWidthN, NewUnitPair, nullUnit]
    hpairs := by intro p hp; cases hp
    hcp := ⟨Or.inl rfl, Or.inl rfl⟩
    hids := by intro p hp; cases hp
    hidlt := by intro p hp; cases hp
    hcidlt := Nat.zero_lt_one
    hflat := by intro ld h0; simp at h0
    hst := by intro ld h0; simp at h0
    hover := by intro p hp; cases hp
    hfits2 := by intro h2; simp [NewWordWrapper, NewLineObject] at h2
    hQ := by intro h2; exact absurd rfl h2
    hsepA := by intro p pr h2; cases h2
    hsepB := by intro _; simp [NewWordWrapper, NewUnitPair]
    hlastNL := by intro h2; simp [NewWordWrapper, nullUnit] at h2
    hlastW := by intro h2; simp [NewWordWrapper, nullUnit] at h2
    hlastS := by intro h2; simp [NewWordWrapper, nullUnit] at h2
    hlastWd := by intro h2; simp [NewWordWrapper, nullUnit] at h2
    hstart := by intro _; exact ⟨rfl, rfl, rfl, rfl, rfl, rfl⟩
    hlastNull := fun _ => rfl
    hnoflush := by
      intro _
      refine ⟨?_, rfl⟩
      intro b hb
      simp at hb
    hwords := by
      simp [stateWords, wordsOfBlocks, wordsOfLD, cWords,
        NewUnitPair, nullUnit, WrapUnit.IsNull, NewLineObject]
      exact ⟨rfl, rfl⟩ }

theorem wrapUnits_inv : ∀ (units : List WrapUnit)
    {ww : WordWrapper (List Char)} {closed : List (List LineD)}
    {cur : List LineD} {used : Nat} {ws : List (List Char)},
    WwInv ww closed cur used ws →
    StreamOK ww.lastUnit.typ units →
    (∀ u ∈ units, UnitWF u) →
    ww.StartsAt + used + widthSum units < U64 →
    ∃ closed' cur', WwInv (ww.wrapUnits units) closed' cur'
      (used + widthSum units) (ws ++ wordVals units) ∧
      closed'.length = closed.length + countNL units := by
  intro units
  induction units with
  | nil =>
    intro ww closed cur used ws inv _ _ _
    refine ⟨closed, cur, ?_, by simp [countNL]⟩
    simpa [WordWrapper.wrapUnits, widthSum, wordVals] using inv
  | cons u us ih =>
    intro ww closed cur used ws inv hs hwf hsm
    obtain ⟨hhead, htail⟩ := hs
    have huWF : UnitWF u := hwf u (by simp)
    have hw : widthSum (u :: us) = u.width + widthSum us := by simp [widthSum]
    have hfold : ww.wrapUnits (u :: us) = (ww.AddUnit u).wrapUnits us := rfl
    have hlast : (ww.AddUnit u).lastUnit = u := AddUnit_lastUnit ww u huWF.2.2.2
    have hSA : (ww.AddUnit u).StartsAt = ww.StartsAt := (AddUnit_opts ww u).2.1
    have hwfus : ∀ v ∈ us, UnitWF v := fun v hv => hwf v (by simp [hv])
    cases htyp : u.typ with
    | NullUnit => exact absurd htyp huWF.2.2.2
    | NewLine =>
      obtain ⟨closed1, cur1, inv1, hlen1⟩ := step_newline inv huWF htyp
      have hs1 : StreamOK (ww.AddUnit u).lastUnit.typ us := by
        rw [hlast]
        exact htail
      have hsm1 : (ww.AddUnit u).StartsAt + (used + u.width) + widthSum us < U64 := by
        rw [hSA]
        omega
      obtain ⟨closed2, cur2, inv2, hlen2⟩ := ih inv1 hs1 hwfus hsm1
      refine ⟨closed2, cur2, ?_, ?_⟩
      · have e1 : used + u.width + widthSum us = used + widthSum (u :: us) := by
          rw [hw]
          omega
        have e2 : ws ++ wordVals us = ws ++ wordVals (u :: us) := by
          simp [wordVals, htyp]
        rw [hfold, ← e1, ← e2]
        exact inv2
      · have e3 : countNL (u :: us) = countNL us + 1 := by
          simp [countNL, List.countP_cons, htyp]
        omega
    | Spaces =>
      obtain ⟨cur1, inv1⟩ := step_spaces inv huWF htyp (by omega)
      have hs1 : StreamOK (ww.AddUnit u).lastUnit.typ us := by
        rw [hlast]
        exact htail
      have hsm1 : (ww.AddUnit u).StartsAt + (used + u.width) + widthSum us < U64 := by
        rw [hSA]
        omega
      obtain ⟨closed2, cur2, inv2, hlen2⟩ := ih inv1 hs1 hwfus hsm1
      refine ⟨closed2, cur2, ?_, ?_⟩
      · have e1 : used + u.width + widthSum us = used + widthSum (u :: us) := by
          rw [hw]
          omega
        have e2 : ws ++ wordVals us = ws ++ wordVals (u :: us) := by
          simp [wordVals, htyp]
        rw [hfold, ← e1, ← e2]
        exact inv2
      · have e3 : countNL (u :: us) = countNL us := by
          simp [countNL, List.countP_cons, htyp]
        omega
    | Word =>
      have hadj : ww.lastUnit.typ ≠ WordWrapType.Word := by
        rcases hhead with hne | hNL
        · exact fun h2 => hne (htyp.trans h2.symm)
        · rw [htyp] at hNL
          simp at hNL
      obtain ⟨cur1, inv1⟩ := step_word inv huWF htyp hadj (by omega)
      have hs1 : StreamOK (ww.AddUnit u).lastUnit.typ us := by
        rw [hlast]
        exact htail
      have hsm1 : (ww.AddUnit u).StartsAt + (used + u.width) + widthSum us < U64 := by
        rw [hSA]
        omega
      obtain ⟨closed2, cur2, inv2, hlen2⟩ := ih inv1 hs1 hwfus hsm1
      refine ⟨closed2, cur2, ?_, ?_⟩
      · have e1 : used + u.width + widthSum us = used + widthSum (u :: us) := by
          rw [hw]
          omega
        have e2 : (ws ++ [u.value]) ++ wordVals us = ws ++ wordVals (u :: us) := by
          simp [wordVals, htyp]
        rw [hfold, ← e1, ← e2]
        exact inv2
      · have e3 : countNL (u :: us) = countNL us := by
          simp [countNL, List.countP_cons, htyp]
        omega

theorem FinalFlush_spec {ww : WordWrapper (List Char)}
    {closed : List (List LineD)} {cur : List LineD} {used : Nat}
    {ws : List (List Char)} (inv : WwInv ww closed cur used ws) :
    ∃ cur',
      ww.FinalFlush.Writer = renderState ww.Indentation closed cur' ∧
      (∀ ld ∈ closed.flatten ++ cur', LDOK ww.Limit ld) ∧
      (∀ ld ∈ closed.flatten ++ cur', ld.st = 0 ∨ ld.st = ww.StartsAt) ∧
      wordsOfBlocks (closed ++ [cur']) = ws := by
  have hstOld : ∀ ld ∈ closed.flatten ++ cur,
      ld.st = 0 ∨ ld.st = ww.StartsAt := by
    intro ld hld
    rcases inv.hst ld hld with h | ⟨h, _⟩
    · exact Or.inl h
    · exact Or.inr h
  by_cases hcw : ww.currentPair.HasWord = true
  · -- the pending word is appended and the line flushed
    have hcW : WordOK ww.currentPair.Word := by
      rcases inv.hcp.1 with h | h
      · exact absurd hcw (by simp [HasWord_null h])
      · exact h
    have hIsLast : ww.currentLine.IsLastPair ww.currentPair = false :=
      isLastPair_false inv.hids
    have hWT := lastUnit_word_of_hasWord inv hcw
    have hWfits := inv.hlastW hWT
    have hsm1 : ww.currentLine.width + pairWidthN ww.currentPair < U64 :=
      lt_of_le_of_lt inv.hbound inv.hsmall
    have happ := AppendPair_spec hcW hsm1
    have hchpos : 1 ≤ (if ww.currentLine.pairs.isEmpty
        then chargeOf true ww.currentPair else pairWidthN ww.currentPair) := by
      have h1 := word_le_chargeOf true ww.currentPair
      have h2 := word_width_pos hcW
      have h3 : ww.currentPair.Word.width ≤ pairWidthN ww.currentPair := by
        unfold pairWidthN
        omega
      split <;> omega
    have hW1 : (ww.currentLine.AppendPair ww.currentPair).width ≠ 0 := by
      rw [happ]
      show ww.currentLine.width + (if ww.currentLine.pairs.isEmpty
        then chargeOf true ww.currentPair else pairWidthN ww.currentPair) ≠ 0
      omega
    have hflush := flushLine_run
      { ww with currentLine := ww.currentLine.AppendPair ww.currentPair } hW1
    have hpbnEq : Line.IsPrecededByNewLine
        (ww.currentLine.AppendPair ww.currentPair)
        = (match ww.currentLine.pairs with
           | [] => ww.currentPair.precededByNewLine
           | p0 :: _ => p0.precededByNewLine) := by
      rw [happ]
      cases hLp : ww.currentLine.pairs with
      | nil => simp only [List.nil_append, isPbn_cons]
      | cons p0 rest => simp only [List.cons_append, isPbn_cons]
    have hsepEq : (if ww.flushed ∧
          ¬ Line.IsPrecededByNewLine (ww.currentLine.AppendPair ww.currentPair)
        then (['\n'] : List Char) else []) =
        (if cur.isEmpty then [] else ['\n']) := by
      rw [hpbnEq]
      cases hLp : ww.currentLine.pairs with
      | nil => exact sep_emit_eq (inv.hsepB hLp)
      | cons p0 rest => exact sep_emit_eq (inv.hsepA p0 rest hLp)
    have hrendEq : renderPairs (ww.currentLine.AppendPair ww.currentPair).pairs
        = renderPairs (ww.currentLine.pairs ++ [ww.currentPair]) := by
      rw [happ]
    have h1 : (ww.currentPair.HasWord = true ∧
        ¬ ww.currentLine.IsLastPair ww.currentPair = true) :=
      ⟨hcw, by simp [hIsLast]⟩
    have hstep : ww.FinalFlush = { ww with
        Writer := ww.Writer ++
          ((if cur.isEmpty then [] else ['\n']) ++
           ((if wwIndFlag ww = true then ww.Indentation else []) ++
            renderPairs (ww.currentLine.pairs ++ [ww.currentPair])))
        currentLine := NewLineObject 0 ww.Limit
        flushed := true
        filledLineLast := false } := by
      unfold WordWrapper.FinalFlush
      simp only [if_pos h1, WordWrapper.appendPair]
      rw [if_pos (show ({ ww with
        currentLine := ww.currentLine.AppendPair ww.currentPair } :
          WordWrapper (List Char)).currentLine.NotEmpty = true by
        rw [NotEmpty_iff, happ]
        show 0 < ww.currentLine.width + (if ww.currentLine.pairs.isEmpty
          then chargeOf true ww.currentPair else pairWidthN ww.currentPair)
        omega)]
      rw [hflush]
      rw [hsepEq, indEmit_eq, hrendEq]
      simp [wwIndFlag, List.append_assoc]
    have hLDOK : LDOK ww.Limit ⟨wwIndFlag ww, lineInit ww,
        ww.currentLine.pairs ++ [ww.currentPair]⟩ := by
      refine ⟨by simp, ?_, ?_, ?_⟩
      · show ∀ p ∈ ww.currentLine.pairs ++ [ww.currentPair], PairOK p
        intro p hp
        rcases List.mem_append.mp hp with h | h
        · exact inv.hpairs p h
        · simp at h
          subst h
          exact ⟨hcW, inv.hcp.2⟩
      · show 2 ≤ (ww.currentLine.pairs ++ [ww.currentPair]).length →
          lineInit ww + chargeSum (ww.currentLine.pairs ++ [ww.currentPair])
            ≤ ww.Limit
        intro hlen
        have hLpne : ww.currentLine.pairs ≠ [] := by
          intro h0
          rw [h0] at hlen
          simp at hlen
        rcases hWfits with h | h
        · exact absurd h hLpne
        · rw [chargeSum_append,
            if_neg (by simpa [List.isEmpty_iff] using hLpne)]
          have hw := inv.hwidth
          omega
      · show ∀ p ∈ ww.currentLine.pairs ++ [ww.currentPair],
          ww.Limit < p.Word.width →
            ww.currentLine.pairs ++ [ww.currentPair] = [p]
        intro p hp hbig
        cases hLp : ww.currentLine.pairs with
        | nil =>
          rw [hLp] at hp
          simp only [List.nil_append] at hp
          simp at hp
          subst hp
          simp [hLp]
        | cons p0 rest =>
          exfalso
          have hLpne : ww.currentLine.pairs ≠ [] := by rw [hLp]; simp
          rcases hWfits with h | h
          · exact absurd h hLpne
          · rcases List.mem_append.mp hp with hpl | hpc
            · have h1b := word_le_chargeSum hpl
              have h2b := inv.hwidth
              omega
            · simp at hpc
              subst hpc
              have h3 : ww.currentPair.Word.width ≤ pairWidthN ww.currentPair := by
                unfold pairWidthN
                omega
              omega
    refine ⟨cur ++ [⟨wwIndFlag ww, lineInit ww,
      ww.currentLine.pairs ++ [ww.currentPair]⟩], ?_, ?_, ?_, ?_⟩
    · rw [hstep]
      show ww.Writer ++ _ = renderState ww.Indentation closed _
      rw [renderState_appendLine, inv.hout]
      simp [LineD.render, List.append_assoc]
    · intro ld0 h0
      rcases List.mem_append.mp h0 with h | h
      · exact inv.hflat ld0 (List.mem_append.mpr (Or.inl h))
      · rcases List.mem_append.mp h with h' | h'
        · exact inv.hflat ld0 (List.mem_append.mpr (Or.inr h'))
        · simp at h'
          subst h'
          exact hLDOK
    · intro ld0 h0
      rcases List.mem_append.mp h0 with h | h
      · exact hstOld ld0 (List.mem_append.mpr (Or.inl h))
      · rcases List.mem_append.mp h with h' | h'
        · exact hstOld ld0 (List.mem_append.mpr (Or.inr h'))
        · simp at h'
          subst h'
          by_cases hf : ww.flushed = true
          · exact Or.inl (by simp [lineInit, hf])
          · exact Or.inr (by simp [lineInit, hf])
    · have hold := inv.hwords
      unfold stateWords at hold
      rw [cWords_hasWord hcw] at hold
      rw [wordsOfBlocks_lastLine]
      show wordsOfBlocks (closed ++ [cur]) ++
        wordsOfLD ⟨wwIndFlag ww, lineInit ww,
          ww.currentLine.pairs ++ [ww.currentPair]⟩ = ws
      simp only [wordsOfLD, List.map_append, List.map_cons, List.map_nil]
      simpa [List.append_assoc] using hold
  · -- no pending word: the line is flushed as it stands (or nothing happens)
    have hwnull : ww.currentPair.Word = nullUnit := by
      rcases inv.hcp.1 with h | h
      · exact h
      · exact absurd (HasWord_of_WordOK h) (by simpa using hcw)
    have hHW : ww.currentPair.HasWord = false := HasWord_null hwnull
    have h1n : ¬ (ww.currentPair.HasWord = true ∧
        ¬ ww.currentLine.IsLastPair ww.currentPair = true) := by
      simp [hHW]
    cases hLp : ww.currentLine.pairs with
    | cons p0 rest =>
      have hp0 : PairOK p0 := inv.hpairs p0 (by rw [hLp]; simp)
      have hwpos : ww.currentLine.width ≠ 0 := by
        have h2 := word_le_chargeSum
          (show p0 ∈ ww.currentLine.pairs by rw [hLp]; simp)
        have h3 := word_width_pos hp0.1
        have h4 := inv.hwidth
        omega
      have hflush := flushLine_run ww hwpos
      have hsepEq : (if ww.flushed ∧ ¬ ww.currentLine.IsPrecededByNewLine
          then (['\n'] : List Char) else []) =
          (if cur.isEmpty then [] else ['\n']) := by
        have hpbn : ww.currentLine.IsPrecededByNewLine
            = p0.precededByNewLine := by
          unfold Line.IsPrecededByNewLine
          rw [hLp]
        rw [hpbn]
        exact sep_emit_eq (inv.hsepA p0 rest hLp)
      have hstep : ww.FinalFlush = { ww with
          Writer := ww.Writer ++
            ((if cur.isEmpty then [] else ['\n']) ++
             ((if wwIndFlag ww = true then ww.Indentation else []) ++
              renderPairs ww.currentLine.pairs))
          currentLine := NewLineObject 0 ww.Limit
          flushed := true
          filledLineLast := false } := by
        unfold WordWrapper.FinalFlush
        simp only [if_neg h1n]
        rw [if_pos (show ww.currentLine.NotEmpty = true by
          rw [NotEmpty_iff]
          omega)]
        rw [hflush]
        rw [hsepEq, indEmit_eq]
        simp [wwIndFlag, List.append_assoc]
      have hLDOK : LDOK ww.Limit
          ⟨wwIndFlag ww, lineInit ww, ww.currentLine.pairs⟩ := by
        refine ⟨by rw [hLp]; simp, ?_, ?_, ?_⟩
        · show ∀ p ∈ ww.currentLine.pairs, PairOK p
          exact inv.hpairs
        · show 2 ≤ ww.currentLine.pairs.length →
            lineInit ww + chargeSum ww.currentLine.pairs ≤ ww.Limit
          intro hlen
          have h2 := inv.hfits2 hlen
          have h3 := inv.hwidth
          omega
        · show ∀ p ∈ ww.currentLine.pairs, ww.Limit < p.Word.width →
            ww.currentLine.pairs = [p]
          exact inv.hover
      refine ⟨cur ++ [⟨wwIndFlag ww, lineInit ww, ww.currentLine.pairs⟩],
        ?_, ?_, ?_, ?_⟩
      · rw [hstep]
        show ww.Writer ++ _ = renderState ww.Indentation closed _
        rw [renderState_appendLine, inv.hout]
        simp [LineD.render, List.append_assoc]
      · intro ld0 h0
        rcases List.mem_append.mp h0 with h | h
        · exact inv.hflat ld0 (List.mem_append.mpr (Or.inl h))
        · rcases List.mem_append.mp h with h' | h'
          · exact inv.hflat ld0 (List.mem_append.mpr (Or.inr h'))
          · simp at h'
            subst h'
            exact hLDOK
      · intro ld0 h0
        rcases List.mem_append.mp h0 with h | h
        · exact hstOld ld0 (List.mem_append.mpr (Or.inl h))
        · rcases List.mem_append.mp h with h' | h'
          · exact hstOld ld0 (List.mem_append.mpr (Or.inr h'))
          · simp at h'
            subst h'
            by_cases hf : ww.flushed = true
            · exact Or.inl (by simp [lineInit, hf])
            · exact Or.inr (by simp [lineInit, hf])
      · have hold := inv.hwords
        unfold stateWords at hold
        rw [cWords_nullWord hwnull] at hold
        rw [wordsOfBlocks_lastLine]
        show wordsOfBlocks (closed ++ [cur]) ++
          wordsOfLD ⟨wwIndFlag ww, lineInit ww, ww.currentLine.pairs⟩ = ws
        simp only [wordsOfLD]
        simpa [List.append_assoc] using hold
    | nil =>
      have hwords0 : wordsOfBlocks (closed ++ [cur]) = ws := by
        have hold := inv.hwords
        unfold stateWords at hold
        rw [cWords_nullWord hwnull, hLp] at hold
        simpa using hold
      by_cases hw0 : ww.currentLine.width = 0
      · -- nothing to flush
        have hstep : ww.FinalFlush = ww := by
          unfold WordWrapper.FinalFlush
          simp only [if_neg h1n]
          rw [if_neg (show ¬ ww.currentLine.NotEmpty = true by
            rw [NotEmpty_iff]
            omega)]
        refine ⟨cur, ?_, ?_, hstOld, hwords0⟩
        · rw [hstep]
          exact inv.hout
        · exact inv.hflat
      · -- an empty unflushed line at a nonzero starting column: the flush
        -- writes nothing
        have hfl : ww.flushed = false := by
          by_contra hff
          have hft : ww.flushed = true := by simpa using hff
          have hwv := inv.hwidth
          rw [hLp, lineInit, if_pos hft] at hwv
          simp [chargeSum] at hwv
          exact hw0 hwv
        have hSA : ww.StartsAt ≠ 0 := by
          have hwv := inv.hwidth
          rw [hLp, lineInit, if_neg (by simp [hfl])] at hwv
          simp [chargeSum] at hwv
          intro h3
          rw [hwv, h3] at hw0
          exact hw0 rfl
        have hflush := flushLine_run ww hw0
        have hstep : ww.FinalFlush = { ww with
            currentLine := NewLineObject 0 ww.Limit
            flushed := true
            filledLineLast := false } := by
          unfold WordWrapper.FinalFlush
          simp only [if_neg h1n]
          rw [if_pos (show ww.currentLine.NotEmpty = true by
            rw [NotEmpty_iff]
            omega)]
          rw [hflush]
          rw [if_neg (by simp [hfl]), if_neg (by simp [hfl, hSA]), hLp]
          simp [renderPairs]
        refine ⟨cur, ?_, ?_, hstOld, hwords0⟩
        · rw [hstep]
          exact inv.hout
        · exact inv.hflat

/-- Master description of a whole wrapping pass: the output is a list of
blocks (one per explicit NewLine plus one) of flushed lines, every flushed
line is well-formed for the configured limit, starts at column 0 or at the
configured starting column, and the word payloads of the flushed lines are
exactly the Word units of the lexed input, in order. -/
theorem wrap_master (options : WrapOptions) (s : List Char)
    (hsm : options.StartsAt + s.length < U64) :
    ∃ blocks : List (List LineD),
      wrapOutput options s = renderOutput options.Indentation blocks ∧
      blocks.length = countNL (FeedWordsForWrapping s) + 1 ∧
      (∀ ld ∈ blocks.flatten, LDOK options.Limit ld) ∧
      (∀ ld ∈ blocks.flatten, ld.st = 0 ∨ ld.st = options.StartsAt) ∧
      wordsOfBlocks blocks = wordVals (FeedWordsForWrapping s) := by
  have inv0 := init_inv options (by omega)
  have hunits : FeedWordsForWrapping s = lexSpec s := Feed_eq_lexSpec s
  have hwf : ∀ u ∈ FeedWordsForWrapping s, UnitWF u := by
    rw [hunits]
    exact lexSpec_wf s
  have hs : StreamOK (NewWordWrapper ([] : List Char) options).lastUnit.typ
      (FeedWordsForWrapping s) := by
    rw [hunits]
    exact lexSpec_streamOK s
  have hwsum : widthSum (FeedWordsForWrapping s) ≤ s.length := by
    rw [hunits]
    exact widthSum_lexSpec_le s
  have hsm0 : (NewWordWrapper ([] : List Char) options).StartsAt + 0 +
      widthSum (FeedWordsForWrapping s) < U64 := by
    show options.StartsAt + 0 + _ < U64
    omega
  obtain ⟨closed, cur, inv1, hlen⟩ :=
    wrapUnits_inv (FeedWordsForWrapping s) inv0 hs hwf hsm0
  obtain ⟨cur', hW, hLD, hst, hwords⟩ := FinalFlush_spec inv1
  have hopts := wrapUnits_opts (FeedWordsForWrapping s)
    (NewWordWrapper ([] : List Char) options)
  refine ⟨closed ++ [cur'], ?_, ?_, ?_, ?_, ?_⟩
  · show (((NewWordWrapper ([] : List Char) options).wrapUnits
      (FeedWordsForWrapping s)).FinalFlush).Writer = _
    rw [hW, hopts.2.2]
    rfl
  · rw [List.length_append, hlen]
    simp
  · intro ld hld
    have hmem : ld ∈ closed.flatten ++ cur' := by
      rw [List.flatten_append] at hld
      simpa using hld
    have h2 := hLD ld hmem
    rw [hopts.1] at h2
    exact h2
  · intro ld hld
    have hmem : ld ∈ closed.flatten ++ cur' := by
      rw [List.flatten_append] at hld
      simpa using hld
    have h2 := hst ld hmem
    rw [hopts.2.1] at h2
    exact h2
  · rw [hwords]
    simp

/-! ### Content of rendered lines -/

theorem renderRest_cons_cons (a b : UnitPair) (bs : List UnitPair) :
    renderRest (a :: b :: bs) = a.WriteChars true ++ renderRest (b :: bs) := rfl

theorem renderPairs_cons_cons (a b : UnitPair) (bs : List UnitPair) :
    renderPairs (a :: b :: bs) =
      a.WriteChars a.isPrecededByNewLine ++ renderRest (b :: bs) := rfl

theorem newline_not_word {u : WrapUnit} (h : WordOK u) : '\n' ∉ u.value := by
  intro hm
  have h2 := h.2.2.1 '\n' hm
  rw [classify_newline] at h2
  simp at h2

theorem newline_not_WriteChars {p : UnitPair} (hp : PairOK p) (b : Bool) :
    '\n' ∉ p.WriteChars b := by
  unfold UnitPair.WriteChars
  intro hm
  rcases List.mem_append.mp hm with h | h
  · rcases hp.2 with hnull | ⟨_, hcls, _⟩
    · rw [hnull] at h
      cases b <;> simp [nullUnit] at h
    · have hmem : '\n' ∈ p.LeadSpace.value := by
        cases b
        · simp at h
        · simpa using h
      have h2 := hcls '\n' hmem
      rw [classify_newline] at h2
      simp at h2
  · exact newline_not_word hp.1 h

theorem newline_not_renderRest {ps : List UnitPair} (h : ∀ p ∈ ps, PairOK p) :
    '\n' ∉ renderRest ps := by
  induction ps with
  | nil => simp [renderRest]
  | cons a rest ih =>
    cases rest with
    | nil =>
      show '\n' ∉ (if ¬ a.HasWord then [] else a.WriteChars true)
      split
      · simp
      · exact newline_not_WriteChars (h a (by simp)) true
    | cons b bs =>
      rw [renderRest_cons_cons]
      intro hm
      rcases List.mem_append.mp hm with h2 | h2
      · exact newline_not_WriteChars (h a (by simp)) true h2
      · exact ih (fun p hp => h p (by simp [hp])) h2

theorem newline_not_renderPairs {ps : List UnitPair} (h : ∀ p ∈ ps, PairOK p) :
    '\n' ∉ renderPairs ps := by
  cases ps with
  | nil => simp [renderPairs]
  | cons a rest =>
    cases rest with
    | nil =>
      show '\n' ∉ (if ¬ a.HasWord then [] else a.WriteChars a.isPrecededByNewLine)
      split
      · simp
      · exact newline_not_WriteChars (h a (by simp)) _
    | cons b bs =>
      rw [renderPairs_cons_cons]
      intro hm
      rcases List.mem_append.mp hm with h2 | h2
      · exact newline_not_WriteChars (h a (by simp)) _ h2
      · exact newline_not_renderRest (fun p hp => h p (by simp [hp])) h2

theorem word_in_WriteChars (p : UnitPair) (b : Bool) :
    ∃ pre post, p.WriteChars b = pre ++ p.Word.value ++ post :=
  ⟨(if b then p.LeadSpace.value else []), [], by simp [UnitPair.WriteChars]⟩

theorem word_in_renderRest {ps : List UnitPair} (h : ∀ p ∈ ps, PairOK p) :
    ∀ p ∈ ps, ∃ pre post, renderRest ps = pre ++ p.Word.value ++ post := by
  induction ps with
  | nil => intro p hp; cases hp
  | cons a rest ih =>
    intro p hp
    cases rest with
    | nil =>
      simp at hp
      subst hp
      show ∃ pre post,
        (if ¬ p.HasWord then [] else p.WriteChars true) = pre ++ p.Word.value ++ post
      rw [if_neg (by simp [HasWord_of_WordOK (h p (by simp)).1])]
      exact word_in_WriteChars p true
    | cons b bs =>
      rw [renderRest_cons_cons]
      rcases List.mem_cons.mp hp with rfl | hmem
      · obtain ⟨pre, post, heq⟩ := word_in_WriteChars p true
        exact ⟨pre, post ++ renderRest (b :: bs), by rw [heq]; simp⟩
      · obtain ⟨pre, post, heq⟩ := ih (fun q hq => h q (by simp [hq])) p hmem
        exact ⟨a.WriteChars true ++ pre, post, by rw [heq]; simp⟩

theorem word_in_renderPairs {ps : List UnitPair} (h : ∀ p ∈ ps, PairOK p) :
    ∀ p ∈ ps, ∃ pre post, renderPairs ps = pre ++ p.Word.value ++ post := by
  cases ps with
  | nil => intro p hp; cases hp
  | cons a rest =>
    intro p hp
    cases rest with
    | nil =>
      simp at hp
      subst hp
      show ∃ pre post,
        (if ¬ p.HasWord then [] else p.WriteChars p.isPrecededByNewLine)
          = pre ++ p.Word.value ++ post
      rw [if_neg (by simp [HasWord_of_WordOK (h p (by simp)).1])]
      exact word_in_WriteChars p _
    | cons b bs =>
      rw [renderPairs_cons_cons]
      rcases List.mem_cons.mp hp with rfl | hmem
      · obtain ⟨pre, post, heq⟩ := word_in_WriteChars p p.isPrecededByNewLine
        exact ⟨pre, post ++ renderRest (b :: bs), by rw [heq]; simp⟩
      · obtain ⟨pre, post, heq⟩ :=
          word_in_renderRest (fun q hq => h q (by simp [hq])) p hmem
        exact ⟨a.WriteChars a.isPrecededByNewLine ++ pre, post, by rw [heq]; simp⟩

theorem LineD_render_no_newline {limit : Nat} {ind : List Char} {ld : LineD}
    (h : LDOK limit ld) (hind : '\n' ∉ ind) :
    '\n' ∉ LineD.render ind ld := by
  unfold LineD.render
  intro hm
  rcases List.mem_append.mp hm with h2 | h2
  · by_cases hi : ld.ind = true
    · rw [if_pos hi] at h2
      exact hind h2
    · rw [if_neg hi] at h2
      simp at h2
  · exact newline_not_renderPairs h.2.1 h2

/-- Claim C1: the wrapping pass never breaks inside a Word unit.  The output
is the render of a block list whose word payloads are exactly the lexed Word
units in order and whose pairs are well-formed (nonempty Word-class payloads
with the stored width equal to the payload's code-point count); every word
sits contiguously inside the render of a single flushed line, no flushed
line's render contains a line break (given the indentation holds none), and
a word whose payload is longer than the limit has its line to itself. -/
theorem claim_C1_no_midword_breaks (options : WrapOptions) (s : List Char)
    (hsm : options.StartsAt + s.length < U64)
    (hind : '\n' ∉ options.Indentation) :
    ∃ blocks : List (List LineD),
      wrapOutput options s = renderOutput options.Indentation blocks ∧
      wordsOfBlocks blocks = wordVals (FeedWordsForWrapping s) ∧
      (∀ ld ∈ blocks.flatten, ∀ p ∈ ld.pairs, PairOK p) ∧
      (∀ ld ∈ blocks.flatten, '\n' ∉ LineD.render options.Indentation ld) ∧
      (∀ ld ∈ blocks.flatten, ∀ p ∈ ld.pairs,
        ∃ pre post, LineD.render options.Indentation ld
          = pre ++ p.Word.value ++ post) ∧
      (∀ ld ∈ blocks.flatten, ∀ p ∈ ld.pairs,
        options.Limit < p.Word.value.length → ld.pairs = [p]) := by
  obtain ⟨blocks, hout, _, hLD, _, hwords⟩ := wrap_master options s hsm
  refine ⟨blocks, hout, hwords, ?_, ?_, ?_, ?_⟩
  · intro ld hld
    exact (hLD ld hld).2.1
  · intro ld hld
    exact LineD_render_no_newline (hLD ld hld) hind
  · intro ld hld p hp
    obtain ⟨pre, post, heq⟩ := word_in_renderPairs (hLD ld hld).2.1 p hp
    unfold LineD.render
    exact ⟨(if ld.ind then options.Indentation else []) ++ pre, post,
      by rw [heq]; simp⟩
  · intro ld hld p hp hbig
    have hw : p.Word.width = p.Word.value.length :=
      ((hLD ld hld).2.1 p hp).1.2.2.2
    exact (hLD ld hld).2.2.2 p hp (by rw [hw]; exact hbig)

theorem claim_C1_witness :
    ((0 : Nat) + ("foo bar baz".data).length < U64 ∧
      '\n' ∉ ([] : List Char)) ∧
    ∃ blocks : List (List LineD),
      wrapOutput ⟨4, 0, []⟩ "foo bar baz".data
          = renderOutput [] blocks ∧
      wordsOfBlocks blocks = wordVals (FeedWordsForWrapping "foo bar baz".data) ∧
      (∀ ld ∈ blocks.flatten, ∀ p ∈ ld.pairs, PairOK p) ∧
      (∀ ld ∈ blocks.flatten, '\n' ∉ LineD.render [] ld) ∧
      (∀ ld ∈ blocks.flatten, ∀ p ∈ ld.pairs,
        ∃ pre post, LineD.render [] ld = pre ++ p.Word.value ++ post) ∧
      (∀ ld ∈ blocks.flatten, ∀ p ∈ ld.pairs,
        (4 : Nat) < p.Word.value.length → ld.pairs = [p]) :=
  ⟨⟨by decide, by decide⟩,
    claim_C1_no_midword_breaks ⟨4, 0, []⟩ "foo bar baz".data
      (by decide) (by decide)⟩

/-- Line decomposition of an output at `'\n'` (observation device for the
width counterexample). -/
def splitLines : List Char → List (List Char)
  | [] => [[]]
  | c :: cs =>
    if c = '\n' then [] :: splitLines cs
    else
      match splitLines cs with
      | [] => [[c]]
      | l :: ls => (c :: l) :: ls

/-- One `Line` operation. -/
inductive LineOp where
  | app (p : UnitPair)
  | pop
  deriving DecidableEq, Repr

/-- Run a sequence of `Line` operations. -/
def runOps (l : Line) : List LineOp → Line
  | [] => l
  | .app p :: ops => runOps (l.AppendPair p) ops
  | .pop :: ops => runOps (l.PopLast).1 ops

/-- Total full width the appends of an operation list carry. -/
def opsAppWidth : List LineOp → Nat
  | [] => 0
  | .app p :: ops => pairWidthN p + opsAppWidth ops
  | .pop :: ops => opsAppWidth ops

/-- An operation as the wrapper can issue it without tripping the charging
mismatch: an appended pair holds a real word and is either preceded by an
explicit newline or carries no leading space. -/
def OpOK : LineOp → Prop
  | .app p => WordOK p.Word ∧
      (p.precededByNewLine = true ∨ p.LeadSpace.width = 0)
  | .pop => True

theorem chargeSum_eq_sum {ps : List UnitPair}
    (h : ∀ p ∈ ps, p.precededByNewLine = true ∨ p.LeadSpace.width = 0) :
    chargeSum ps = (ps.map pairWidthN).sum := by
  cases ps with
  | nil => rfl
  | cons a rest =>
    simp only [chargeSum, List.map_cons, List.sum_cons]
    have hcond := h a (by simp)
    have hch : chargeOf true a = pairWidthN a := by
      unfold chargeOf
      rcases hcond with hpbn | hlead
      · rw [if_neg (by simp [hpbn])]
      · split
        · unfold pairWidthN
          omega
        · rfl
    rw [hch]

theorem runOps_aux : ∀ (ops : List LineOp) (l : Line) (start : Nat),
    (∀ op ∈ ops, OpOK op) →
    (∀ p ∈ l.pairs, WordOK p.Word ∧
      (p.precededByNewLine = true ∨ p.LeadSpace.width = 0)) →
    l.width = start + (l.pairs.map pairWidthN).sum →
    l.width + opsAppWidth ops < U64 →
    (runOps l ops).width = start + ((runOps l ops).pairs.map pairWidthN).sum ∧
    (∀ p ∈ (runOps l ops).pairs, WordOK p.Word ∧
      (p.precededByNewLine = true ∨ p.LeadSpace.width = 0)) := by
  intro ops
  induction ops with
  | nil =>
    intro l start _ hps hw _
    exact ⟨hw, hps⟩
  | cons op ops ih =>
    intro l start hops hps hw hsm
    cases op with
    | app p =>
      obtain ⟨hpW, hpcond⟩ : OpOK (LineOp.app p) := hops _ (by simp)
      have hpw : pairWidthN p < U64 := by
        have h1 : opsAppWidth (LineOp.app p :: ops) =
            pairWidthN p + opsAppWidth ops := rfl
        omega
      have hcharge : (if l.pairs.length = 0 ∧ ¬ p.isPrecededByNewLine
          then p.WordWidth else p.Width) = pairWidthN p := by
        unfold UnitPair.WordWidth UnitPair.isPrecededByNewLine
        split
        · rename_i hcc
          rcases hpcond with hpbn | hlead
          · exact absurd hpbn (by simpa using hcc.2)
          · unfold pairWidthN
            omega
        · exact Width_eq hpw
      have happ : l.AppendPair p =
          ⟨l.pairs ++ [p], l.width + pairWidthN p, l.limit⟩ := by
        rw [AppendPair_eq (IsNull_false_of_WordOK hpW), hcharge]
        rw [addU_eq_of_lt (by
          have h1 : opsAppWidth (LineOp.app p :: ops) =
              pairWidthN p + opsAppWidth ops := rfl
          omega)]
      have hstep : runOps l (LineOp.app p :: ops) = runOps (l.AppendPair p) ops := rfl
      rw [hstep, happ]
      refine ih _ start (fun o ho => hops o (by simp [ho])) ?_ ?_ ?_
      · intro q hq
        rcases List.mem_append.mp hq with h2 | h2
        · exact hps q h2
        · simp at h2
          subst h2
          exact ⟨hpW, hpcond⟩
      · show l.width + pairWidthN p = start + ((l.pairs ++ [p]).map pairWidthN).sum
        rw [hw]
        simp [Nat.add_assoc]
      · show l.width + pairWidthN p + opsAppWidth ops < U64
        have h1 : opsAppWidth (LineOp.app p :: ops) =
            pairWidthN p + opsAppWidth ops := rfl
        omega
    | pop =>
      have hstep : runOps l (LineOp.pop :: ops) = runOps (l.PopLast).1 ops := rfl
      have hw1 : opsAppWidth (LineOp.pop :: ops) = opsAppWidth ops := rfl
      cases hLp : l.pairs.getLast? with
      | none =>
        have hpop : (l.PopLast).1 = l := by
          unfold Line.PopLast
          rw [hLp]
        rw [hstep, hpop]
        exact ih l start (fun o ho => hops o (by simp [ho])) hps hw (by omega)
      | some q =>
        obtain ⟨hne, hqe⟩ := List.mem_getLast?_eq_getLast (Option.mem_def.mpr hLp)
        have hsplit : l.pairs.dropLast ++ [q] = l.pairs := by
          rw [hqe]
          exact List.dropLast_append_getLast hne
        have hsum : (l.pairs.map pairWidthN).sum =
            (l.pairs.dropLast.map pairWidthN).sum + pairWidthN q := by
          conv_lhs => rw [← hsplit]
          simp
        have hqw : pairWidthN q < U64 := by omega
        have hQW : q.Width = pairWidthN q := Width_eq hqw
        have hpop1 : (l.PopLast).1 =
            ⟨l.pairs.dropLast, subU l.width q.Width, l.limit⟩ := by
          unfold Line.PopLast
          rw [hLp]
        have hwidth2 : subU l.width q.Width =
            start + (l.pairs.dropLast.map pairWidthN).sum := by
          rw [hQW, hw, hsum, subU_eq_of_le (by omega) (by omega)]
          omega
        have hpop : (l.PopLast).1 =
            ⟨l.pairs.dropLast, start + (l.pairs.dropLast.map pairWidthN).sum,
              l.limit⟩ := by
          rw [hpop1, hwidth2]
        rw [hstep, hpop]
        refine ih _ start (fun o ho => hops o (by simp [ho])) ?_ rfl ?_
        · intro p hp
          refine hps p ?_
          rw [← hsplit]
          exact List.mem_append.mpr (Or.inl hp)
        · show start + (l.pairs.dropLast.map pairWidthN).sum
            + opsAppWidth ops < U64
          rw [hw] at hsm
          omega

/-- Claim C5 counterexample: appending a pair whose word is "ab" with a
one-space lead, not preceded by a newline, charges only the word's width 2;
the following `PopLast` subtracts the full width 3 and the `uint` width
wraps around to `2^64 - 1` instead of returning to the starting width 0:
the width invariant breaks and the width underflows. -/
theorem claim_C5_counterexample :
    (runOps (NewLineObject 0 5)
        [LineOp.app ⟨⟨"ab".data, .Word, 2⟩, ⟨" ".data, .Spaces, 1⟩, false, 0⟩,
         LineOp.pop]).width = U64 - 1 ∧
    ¬ (runOps (NewLineObject 0 5)
        [LineOp.app ⟨⟨"ab".data, .Word, 2⟩, ⟨" ".data, .Spaces, 1⟩, false, 0⟩,
         LineOp.pop]).width =
      0 + chargeSum (runOps (NewLineObject 0 5)
        [LineOp.app ⟨⟨"ab".data, .Word, 2⟩, ⟨" ".data, .Spaces, 1⟩, false, 0⟩,
         LineOp.pop]).pairs := by
  refine ⟨?_, ?_⟩ <;> decide

/-- Claim C5 (amended): for every operation sequence from
`NewLineObject start limit` in which every appended pair holds a real word
and is preceded by an explicit newline or carries no leading space (so the
append charge equals the full width `PopLast` subtracts), the width always
equals `start` plus the charged widths of the held pairs, and in particular
never drops below `start` and never underflows.  Without that restriction
the invariant is false (see the counterexample): `PopLast` subtracts the
full width even when the append charged word-only. -/
theorem claim_C5_width_invariant (start limit : Nat) (ops : List LineOp)
    (hops : ∀ op ∈ ops, OpOK op)
    (hsm : start + opsAppWidth ops < U64) :
    (runOps (NewLineObject start limit) ops).width =
      start + chargeSum (runOps (NewLineObject start limit) ops).pairs ∧
    start ≤ (runOps (NewLineObject start limit) ops).width := by
  obtain ⟨hw, hcond⟩ := runOps_aux ops (NewLineObject start limit) start hops
    (by intro p hp; simp [NewLineObject] at hp)
    (by simp [NewLineObject])
    (by show start + opsAppWidth ops < U64; exact hsm)
  rw [hw, chargeSum_eq_sum (fun p hp => (hcond p hp).2)]
  omega

theorem claim_C5_width_invariant_witness :
    ((∀ op ∈ [LineOp.app ⟨⟨"ab".data, .Word, 2⟩, nullUnit, false, 0⟩,
        LineOp.pop], OpOK op) ∧
      (0 : Nat) + opsAppWidth [LineOp.app ⟨⟨"ab".data, .Word, 2⟩,
        nullUnit, false, 0⟩, LineOp.pop] < U64) ∧
    ((runOps (NewLineObject 0 5) [LineOp.app ⟨⟨"ab".data, .Word, 2⟩,
        nullUnit, false, 0⟩, LineOp.pop]).width =
      0 + chargeSum (runOps (NewLineObject 0 5)
        [LineOp.app ⟨⟨"ab".data, .Word, 2⟩, nullUnit, false, 0⟩,
         LineOp.pop]).pairs ∧
     (0 : Nat) ≤ (runOps (NewLineObject 0 5)
        [LineOp.app ⟨⟨"ab".data, .Word, 2⟩, nullUnit, false, 0⟩,
         LineOp.pop]).width) :=
  ⟨⟨by
      intro op hop
      rcases List.mem_cons.mp hop with rfl | hop
      · exact ⟨⟨rfl, by decide, by decide, rfl⟩, Or.inr rfl⟩
      · simp at hop
        subst hop
        exact trivial,
    by decide⟩,
    claim_C5_width_invariant 0 5
      [LineOp.app ⟨⟨"ab".data, .Word, 2⟩, nullUnit, false, 0⟩, LineOp.pop]
      (by
        intro op hop
        rcases List.mem_cons.mp hop with rfl | hop
        · exact ⟨⟨rfl, by decide, by decide, rfl⟩, Or.inr rfl⟩
        · simp at hop
          subst hop
          exact trivial)
      (by decide)⟩

/-! ## The first-line lookahead writer (src/line_or_pass.go)

The writer buffers leading whitespace and the first line; once a newline is
seen after the first non-space rune the buffers are flushed and everything
passes straight through.  Writes through an error-free in-memory sink are
modelled as pure state transitions. -/

structure LineOrPassWriter where
  writer : List Char
  leadingSpaceBuffer : List Char
  lineBuffer : List Char
  lineBufferStart : Bool
  endOfFirstLineReached : Bool
  deriving DecidableEq, Repr

/-- `NewLineOrPassWriter`. -/
def NewLineOrPassWriter (writer : List Char) : LineOrPassWriter :=
  ⟨writer, [], [], false, false⟩

/-- `IsEndOfFirstLineReached`. -/
def LineOrPassWriter.IsEndOfFirstLineReached (l : LineOrPassWriter) : Bool :=
  l.endOfFirstLineReached

/-- `Drain`: flush the buffers; leading whitespace is written only when the
end of the first line was reached (`bytes.Buffer.WriteTo` empties what it
writes). -/
def LineOrPassWriter.Drain (l : LineOrPassWriter) : LineOrPassWriter :=
  if l.endOfFirstLineReached then
    { l with
      writer := l.writer ++ l.leadingSpaceBuffer ++ l.lineBuffer
      leadingSpaceBuffer := []
      lineBuffer := [] }
  else
    { l with
      writer := l.writer ++ l.lineBuffer
      lineBuffer := [] }

/-- The body of `Write`'s rune loop. -/
def LineOrPassWriter.writeRuneStep (l : LineOrPassWriter) (b : Char) :
    LineOrPassWriter :=
  if l.endOfFirstLineReached then { l with lineBuffer := l.lineBuffer ++ [b] }
  else
    let l1 := if ¬ l.lineBufferStart ∧ ¬ goIsSpace b
      then { l with lineBufferStart := true } else l
    if l1.lineBufferStart then
      { l1 with
        endOfFirstLineReached := if b = '\n' then true else l1.endOfFirstLineReached
        lineBuffer := l1.lineBuffer ++ [b] }
    else if goIsSpace b then
      { l1 with leadingSpaceBuffer := l1.leadingSpaceBuffer ++ [b] }
    else l1

/-- `Write`. -/
def LineOrPassWriter.Write (l : LineOrPassWriter) (bytes : List Char) :
    LineOrPassWriter :=
  if l.endOfFirstLineReached then { l with writer := l.writer ++ bytes }
  else
    let l2 := bytes.foldl LineOrPassWriter.writeRuneStep l
    if l2.endOfFirstLineReached then l2.Drain else l2

/-! ### Invariants of the lookahead writer -/

theorem takeWhile_append_of_drop_ne {α : Type} (p : α → Bool) (s t : List α)
    (h : s.dropWhile p ≠ []) : (s ++ t).takeWhile p = s.takeWhile p := by
  induction s with
  | nil => simp at h
  | cons a s ih =>
    simp only [List.cons_append, List.takeWhile_cons]
    by_cases hp : p a = true
    · rw [if_pos hp, if_pos hp]
      rw [List.dropWhile_cons, if_pos hp] at h
      rw [ih h]
    · rw [if_neg hp, if_neg hp]

theorem dropWhile_append_of_drop_ne {α : Type} (p : α → Bool) (s t : List α)
    (h : s.dropWhile p ≠ []) : (s ++ t).dropWhile p = s.dropWhile p ++ t := by
  induction s with
  | nil => simp at h
  | cons a s ih =>
    simp only [List.cons_append, List.dropWhile_cons]
    by_cases hp : p a = true
    · rw [if_pos hp, if_pos hp]
      rw [List.dropWhile_cons, if_pos hp] at h
      rw [ih h]
    · rw [if_neg hp, if_neg hp]
      simp

/-- Mid-chunk state of the lookahead writer after consuming `s` on top of a
sink holding `w0` (buffers not yet drained). -/
def LP_MID (L : LineOrPassWriter) (w0 s : List Char) : Prop :=
  L.writer = w0 ∧
  L.leadingSpaceBuffer = s.takeWhile goIsSpace ∧
  L.lineBuffer = s.dropWhile goIsSpace ∧
  (if L.endOfFirstLineReached
   then '\n' ∈ s.dropWhile goIsSpace
   else '\n' ∉ s.dropWhile goIsSpace ∧
     L.lineBufferStart = ! (s.dropWhile goIsSpace).isEmpty)

/-- Between-`Write` state of the lookahead writer after consuming `s`. -/
def LP_FIN (L : LineOrPassWriter) (w0 s : List Char) : Prop :=
  if L.endOfFirstLineReached
  then L.writer = w0 ++ s ∧ L.leadingSpaceBuffer = [] ∧ L.lineBuffer = [] ∧
    '\n' ∈ s.dropWhile goIsSpace
  else LP_MID L w0 s

theorem writeRuneStep_eof {L : LineOrPassWriter} {b : Char}
    (hE : L.endOfFirstLineReached = true) :
    L.writeRuneStep b = { L with lineBuffer := L.lineBuffer ++ [b] } := by
  unfold LineOrPassWriter.writeRuneStep
  rw [if_pos hE]

theorem writeRuneStep_open {L : LineOrPassWriter} {b : Char}
    (hE : L.endOfFirstLineReached = false) (hS : L.lineBufferStart = true) :
    L.writeRuneStep b = { L with
      endOfFirstLineReached := if b = '\n' then true else false
      lineBuffer := L.lineBuffer ++ [b] } := by
  unfold LineOrPassWriter.writeRuneStep
  rw [if_neg (by simp [hE])]
  simp only []
  rw [if_neg (show ¬ (¬ L.lineBufferStart = true ∧ ¬ goIsSpace b = true) by
    simp [hS])]
  rw [if_pos hS, hE]

theorem writeRuneStep_space {L : LineOrPassWriter} {b : Char}
    (hE : L.endOfFirstLineReached = false) (hS : L.lineBufferStart = false)
    (hb : goIsSpace b = true) :
    L.writeRuneStep b =
      { L with leadingSpaceBuffer := L.leadingSpaceBuffer ++ [b] } := by
  unfold LineOrPassWriter.writeRuneStep
  rw [if_neg (by simp [hE])]
  simp only []
  rw [if_neg (show ¬ (¬ L.lineBufferStart = true ∧ ¬ goIsSpace b = true) by
    simp [hb])]
  rw [if_neg (by simp [hS]), if_pos hb]

theorem writeRuneStep_first {L : LineOrPassWriter} {b : Char}
    (hE : L.endOfFirstLineReached = false) (hS : L.lineBufferStart = false)
    (hb : goIsSpace b = false) :
    L.writeRuneStep b = { L with
      lineBufferStart := true
      endOfFirstLineReached := if b = '\n' then true else false
      lineBuffer := L.lineBuffer ++ [b] } := by
  unfold LineOrPassWriter.writeRuneStep
  rw [if_neg (by simp [hE])]
  simp only []
  rw [if_pos (show (¬ L.lineBufferStart = true ∧ ¬ goIsSpace b = true) from
    ⟨by simp [hS], by simp [hb]⟩)]
  rw [if_pos (show ({ L with lineBufferStart := true } :
    LineOrPassWriter).lineBufferStart = true from rfl)]
  show ({ L with
    lineBufferStart := true
    endOfFirstLineReached := if b = '\n' then true else L.endOfFirstLineReached
    lineBuffer := L.lineBuffer ++ [b] } : LineOrPassWriter) = _
  rw [hE]

theorem LP_MID_step {L : LineOrPassWriter} {w0 s : List Char} (b : Char)
    (hm : LP_MID L w0 s) : LP_MID (L.writeRuneStep b) w0 (s ++ [b]) := by
  obtain ⟨hw, hlead, hline, hrest⟩ := hm
  by_cases hE : L.endOfFirstLineReached = true
  · rw [if_pos hE] at hrest
    have hne : s.dropWhile goIsSpace ≠ [] := by
      intro h0
      rw [h0] at hrest
      simp at hrest
    rw [writeRuneStep_eof hE]
    have htk := takeWhile_append_of_drop_ne goIsSpace s [b] hne
    have hdr := dropWhile_append_of_drop_ne goIsSpace s [b] hne
    refine ⟨hw, by rw [htk]; exact hlead, by rw [hdr, hline], ?_⟩
    rw [if_pos (show ({ L with lineBuffer := L.lineBuffer ++ [b] } :
      LineOrPassWriter).endOfFirstLineReached = true from hE)]
    rw [hdr]
    exact List.mem_append.mpr (Or.inl hrest)
  · have hEf : L.endOfFirstLineReached = false := by simpa using hE
    rw [if_neg hE] at hrest
    obtain ⟨hnl, hstart⟩ := hrest
    by_cases hS : L.lineBufferStart = true
    · -- the first line is open: the rune joins it
      have hne : s.dropWhile goIsSpace ≠ [] := by
        rw [hS] at hstart
        intro h0
        rw [h0] at hstart
        simp at hstart
      rw [writeRuneStep_open hEf hS]
      have htk := takeWhile_append_of_drop_ne goIsSpace s [b] hne
      have hdr := dropWhile_append_of_drop_ne goIsSpace s [b] hne
      refine ⟨hw, by rw [htk]; exact hlead, by rw [hdr, hline], ?_⟩
      by_cases hb : b = '\n'
      · rw [if_pos (show ({ L with
          endOfFirstLineReached := if b = '\n' then true else false
          lineBuffer := L.lineBuffer ++ [b] } :
            LineOrPassWriter).endOfFirstLineReached = true by
          show (if b = '\n' then true else false) = true
          rw [if_pos hb])]
        rw [hdr, hb]
        simp
      · rw [if_neg (show ¬ ({ L with
          endOfFirstLineReached := if b = '\n' then true else false
          lineBuffer := L.lineBuffer ++ [b] } :
            LineOrPassWriter).endOfFirstLineReached = true by
          show ¬ (if b = '\n' then true else false) = true
          rw [if_neg hb]
          simp)]
        refine ⟨?_, ?_⟩
        · rw [hdr]
          intro hmem
          rcases List.mem_append.mp hmem with h2 | h2
          · exact hnl h2
          · simp at h2
            exact hb h2.symm
        · rw [hdr]
          show L.lineBufferStart = _
          rw [hS]
          simp [hne]
    · -- still inside the leading whitespace
      have hSf : L.lineBufferStart = false := by simpa using hS
      have hdnil : s.dropWhile goIsSpace = [] := by
        rw [hSf] at hstart
        cases h0 : s.dropWhile goIsSpace with
        | nil => rfl
        | cons x xs =>
          rw [h0] at hstart
          simp at hstart
      have hall : ∀ c ∈ s, goIsSpace c = true := by
        intro c hc
        exact List.dropWhile_eq_nil_iff.mp hdnil c hc
      have htks : s.takeWhile goIsSpace = s := List.takeWhile_eq_self_iff.mpr hall
      by_cases hb : goIsSpace b = true
      · -- another space: it joins the leading buffer
        rw [writeRuneStep_space hEf hSf hb]
        have htk : (s ++ [b]).takeWhile goIsSpace = s ++ [b] := by
          rw [takeWhile_append_of_all _ _ _ hall]
          simp [hb]
        have hdr : (s ++ [b]).dropWhile goIsSpace = [] := by
          rw [dropWhile_append_of_all _ _ _ hall]
          simp [hb]
        refine ⟨hw, ?_, ?_, ?_⟩
        · show L.leadingSpaceBuffer ++ [b] = _
          rw [htk, hlead, htks]
        · show L.lineBuffer = _
          rw [hdr, hline, hdnil]
        · rw [if_neg (show ¬ ({ L with
            leadingSpaceBuffer := L.leadingSpaceBuffer ++ [b] } :
              LineOrPassWriter).endOfFirstLineReached = true by
            show ¬ L.endOfFirstLineReached = true
            simp [hEf])]
          rw [hdr]
          exact ⟨by simp, by show L.lineBufferStart = _; rw [hSf]; simp⟩
      · -- the first non-space rune: the line opens
        have hbf : goIsSpace b = false := by simpa using hb
        have hbn : b ≠ '\n' := by
          intro h0
          rw [h0] at hbf
          simp [goIsSpace] at hbf
        rw [writeRuneStep_first hEf hSf hbf]
        have htk : (s ++ [b]).takeWhile goIsSpace = s := by
          rw [takeWhile_append_of_all _ _ _ hall]
          simp [hbf]
        have hdr : (s ++ [b]).dropWhile goIsSpace = [b] := by
          rw [dropWhile_append_of_all _ _ _ hall]
          simp [hbf]
        refine ⟨hw, ?_, ?_, ?_⟩
        · show L.leadingSpaceBuffer = _
          rw [htk, hlead, htks]
        · show L.lineBuffer ++ [b] = _
          rw [hdr, hline, hdnil]
          rfl
        · rw [if_neg (show ¬ ({ L with
            lineBufferStart := true
            endOfFirstLineReached := if b = '\n' then true else false
            lineBuffer := L.lineBuffer ++ [b] } :
              LineOrPassWriter).endOfFirstLineReached = true by
            show ¬ (if b = '\n' then true else false) = true
            rw [if_neg hbn]
            simp)]
          rw [hdr]
          refine ⟨?_, by simp⟩
          intro hmem
          simp at hmem
          exact hbn hmem.symm

theorem LP_MID_fold {L : LineOrPassWriter} {w0 s : List Char}
    (cs : List Char) (hm : LP_MID L w0 s) :
    LP_MID (cs.foldl LineOrPassWriter.writeRuneStep L) w0 (s ++ cs) := by
  induction cs generalizing L s with
  | nil => simpa using hm
  | cons b rest ih =>
    have h1 := ih (LP_MID_step b hm)
    rw [List.append_assoc] at h1
    simpa using h1

theorem LP_Drain_run {L : LineOrPassWriter} {w0 s : List Char}
    (hE : L.endOfFirstLineReached = true) (hm : LP_MID L w0 s) :
    L.Drain = ⟨w0 ++ s, [], [], L.lineBufferStart, true⟩ := by
  obtain ⟨hw, hlead, hline, _⟩ := hm
  unfold LineOrPassWriter.Drain
  rw [if_pos hE, hw, hlead, hline, hE]
  have h2 : w0 ++ s.takeWhile goIsSpace ++ s.dropWhile goIsSpace = w0 ++ s := by
    rw [List.append_assoc, List.takeWhile_append_dropWhile]
  rw [h2]

theorem LP_FIN_write {L : LineOrPassWriter} {w0 s : List Char}
    (chunk : List Char) (hf : LP_FIN L w0 s) :
    LP_FIN (L.Write chunk) w0 (s ++ chunk) := by
  unfold LP_FIN at hf
  by_cases hE : L.endOfFirstLineReached = true
  · rw [if_pos hE] at hf
    obtain ⟨hw, hl1, hl2, hnl⟩ := hf
    have hne : s.dropWhile goIsSpace ≠ [] := by
      intro h0
      rw [h0] at hnl
      simp at hnl
    unfold LineOrPassWriter.Write
    rw [if_pos hE]
    unfold LP_FIN
    rw [if_pos (show ({ L with writer := L.writer ++ chunk } :
      LineOrPassWriter).endOfFirstLineReached = true from hE)]
    refine ⟨by show L.writer ++ chunk = _; rw [hw]; simp, hl1, hl2, ?_⟩
    rw [dropWhile_append_of_drop_ne _ _ _ hne]
    exact List.mem_append.mpr (Or.inl hnl)
  · rw [if_neg hE] at hf
    unfold LineOrPassWriter.Write
    rw [if_neg hE]
    simp only []
    have hmid := LP_MID_fold chunk hf
    by_cases hE2 : (chunk.foldl LineOrPassWriter.writeRuneStep
        L).endOfFirstLineReached = true
    · rw [if_pos hE2]
      rw [LP_Drain_run hE2 hmid]
      unfold LP_FIN
      rw [if_pos rfl]
      obtain ⟨_, _, _, hrest⟩ := hmid
      rw [if_pos hE2] at hrest
      exact ⟨rfl, rfl, rfl, hrest⟩
    · rw [if_neg hE2]
      unfold LP_FIN
      rw [if_neg hE2]
      exact hmid

theorem LP_FIN_chunks (chunks : List (List Char)) :
    LP_FIN (chunks.foldl LineOrPassWriter.Write (NewLineOrPassWriter []))
      [] chunks.flatten := by
  have hgen : ∀ (cs : List (List Char)) (L : LineOrPassWriter) (s : List Char),
      LP_FIN L [] s → LP_FIN (cs.foldl LineOrPassWriter.Write L) [] (s ++ cs.flatten) := by
    intro cs
    induction cs with
    | nil =>
      intro L s hf
      simpa using hf
    | cons c rest ih =>
      intro L s hf
      have h1 := ih (L.Write c) (s ++ c) (LP_FIN_write c hf)
      rw [List.append_assoc] at h1
      simpa using h1
  have hinit : LP_FIN (NewLineOrPassWriter []) [] [] := by
    unfold LP_FIN LP_MID NewLineOrPassWriter
    simp
  simpa using hgen chunks (NewLineOrPassWriter []) [] hinit

/-- Claim C10: for every sequence of `Write` calls followed by `Drain` on a
`LineOrPassWriter` over an empty sink: if no newline occurs after the first
non-whitespace character, the sink receives the written bytes with the
leading whitespace run discarded and the end of the first line is not
reached; if a newline does occur after the first non-whitespace character,
everything (leading whitespace included) is forwarded unchanged and
`IsEndOfFirstLineReached` returns true. -/
theorem claim_C10_line_or_pass (chunks : List (List Char)) :
    (('\n' ∉ chunks.flatten.dropWhile goIsSpace) →
      ((chunks.foldl LineOrPassWriter.Write (NewLineOrPassWriter [])).Drain).writer
          = chunks.flatten.dropWhile goIsSpace ∧
      ((chunks.foldl LineOrPassWriter.Write
          (NewLineOrPassWriter [])).Drain).IsEndOfFirstLineReached = false) ∧
    (('\n' ∈ chunks.flatten.dropWhile goIsSpace) →
      ((chunks.foldl LineOrPassWriter.Write (NewLineOrPassWriter [])).Drain).writer
          = chunks.flatten ∧
      ((chunks.foldl LineOrPassWriter.Write
          (NewLineOrPassWriter [])).Drain).IsEndOfFirstLineReached = true) := by
  have hf := LP_FIN_chunks chunks
  unfold LP_FIN at hf
  by_cases hE : (chunks.foldl LineOrPassWriter.Write
      (NewLineOrPassWriter [])).endOfFirstLineReached = true
  · rw [if_pos hE] at hf
    obtain ⟨hw, hlead, hline, hnl⟩ := hf
    constructor
    · intro hno
      exact absurd hnl hno
    · intro _
      unfold LineOrPassWriter.Drain
      rw [if_pos hE]
      refine ⟨?_, ?_⟩
      · show _ ++ _ ++ _ = _
        rw [hw, hlead, hline]
        simp
      · show (_ : LineOrPassWriter).endOfFirstLineReached = true
        exact hE
  · rw [if_neg hE] at hf
    obtain ⟨hw, hlead, hline, hrest⟩ := hf
    rw [if_neg hE] at hrest
    constructor
    · intro _
      unfold LineOrPassWriter.Drain
      rw [if_neg hE]
      refine ⟨?_, ?_⟩
      · show _ ++ _ = _
        rw [hw, hline]
        simp
      · show (_ : LineOrPassWriter).endOfFirstLineReached = false
        simpa using hE
    · intro hyes
      exact absurd hyes hrest.1

/-! ## The HTML tree printer (src/unnamed/part_004)

The output sink models a Go `io.Writer` that can fail: it fails exactly on
its `failAt`-th write call (all-or-nothing: a failing call appends nothing),
returns a fixed error value, and records that a failure happened.  Strings
are `List Char`; column arithmetic counts code points. -/

/-- An `error` value returned by a sink. -/
structure GoErr where
  val : Nat
  deriving DecidableEq, Repr

/-- A failable output sink. -/
structure Sink where
  written : List Char
  calls : Nat
  failAt : Option Nat
  errv : Nat
  failed : Bool
  deriving DecidableEq, Repr

/-- One write call: fails exactly when this is call number `failAt`. -/
def Sink.write (s : Sink) (chunk : List Char) : Sink × Option GoErr :=
  let c := s.calls + 1
  if s.failAt = some c then
    ({ s with calls := c, failed := true }, some ⟨s.errv⟩)
  else
    ({ s with calls := c, written := s.written ++ chunk }, none)

/-- Failable writers (`io.Writer`): the printer checks these errors. -/
class EWriter (σ : Type) where
  ewrite : σ → List Char → σ × Option GoErr

instance : EWriter Sink := ⟨Sink.write⟩

/-- The rune ranges of Unicode category P (punctuation): the table behind
`unicode.P`, transcribed from the Unicode 14.0.0 character database
(inclusive code-point ranges, in order). -/
def punctRanges : List (Nat × Nat) :=
  [(33, 35), (37, 42), (44, 47), (58, 59), (63, 64), (91, 93),
   (95, 95), (123, 123), (125, 125), (161, 161), (167, 167), (171, 171),
   (182, 183), (187, 187), (191, 191), (894, 894), (903, 903), (1370, 1375),
   (1417, 1418), (1470, 1470), (1472, 1472), (1475, 1475), (1478, 1478), (1523, 1524),
   (1545, 1546), (1548, 1549), (1563, 1563), (1565, 1567), (1642, 1645), (1748, 1748),
   (1792, 1805), (2039, 2041), (2096, 2110), (2142, 2142), (2404, 2405), (2416, 2416),
   (2557, 2557), (2678, 2678), (2800, 2800), (3191, 3191), (3204, 3204), (3572, 3572),
   (3663, 3663), (3674, 3675), (3844, 3858), (3860, 3860), (3898, 3901), (3973, 3973),
   (4048, 4052), (4057, 4058), (4170, 4175), (4347, 4347), (4960, 4968), (5120, 5120),
   (5742, 5742), (5787, 5788), (5867, 5869), (5941, 5942), (6100, 6102), (6104, 6106),
   (6144, 6154), (6468, 6469), (6686, 6687), (6816, 6822), (6824, 6829), (7002, 7008),
   (7037, 7038), (7164, 7167), (7227, 7231), (7294, 7295), (7360, 7367), (7379, 7379),
   (8208, 8231), (8240, 8259), (8261, 8273), (8275, 8286), (8317, 8318), (8333, 8334),
   (8968, 8971), (9001, 9002), (10088, 10101), (10181, 10182), (10214, 10223), (10627, 10648),
   (10712, 10715), (10748, 10749), (11513, 11516), (11518, 11519), (11632, 11632), (11776, 11822),
   (11824, 11855), (11858, 11869), (12289, 12291), (12296, 12305), (12308, 12319), (12336, 12336),
   (12349, 12349), (12448, 12448), (12539, 12539), (42238, 42239), (42509, 42511), (42611, 42611),
   (42622, 42622), (42738, 42743), (43124, 43127), (43214, 43215), (43256, 43258), (43260, 43260),
   (43310, 43311), (43359, 43359), (43457, 43469), (43486, 43487), (43612, 43615), (43742, 43743),
   (43760, 43761), (44011, 44011), (64830, 64831), (65040, 65049), (65072, 65106), (65108, 65121),
   (65123, 65123), (65128, 65128), (65130, 65131), (65281, 65283), (65285, 65290), (65292, 65295),
   (65306, 65307), (65311, 65312), (65339, 65341), (65343, 65343), (65371, 65371), (65373, 65373),
   (65375, 65381), (65792, 65794), (66463, 66463), (66512, 66512), (66927, 66927), (67671, 67671),
   (67871, 67871), (67903, 67903), (68176, 68184), (68223, 68223), (68336, 68342), (68409, 68415),
   (68505, 68508), (69293, 69293), (69461, 69465), (69510, 69513), (69703, 69709), (69819, 69820),
   (69822, 69825), (69952, 69955), (70004, 70005), (70085, 70088), (70093, 70093), (70107, 70107),
   (70109, 70111), (70200, 70205), (70313, 70313), (70731, 70735), (70746, 70747), (70749, 70749),
   (70854, 70854), (71105, 71127), (71233, 71235), (71264, 71276), (71353, 71353), (71484, 71486),
   (71739, 71739), (72004, 72006), (72162, 72162), (72255, 72262), (72346, 72348), (72350, 72354),
   (72769, 72773), (72816, 72817), (73463, 73464), (73727, 73727), (74864, 74868), (77809, 77810),
   (92782, 92783), (92917, 92917), (92983, 92987), (92996, 92996), (93847, 93850), (94178, 94178),
   (113823, 113823), (121479, 121483), (125278, 125279)]

/-- `unicode.IsPunct`: the rune lies in Unicode category P. -/
def goIsPunct (c : Char) : Bool :=
  punctRanges.any (fun r => r.1 ≤ c.toNat && c.toNat ≤ r.2)

/-- `getFirstRune` (`utf8.DecodeRuneInString`: the replacement rune on an
empty string). -/
def firstRune : List Char → Char
  | [] => Char.ofNat 65533
  | c :: _ => c

/-- `html.EscapeString` on one character. -/
def escapeChar (c : Char) : List Char :=
  if c = '&' then "&amp;".data
  else if c = '\x27' then "&#39;".data
  else if c = '<' then "&lt;".data
  else if c = '>' then "&gt;".data
  else if c = '"' then "&#34;".data
  else [c]

/-- `html.EscapeString`. -/
def escapeString (s : List Char) : List Char := (s.map escapeChar).flatten

/-- `strings.TrimSpace` (Unicode white space on both ends). -/
def trimSpaceU (s : List Char) : List Char :=
  ((s.dropWhile goIsSpace).reverse.dropWhile goIsSpace).reverse

/-- The `asciiSpace` table of src/unnamed/part_004. -/
def asciiSpaceB (c : Char) : Bool :=
  c = '\t' || c = '\n' || c = Char.ofNat 11 || c = Char.ofNat 12 ||
  c = '\r' || c = ' '

/-- `trimSpaceLeft` (the custom ASCII-table trim; multi-byte runes are never
trimmed, modelled at the code-point level). -/
def trimSpaceLeft (s : List Char) : List Char := s.dropWhile asciiSpaceB

/-- `trimSpaceRight`. -/
def trimSpaceRight (s : List Char) : List Char :=
  (s.reverse.dropWhile asciiSpaceB).reverse

/-- The tag atoms the printer distinguishes (`atom.X`); every other tag is
`Other`. -/
inductive GoAtom where
  | Area | Base | Br | Col | Command | Embed | Hr | Img | Input | Keygen
  | Link | Meta | Param | Source | Track | Wbr
  | Style | Script | P | Caption | Figcaption | Pre | Html | Other
  deriving DecidableEq, Repr

/-- An HTML node (`*html.Node`).  A DocumentNode occurs only as the root of
a parse and simply prints its children (`printNode`'s DocumentNode case),
so the model feeds the root's children to `Nodes` directly. -/
inductive HNode where
  | text (data : List Char)
  | elem (tag : GoAtom) (data : List Char)
      (attrs : List (List Char × List Char)) (children : List HNode)
  | comment (data : List Char)
  | doctype (data : List Char)

/-- The node's `Data` field. -/
def nodeData : HNode → List Char
  | .text d => d
  | .elem _ d _ _ => d
  | .comment d => d
  | .doctype d => d

/-- What a node's children see of their parent (`n.Parent`): its tag atom
and whether it has a single text child. -/
structure PInfo where
  patom : GoAtom
  psingle : Bool
  deriving DecidableEq, Repr

/-- A node's surroundings (`n.Parent`, `n.PrevSibling`, `n.NextSibling`). -/
structure Ctx where
  parent : Option PInfo
  hasPrev : Bool
  next : Option HNode

/-- `isEmptyElement` on an atom. -/
def isEmptyAtom : GoAtom → Bool
  | .Area | .Base | .Br | .Col | .Command | .Embed | .Hr | .Img | .Input
  | .Keygen | .Link | .Meta | .Param | .Source | .Track | .Wbr => true
  | _ => false

/-- `isParagraphLike` on an atom. -/
def isParagraphAtom : GoAtom → Bool
  | .P | .Caption | .Figcaption => true
  | _ => false

/-- `isSpecialContentElement` on an atom. -/
def isSpecialAtom : GoAtom → Bool
  | .Style | .Script => true
  | _ => false

/-- `hasSingleTextChild`. -/
def hasSingleTextChild : List HNode → Bool
  | [.text _] => true
  | _ => false

/-- `hasSrcAttribute`. -/
def hasSrcAttribute (attrs : List (List Char × List Char)) : Bool :=
  attrs.any (fun a => a.1 = "src".data)

/-- `isChildOfSpecialContentElement`. -/
def isChildOfSpecialContentElement (ctx : Ctx) : Bool :=
  match ctx.parent with
  | some pi => isSpecialAtom pi.patom
  | none => false

/-- `isSingleTextChild`. -/
def isSingleTextChild (ctx : Ctx) : Bool :=
  match ctx.parent with
  | some pi => pi.psingle
  | none => false

/-- `isChildOfParagraph`. -/
def isChildOfParagraph (ctx : Ctx) : Bool :=
  match ctx.parent with
  | some pi => isParagraphAtom pi.patom
  | none => false

/-- `noPrevSibling`. -/
def noPrevSibling (ctx : Ctx) : Bool := ! ctx.hasPrev

/-- `noNextSibling`. -/
def noNextSibling (ctx : Ctx) : Bool := ctx.next.isNone

/-- `nextSiblingIsElementNode` (evaluated only under a present sibling). -/
def nextSiblingIsElementNode (ctx : Ctx) : Bool :=
  match ctx.next with
  | some (.elem _ _ _ _) => true
  | _ => false

/-- `nextSiblingIsNotPunctuation` (evaluated only under a present sibling). -/
def nextSiblingIsNotPunctuation (ctx : Ctx) : Bool :=
  match ctx.next with
  | some m => ! goIsPunct (firstRune (nodeData m))
  | none => true

/-- The guard of the default element case's trailing newline:
`anyIs(noNextSibling, nextSiblingIsNotPunctuation, nextSiblingIsElementNode)`. -/
def trailingNewLineCond (ctx : Ctx) : Bool :=
  noNextSibling ctx || nextSiblingIsNotPunctuation ctx ||
    nextSiblingIsElementNode ctx

/-- `indentString` and `indentAtLevel`. -/
def indentAtLevel (level : Nat) : List Char :=
  (List.replicate level "  ".data).flatten

/-- `paragraphLength`. -/
def paragraphLength : Nat := 100

/-! ### Leaf printers (generic in the failable writer) -/

variable {σ : Type} [EWriter σ]

/-- Turn one write's result into a printer result carrying `colAfter`. -/
def wres (p : σ × Option GoErr) (colAfter : Nat) : σ × Except GoErr Nat :=
  match p with
  | (s, none) => (s, .ok colAfter)
  | (s, some e) => (s, .error e)

/-- `printIndent`: writes the indentation, reports column 0. -/
def printIndent (s : σ) (level : Nat) : σ × Except GoErr Nat :=
  wres (EWriter.ewrite s (indentAtLevel level)) 0

/-- `printNewLine`. -/
def printNewLine (s : σ) : σ × Except GoErr Nat :=
  wres (EWriter.ewrite s ['\n']) 0

/-- `printData`. -/
def printData (s : σ) (d : List Char) (col : Nat) : σ × Except GoErr Nat :=
  wres (EWriter.ewrite s d) (col + d.length)

/-- `printCommentNode`. -/
def printCommentNode (s : σ) (d : List Char) (level : Nat) :
    σ × Except GoErr Nat :=
  match printIndent s level with
  | (s1, .error e) => (s1, .error e)
  | (s1, .ok _) =>
    wres (EWriter.ewrite s1 ("<!--".data ++ d ++ "-->".data ++ ['\n']))
      (7 + d.length)

/-- `printDoctypeNode` (`html.Render` of a DoctypeNode then a newline). -/
def printDoctypeNode (s : σ) (d : List Char) : σ × Except GoErr Nat :=
  match wres (EWriter.ewrite s ("<!DOCTYPE ".data ++ d ++ ['>'])) 0 with
  | (s1, .error e) => (s1, .error e)
  | (s1, .ok _) => printNewLine s1

/-- The attribute loop of `printOpeningTag`. -/
def openingTagAttrs (s : σ) (attrs : List (List Char × List Char))
    (colAfter : Nat) : σ × Except GoErr Nat :=
  match attrs with
  | [] => (s, .ok colAfter)
  | a :: rest =>
    let val := escapeString a.2
    match wres (EWriter.ewrite s
        (" ".data ++ a.1 ++ "=".data ++ ['"'] ++ val ++ ['"']))
        (colAfter + a.1.length + val.length) with
    | (s1, .error e) => (s1, .error e)
    | (s1, .ok c1) => openingTagAttrs s1 rest c1

/-- `printOpeningTag`. -/
def printOpeningTag (s : σ) (data : List Char)
    (attrs : List (List Char × List Char)) (col : Nat) : σ × Except GoErr Nat :=
  match wres (EWriter.ewrite s ("<".data ++ data)) (col + data.length + 2) with
  | (s1, .error e) => (s1, .error e)
  | (s1, .ok c1) =>
    match openingTagAttrs s1 attrs c1 with
    | (s2, .error e) => (s2, .error e)
    | (s2, .ok c2) => wres (EWriter.ewrite s2 ['>']) c2

/-- `printClosingTag`. -/
def printClosingTag (s : σ) (data : List Char) (col : Nat) :
    σ × Except GoErr Nat :=
  wres (EWriter.ewrite s ("</".data ++ data ++ ">".data)) (col + 2 + data.length)

/-- The raw-text line loop of `printTextNode` (newline, indent, line each;
one closing newline after the run). -/
def specialLoop (s : σ) (lines : List (List Char)) (level col : Nat) :
    σ × Except GoErr Nat :=
  match lines with
  | [] => printNewLine s |> fun (s1, r1) =>
      (s1, match r1 with | .ok _ => .ok col | .error e => .error e)
  | t :: rest =>
    match printNewLine s with
    | (s1, .error e) => (s1, .error e)
    | (s1, .ok _) =>
      match printIndent s1 level with
      | (s2, .error e) => (s2, .error e)
      | (s2, .ok c2) =>
        match wres (EWriter.ewrite s2 t) c2 with
        | (s3, .error e) => (s3, .error e)
        | (s3, .ok c3) => specialLoop s3 rest level c3

/-- `printTextNode`. -/
def printTextNode (s : σ) (d : List Char) (ctx : Ctx) (level col : Nat) :
    σ × Except GoErr Nat :=
  let t := trimSpaceU d
  if t = [] then (s, .ok col)
  else
    let cond := (! isChildOfSpecialContentElement ctx) &&
                (! isSingleTextChild ctx) &&
                (noPrevSibling ctx || ! goIsPunct (firstRune t))
    match (if cond then printIndent s level else (s, .ok col)) with
    | (s1, .error e) => (s1, .error e)
    | (s1, .ok c1) =>
      if isChildOfSpecialContentElement ctx then
        specialLoop s1 (splitLines t) level c1
      else
        match wres (EWriter.ewrite s1 t) c1 with
        | (s2, .error e) => (s2, .error e)
        | (s2, .ok c2) =>
          if ! isSingleTextChild ctx then printNewLine s2
          else (s2, .ok c2)

/-! ### The lookahead writer over a failable sink (paragraph rendering) -/

structure LineOrPassWriterS where
  sink : Sink
  leadingSpaceBuffer : List Char
  lineBuffer : List Char
  lineBufferStart : Bool
  endOfFirstLineReached : Bool
  deriving DecidableEq, Repr

/-- `NewLineOrPassWriter` over a failable sink. -/
def NewLineOrPassWriterS (s : Sink) : LineOrPassWriterS := ⟨s, [], [], false, false⟩

/-- `IsEndOfFirstLineReached`. -/
def LineOrPassWriterS.IsEndOfFirstLineReached (l : LineOrPassWriterS) : Bool :=
  l.endOfFirstLineReached

/-- `Drain` over the failable sink: a failing buffer write keeps the buffer
(the sink's all-or-nothing failure writes no bytes) and stops. -/
def LineOrPassWriterS.DrainS (l : LineOrPassWriterS) :
    LineOrPassWriterS × Option GoErr :=
  if l.endOfFirstLineReached then
    match l.sink.write l.leadingSpaceBuffer with
    | (sk, some e) => ({ l with sink := sk }, some e)
    | (sk, none) =>
      match sk.write l.lineBuffer with
      | (sk2, some e) =>
        ({ l with sink := sk2, leadingSpaceBuffer := [] }, some e)
      | (sk2, none) =>
        ({ l with sink := sk2, leadingSpaceBuffer := [], lineBuffer := [] }, none)
  else
    match l.sink.write l.lineBuffer with
    | (sk, some e) => ({ l with sink := sk }, some e)
    | (sk, none) => ({ l with sink := sk, lineBuffer := [] }, none)

/-- The rune-loop body of `Write` (buffers only). -/
def LineOrPassWriterS.runeStep (l : LineOrPassWriterS) (b : Char) :
    LineOrPassWriterS :=
  if l.endOfFirstLineReached then { l with lineBuffer := l.lineBuffer ++ [b] }
  else
    let l1 := if ¬ l.lineBufferStart ∧ ¬ goIsSpace b
      then { l with lineBufferStart := true } else l
    if l1.lineBufferStart then
      { l1 with
        endOfFirstLineReached := if b = '\n' then true else l1.endOfFirstLineReached
        lineBuffer := l1.lineBuffer ++ [b] }
    else if goIsSpace b then
      { l1 with leadingSpaceBuffer := l1.leadingSpaceBuffer ++ [b] }
    else l1

/-- `Write` over the failable sink. -/
def LineOrPassWriterS.WriteS (l : LineOrPassWriterS) (bytes : List Char) :
    LineOrPassWriterS × Option GoErr :=
  if l.endOfFirstLineReached then
    match l.sink.write bytes with
    | (sk, e) => ({ l with sink := sk }, e)
  else
    let l2 := bytes.foldl LineOrPassWriterS.runeStep l
    if l2.endOfFirstLineReached then l2.DrainS else (l2, none)

instance : EWriter LineOrPassWriterS := ⟨LineOrPassWriterS.WriteS⟩

/-- The word wrapper writes through the lookahead writer and discards the
write results, as the Go wrapper does with any `io.Writer`. -/
instance : GoWriter LineOrPassWriterS := ⟨fun l chunk => (l.WriteS chunk).1⟩

/-! ### The paragraph (block-like) rendering path -/

/-- `passOpeningTag`: the opening tag fed through the word wrapper. -/
def passOpeningTag (wr : WordWrapper LineOrPassWriterS) (data : List Char)
    (attrs : List (List Char × List Char)) : WordWrapper LineOrPassWriterS :=
  let wr1 := wr.AddWord ("<".data ++ data)
  let wr2 := attrs.foldl
    (fun w a => (w.AddSpaces " ".data).AddWord
      (a.1 ++ "=".data ++ ['"'] ++ escapeString a.2 ++ ['"'])) wr1
  (wr2.AddSpaces []).AddWord ">".data

/-- `passClosingTag`. -/
def passClosingTag (wr : WordWrapper LineOrPassWriterS) (data : List Char) :
    WordWrapper LineOrPassWriterS :=
  wr.AddWord ("</".data ++ data ++ ">".data)

/-- Modelled from the spec: `AddGreedyNewLine` is called for a break element
inside a paragraph (src/unnamed/part_004 line 640) but the method itself is
not among the repository's files; §4.3 of the spec describes the wrapper's
explicit line-break handling (flush any pending pair, flush the current
line, then emit one literal newline), which is exactly the wrapper's
NewLine-unit step, so the method is modelled as feeding one explicit
NewLine unit. -/
def WordWrapper.AddGreedyNewLine {ω : Type} [GoWriter ω] (ww : WordWrapper ω) :
    WordWrapper ω :=
  ww.AddUnit newlineUnit

/-- `printParagraphTextNode`: trim per position, feed the lexed units. -/
def printParagraphTextNode (wr : WordWrapper LineOrPassWriterS)
    (d : List Char) (ctx : Ctx) :
    WordWrapper LineOrPassWriterS × Except GoErr Nat :=
  let endChild := noNextSibling ctx
  let childOfP := isChildOfParagraph ctx
  let s1 := if childOfP then
      (if noPrevSibling ctx then trimSpaceLeft d else d) else d
  let s2 := if childOfP then (if endChild then trimSpaceRight s1 else s1) else s1
  if s2 = [] then (wr, .ok 0)
  else ((FeedWordsForWrapping s2).foldl WordWrapper.AddUnit wr, .ok 0)

mutual

/-- `printParagraphNode`. -/
def printParagraphNode (wr : WordWrapper LineOrPassWriterS) (n : HNode)
    (ctx : Ctx) (level : Nat) :
    WordWrapper LineOrPassWriterS × Except GoErr Nat :=
  match n with
  | .text d => printParagraphTextNode wr d ctx
  | .elem a data attrs children =>
    printParagraphElementNode wr a data attrs children ctx level
  | .comment d =>
    match printCommentNode wr.Writer d level with
    | (lw, .error e) => ({ wr with Writer := lw }, .error e)
    | (lw, .ok c) => ({ wr with Writer := lw }, .ok c)
  | .doctype d =>
    match printDoctypeNode wr.Writer d with
    | (lw, .error e) => ({ wr with Writer := lw }, .error e)
    | (lw, .ok c) => ({ wr with Writer := lw }, .ok c)
termination_by (sizeOf n, 2)

/-- `printParagraphElementNode`. -/
def printParagraphElementNode (wr : WordWrapper LineOrPassWriterS)
    (a : GoAtom) (data : List Char) (attrs : List (List Char × List Char))
    (children : List HNode) (ctx : Ctx) (level : Nat) :
    WordWrapper LineOrPassWriterS × Except GoErr Nat :=
  if a = .Br then
    let wr1 := (passOpeningTag wr data attrs).AddGreedyNewLine
    (wr1, .ok wr1.Column)
  else if isEmptyAtom a then
    let wr1 := passOpeningTag wr data attrs
    (wr1, .ok wr1.Column)
  else
    let wr1 := passOpeningTag wr data attrs
    match paraSeq wr1 ⟨a, hasSingleTextChild children⟩ false children level
        wr1.Column with
    | (wr2, .error e) => (wr2, .error e)
    | (wr2, .ok _) =>
      let wr3 := passClosingTag wr2 data
      (wr3, .ok wr3.Column)
termination_by (sizeOf children, 1)

/-- The child loop shared by `printParagraphChildren` and the default case
of `printParagraphElementNode`. -/
def paraSeq (wr : WordWrapper LineOrPassWriterS) (pinfo : PInfo)
    (hasPrev : Bool) (children : List HNode) (level col : Nat) :
    WordWrapper LineOrPassWriterS × Except GoErr Nat :=
  match children with
  | [] => (wr, .ok col)
  | c :: rest =>
    match printParagraphNode wr c ⟨some pinfo, hasPrev, rest.head?⟩ level with
    | (wr1, .error e) => (wr1, .error e)
    | (wr1, .ok c1) => paraSeq wr1 pinfo true rest level c1
termination_by (sizeOf children, 0)

end

/-- `printParagraphChildren`. -/
def printParagraphChildren (lw : LineOrPassWriterS) (pinfo : PInfo)
    (children : List HNode) (level col : Nat) :
    LineOrPassWriterS × Except GoErr Nat :=
  let wr := NewWordWrapper lw ⟨paragraphLength, col, indentAtLevel level⟩
  match paraSeq wr pinfo false children level col with
  | (wr1, .error e) => (wr1.Writer, .error e)
  | (wr1, .ok c1) => ((wr1.FinalFlush).Writer, .ok c1)

/-- `paragraphElementContents`: render the children through a lookahead
writer and a word wrapper; the `Drain` error is discarded; when the first
line ended inside the content, a newline and the closing indentation are
written. -/
def paragraphElementContents (s : Sink) (pinfo : PInfo)
    (children : List HNode) (level col : Nat) : Sink × Except GoErr Nat :=
  let lw := NewLineOrPassWriterS s
  match printNewLine lw with
  | (lw1, .error e) => (lw1.sink, .error e)
  | (lw1, .ok c1) =>
    match printParagraphChildren lw1 pinfo children (level + 1) c1 with
    | (lw2, .error e) => (lw2.sink, .error e)
    | (lw2, .ok c2) =>
      let lw3 := (lw2.DrainS).1
      if lw3.IsEndOfFirstLineReached then
        match printNewLine lw3.sink with
        | (s4, .error e) => (s4, .error e)
        | (s4, .ok _) => printIndent s4 level
      else (lw3.sink, .ok c2)

/-! ### The main tree printer -/

mutual

/-- `printNode`. -/
def printNode (s : Sink) (n : HNode) (ctx : Ctx) (level col : Nat) :
    Sink × Except GoErr Nat :=
  match n with
  | .text d => printTextNode s d ctx level col
  | .elem a data attrs children =>
    printElementNode s a data attrs children ctx level col
  | .comment d => printCommentNode s d level
  | .doctype d => printDoctypeNode s d
termination_by (sizeOf n, 3)

/-- `printElementNode`. -/
def printElementNode (s : Sink) (a : GoAtom) (data : List Char)
    (attrs : List (List Char × List Char)) (children : List HNode)
    (ctx : Ctx) (level col : Nat) : Sink × Except GoErr Nat :=
  if a = .Pre then
    match printIndent s level with
    | (s1, .error e) => (s1, .error e)
    | (s1, .ok c1) =>
      match printOpeningTag s1 data attrs c1 with
      | (s2, .error e) => (s2, .error e)
      | (s2, .ok c2) =>
        match preSeq s2 children level c2 with
        | (s3, .error e) => (s3, .error e)
        | (s3, .ok c3) =>
          match printClosingTag s3 data c3 with
          | (s4, .error e) => (s4, .error e)
          | (s4, .ok _) => printNewLine s4
  else if isParagraphAtom a then
    -- printParagraphLikeNode
    match printIndent s level with
    | (s1, .error e) => (s1, .error e)
    | (s1, .ok c1) =>
      match printOpeningTag s1 data attrs c1 with
      | (s2, .error e) => (s2, .error e)
      | (s2, .ok c2) =>
        match paragraphElementContents s2 ⟨a, hasSingleTextChild children⟩
            children level c2 with
        | (s3, .error e) => (s3, .error e)
        | (s3, .ok c3) =>
          match printClosingTag s3 data c3 with
          | (s4, .error e) => (s4, .error e)
          | (s4, .ok _) => printNewLine s4
  else if isEmptyAtom a then
    match printIndent s level with
    | (s1, .error e) => (s1, .error e)
    | (s1, .ok c1) =>
      match printOpeningTag s1 data attrs c1 with
      | (s2, .error e) => (s2, .error e)
      | (s2, .ok _) => printNewLine s2
  else if a = .Script && hasSrcAttribute attrs then
    match printIndent s level with
    | (s1, .error e) => (s1, .error e)
    | (s1, .ok c1) =>
      match printOpeningTag s1 data attrs c1 with
      | (s2, .error e) => (s2, .error e)
      | (s2, .ok c2) =>
        match printClosingTag s2 data c2 with
        | (s3, .error e) => (s3, .error e)
        | (s3, .ok _) => printNewLine s3
  else
    match printElementDefaultPrefix s a data attrs children level col with
    | (s5, .error e) => (s5, .error e)
    | (s5, .ok c5) =>
      if trailingNewLineCond ctx then printNewLine s5 else (s5, .ok c5)
termination_by (sizeOf children, 2)

/-- The default element case up to and including the closing tag: indent,
opening tag, a newline unless the element has a single text child, the
children (extra level except under `html`), the closing indentation for
special-content or multi-child elements, the closing tag. -/
def printElementDefaultPrefix (s : Sink) (a : GoAtom) (data : List Char)
    (attrs : List (List Char × List Char)) (children : List HNode)
    (level col : Nat) : Sink × Except GoErr Nat :=
  match printIndent s level with
  | (s1, .error e) => (s1, .error e)
  | (s1, .ok c1) =>
    match printOpeningTag s1 data attrs c1 with
    | (s2, .error e) => (s2, .error e)
    | (s2, .ok c2) =>
      match (if ¬ hasSingleTextChild children then printNewLine s2
             else (s2, .ok c2)) with
      | (s3, .error e) => (s3, .error e)
      | (s3, .ok c3) =>
        match (if a = .Html then
            printSeq s3 ⟨a, hasSingleTextChild children⟩ false children level c3
          else
            printSeq s3 ⟨a, hasSingleTextChild children⟩ false children
              (level + 1) c3) with
        | (s4, .error e) => (s4, .error e)
        | (s4, .ok c4) =>
          match (if isSpecialAtom a || ¬ hasSingleTextChild children then
              printIndent s4 level
            else (s4, .ok c4)) with
          | (s5, .error e) => (s5, .error e)
          | (s5, .ok c5) => printClosingTag s5 data c5
termination_by (sizeOf children, 1)

/-- `printChildren`'s loop. -/
def printSeq (s : Sink) (pinfo : PInfo) (hasPrev : Bool)
    (children : List HNode) (level col : Nat) : Sink × Except GoErr Nat :=
  match children with
  | [] => (s, .ok col)
  | c :: rest =>
    match printNode s c ⟨some pinfo, hasPrev, rest.head?⟩ level col with
    | (s1, .error e) => (s1, .error e)
    | (s1, .ok c1) => printSeq s1 pinfo true rest level c1
termination_by (sizeOf children, 0)

/-- `printPreChild`. -/
def printPreChild (s : Sink) (n : HNode) (level col : Nat) :
    Sink × Except GoErr Nat :=
  match n with
  | .text d => printData s d col
  | .elem a data attrs children =>
    match printOpeningTag s data attrs col with
    | (s1, .error e) => (s1, .error e)
    | (s1, .ok c1) =>
      match (if ¬ isEmptyAtom a then preSeq s1 children level c1
             else (s1, .ok c1)) with
      | (s2, .error e) => (s2, .error e)
      | (s2, .ok c2) =>
        if ¬ isEmptyAtom a then printClosingTag s2 data c2 else (s2, .ok c2)
  | .comment d => printCommentNode s d level
  | .doctype _ => (s, .ok col)
termination_by (sizeOf n, 3)

/-- The verbatim child loop (`printDelegateChildren(printPreChild)`). -/
def preSeq (s : Sink) (children : List HNode) (level col : Nat) :
    Sink × Except GoErr Nat :=
  match children with
  | [] => (s, .ok col)
  | c :: rest =>
    match printPreChild s c level col with
    | (s1, .error e) => (s1, .error e)
    | (s1, .ok c1) => preSeq s1 rest level c1
termination_by (sizeOf children, 0)

end

/-- `Nodes`'s loop over the root nodes. -/
def rootSeq (s : Sink) (hasPrev : Bool) (nodes : List HNode) (col : Nat) :
    Sink × Except GoErr Nat :=
  match nodes with
  | [] => (s, .ok col)
  | n :: rest =>
    match printNode s n ⟨none, hasPrev, rest.head?⟩ 0 col with
    | (s1, .error e) => (s1, .error e)
    | (s1, .ok c1) => rootSeq s1 true rest c1

/-- `Nodes`. -/
def Nodes (s : Sink) (nodes : List HNode) : Sink × Except GoErr Nat :=
  rootSeq s false nodes 0

mutual

/-- No paragraph-like element occurs in the tree (the paragraph path feeds
a lookahead writer whose drain error the code discards). -/
def noParagraphN (n : HNode) : Bool :=
  match n with
  | .text _ => true
  | .elem a _ _ children => !isParagraphAtom a && noParagraphL children
  | .comment _ => true
  | .doctype _ => true
termination_by sizeOf n

/-- `noParagraphN` over a child list. -/
def noParagraphL (children : List HNode) : Bool :=
  match children with
  | [] => true
  | c :: rest => noParagraphN c && noParagraphL rest
termination_by sizeOf children

end

/-! ### Propagation of write failures outside the paragraph path -/

/-- A sink that has not failed yet (its failing call, if any, lies ahead). -/
def SinkOK (s : Sink) : Prop :=
  s.failed = false ∧ ∀ k, s.failAt = some k → s.calls < k

/-- What a printer does to a sink that has not failed yet: an `ok` result
leaves the sink unfailed; an `error` result carries the sink's own error
value and the sink stopped exactly at its failing call (no further write
was attempted). -/
def POst (s : Sink) (out : Sink × Except GoErr Nat) : Prop :=
  (∀ s' c, out = (s', .ok c) →
    SinkOK s' ∧ s'.errv = s.errv ∧ s'.failAt = s.failAt) ∧
  (∀ s' e, out = (s', .error e) →
    e.val = s.errv ∧ s'.failed = true ∧ s'.errv = s.errv ∧
    s'.failAt = s.failAt ∧ ∀ k, s.failAt = some k → s'.calls = k)

theorem POst_of_ok {s s1 : Sink} {c : Nat} (h1 : SinkOK s1)
    (h2 : s1.errv = s.errv) (h3 : s1.failAt = s.failAt) :
    POst s (s1, .ok c) := by
  constructor
  · intro s' c' hx
    cases hx
    exact ⟨h1, h2, h3⟩
  · intro s' e hx
    cases hx

theorem POst_of_error {s s1 : Sink} {e : GoErr} (h1 : e.val = s.errv)
    (h2 : s1.failed = true) (h3 : s1.errv = s.errv) (h4 : s1.failAt = s.failAt)
    (h5 : ∀ k, s.failAt = some k → s1.calls = k) :
    POst s (s1, .error e) := by
  constructor
  · intro s' c' hx
    cases hx
  · intro s' e' hx
    cases hx
    exact ⟨h1, h2, h3, h4, h5⟩

theorem POst_chain {s s1 : Sink} (h2 : s1.errv = s.errv)
    (h3 : s1.failAt = s.failAt) {out : Sink × Except GoErr Nat}
    (h : POst s1 out) : POst s out := by
  constructor
  · intro s' c hx
    obtain ⟨ha, hb, hc⟩ := h.1 s' c hx
    exact ⟨ha, hb.trans h2, hc.trans h3⟩
  · intro s' e hx
    obtain ⟨ha, hb, hc, hd, he⟩ := h.2 s' e hx
    refine ⟨ha.trans h2, hb, hc.trans h2, hd.trans h3, ?_⟩
    intro k hk
    exact he k (by rw [h3]; exact hk)

theorem wres_POst {s : Sink} (chunk : List Char) (c : Nat) (h : SinkOK s) :
    POst s (wres (EWriter.ewrite s chunk) c) := by
  show POst s (wres (Sink.write s chunk) c)
  unfold Sink.write wres
  simp only []
  by_cases hf : s.failAt = some (s.calls + 1)
  · rw [if_pos hf]
    refine POst_of_error rfl rfl rfl rfl ?_
    intro k hk
    show s.calls + 1 = k
    rw [hf] at hk
    cases hk
    rfl
  · rw [if_neg hf]
    refine POst_of_ok ⟨h.1, ?_⟩ rfl rfl
    intro k hk
    show s.calls + 1 < k
    have h1 := h.2 k hk
    have h2 : s.calls + 1 ≠ k := by
      intro h0
      rw [← h0] at hk
      exact hf hk
    omega

theorem ewrite_sink (s : Sink) (chunk : List Char) :
    EWriter.ewrite s chunk = Sink.write s chunk := rfl

theorem printIndent_POst (s : Sink) (level : Nat) (h : SinkOK s) :
    POst s (printIndent s level) :=
  wres_POst _ _ h

theorem printNewLine_POst (s : Sink) (h : SinkOK s) :
    POst s (printNewLine s) :=
  wres_POst _ _ h

theorem printData_POst (s : Sink) (d : List Char) (col : Nat) (h : SinkOK s) :
    POst s (printData s d col) :=
  wres_POst _ _ h

theorem printCommentNode_POst (s : Sink) (d : List Char) (level : Nat)
    (h : SinkOK s) : POst s (printCommentNode s d level) := by
  unfold printCommentNode
  rcases heq1 : printIndent s level with ⟨s1, r1⟩
  have hP1 := printIndent_POst s level h
  rw [heq1] at hP1
  cases r1 with
  | error e => exact hP1
  | ok c1 =>
    obtain ⟨hOK1, hE1, hF1⟩ := hP1.1 s1 c1 rfl
    exact POst_chain hE1 hF1 (wres_POst _ _ hOK1)

theorem printDoctypeNode_POst (s : Sink) (d : List Char) (h : SinkOK s) :
    POst s (printDoctypeNode s d) := by
  unfold printDoctypeNode
  rcases heq1 : wres (EWriter.ewrite s ("<!DOCTYPE ".data ++ d ++ ['>'])) 0
    with ⟨s1, r1⟩
  have hP1 : POst s (s1, r1) := by
    rw [← heq1]
    exact wres_POst _ _ h
  cases r1 with
  | error e => exact hP1
  | ok c1 =>
    obtain ⟨hOK1, hE1, hF1⟩ := hP1.1 s1 c1 rfl
    exact POst_chain hE1 hF1 (printNewLine_POst s1 hOK1)

theorem openingTagAttrs_POst (attrs : List (List Char × List Char)) :
    ∀ (s : Sink) (colAfter : Nat), SinkOK s →
    POst s (openingTagAttrs s attrs colAfter) := by
  induction attrs with
  | nil =>
    intro s colAfter h
    exact POst_of_ok h rfl rfl
  | cons a rest ih =>
    intro s colAfter h
    unfold openingTagAttrs
    simp only []
    split
    · next s1 e heq =>
      have hP1 := wres_POst
        (" ".data ++ a.1 ++ "=".data ++ ['"'] ++ escapeString a.2 ++ ['"'])
        (colAfter + a.1.length + (escapeString a.2).length) h
      rw [heq] at hP1
      exact hP1
    · next s1 c1 heq =>
      have hP1 := wres_POst
        (" ".data ++ a.1 ++ "=".data ++ ['"'] ++ escapeString a.2 ++ ['"'])
        (colAfter + a.1.length + (escapeString a.2).length) h
      rw [heq] at hP1
      obtain ⟨hOK1, hE1, hF1⟩ := hP1.1 s1 c1 rfl
      exact POst_chain hE1 hF1 (ih s1 c1 hOK1)

theorem printOpeningTag_POst (s : Sink) (data : List Char)
    (attrs : List (List Char × List Char)) (col : Nat) (h : SinkOK s) :
    POst s (printOpeningTag s data attrs col) := by
  unfold printOpeningTag
  split
  · next s1 e heq =>
    have hP1 := wres_POst ("<".data ++ data) (col + data.length + 2) h
    rw [heq] at hP1
    exact hP1
  · next s1 c1 heq =>
    have hP1 := wres_POst ("<".data ++ data) (col + data.length + 2) h
    rw [heq] at hP1
    obtain ⟨hOK1, hE1, hF1⟩ := hP1.1 s1 c1 rfl
    refine POst_chain hE1 hF1 ?_
    split
    · next s2 e heq2 =>
      have hP2 := openingTagAttrs_POst attrs s1 c1 hOK1
      rw [heq2] at hP2
      exact hP2
    · next s2 c2 heq2 =>
      have hP2 := openingTagAttrs_POst attrs s1 c1 hOK1
      rw [heq2] at hP2
      obtain ⟨hOK2, hE2, hF2⟩ := hP2.1 s2 c2 rfl
      exact POst_chain hE2 hF2 (wres_POst ['>'] c2 hOK2)

theorem printClosingTag_POst (s : Sink) (data : List Char) (col : Nat)
    (h : SinkOK s) : POst s (printClosingTag s data col) :=
  wres_POst _ _ h

theorem specialLoop_POst (lines : List (List Char)) :
    ∀ (s : Sink) (level col : Nat), SinkOK s →
    POst s (specialLoop s lines level col) := by
  induction lines with
  | nil =>
    intro s level col h
    unfold specialLoop
    simp only []
    rcases heq1 : printNewLine s with ⟨s1, r1⟩
    have hP1 : POst s (s1, r1) := by
      rw [← heq1]
      exact printNewLine_POst s h
    cases r1 with
    | error e => exact hP1
    | ok c1 =>
      obtain ⟨hOK1, hE1, hF1⟩ := hP1.1 s1 c1 rfl
      exact POst_of_ok hOK1 hE1 hF1
  | cons t rest ih =>
    intro s level col h
    unfold specialLoop
    split
    · next s1 e heq =>
      have hP1 := printNewLine_POst s h
      rw [heq] at hP1
      exact hP1
    · next s1 c1 heq =>
      have hP1 := printNewLine_POst s h
      rw [heq] at hP1
      obtain ⟨hOK1, hE1, hF1⟩ := hP1.1 s1 c1 rfl
      refine POst_chain hE1 hF1 ?_
      split
      · next s2 e heq2 =>
        have hP2 := printIndent_POst s1 level hOK1
        rw [heq2] at hP2
        exact hP2
      · next s2 c2 heq2 =>
        have hP2 := printIndent_POst s1 level hOK1
        rw [heq2] at hP2
        obtain ⟨hOK2, hE2, hF2⟩ := hP2.1 s2 c2 rfl
        refine POst_chain hE2 hF2 ?_
        split
        · next s3 e heq3 =>
          have hP3 := wres_POst t c2 hOK2
          rw [heq3] at hP3
          exact hP3
        · next s3 c3 heq3 =>
          have hP3 := wres_POst t c2 hOK2
          rw [heq3] at hP3
          obtain ⟨hOK3, hE3, hF3⟩ := hP3.1 s3 c3 rfl
          exact POst_chain hE3 hF3 (ih s3 level c3 hOK3)

theorem printTextNode_POst (s : Sink) (d : List Char) (ctx : Ctx)
    (level col : Nat) (h : SinkOK s) :
    POst s (printTextNode s d ctx level col) := by
  unfold printTextNode
  simp only []
  by_cases ht : trimSpaceU d = []
  · rw [if_pos ht]
    exact POst_of_ok h rfl rfl
  · rw [if_neg ht]
    split
    · next s1 e heq =>
      have hP1 : POst s ((if (! isChildOfSpecialContentElement ctx) &&
          (! isSingleTextChild ctx) &&
          (noPrevSibling ctx || ! goIsPunct (firstRune (trimSpaceU d)))
        then printIndent s level else (s, .ok col))) := by
        split
        · exact printIndent_POst s level h
        · exact POst_of_ok h rfl rfl
      rw [heq] at hP1
      exact hP1
    · next s1 c1 heq =>
      have hP1 : POst s ((if (! isChildOfSpecialContentElement ctx) &&
          (! isSingleTextChild ctx) &&
          (noPrevSibling ctx || ! goIsPunct (firstRune (trimSpaceU d)))
        then printIndent s level else (s, .ok col))) := by
        split
        · exact printIndent_POst s level h
        · exact POst_of_ok h rfl rfl
      rw [heq] at hP1
      obtain ⟨hOK1, hE1, hF1⟩ := hP1.1 s1 c1 rfl
      refine POst_chain hE1 hF1 ?_
      by_cases hsp : isChildOfSpecialContentElement ctx = true
      · rw [if_pos hsp]
        exact specialLoop_POst (splitLines (trimSpaceU d)) s1 level c1 hOK1
      · rw [if_neg hsp]
        split
        · next s2 e heq2 =>
          have hP2 := wres_POst (trimSpaceU d) c1 hOK1
          rw [heq2] at hP2
          exact hP2
        · next s2 c2 heq2 =>
          have hP2 := wres_POst (trimSpaceU d) c1 hOK1
          rw [heq2] at hP2
          obtain ⟨hOK2, hE2, hF2⟩ := hP2.1 s2 c2 rfl
          refine POst_chain hE2 hF2 ?_
          split
          · exact printNewLine_POst s2 hOK2
          · exact POst_of_ok hOK2 rfl rfl

/-! ### Error propagation through the main (non-paragraph) tree printer -/

mutual

theorem printNode_POst (s : Sink) (n : HNode) (ctx : Ctx) (level col : Nat)
    (h : SinkOK s) (hn : noParagraphN n = true) :
    POst s (printNode s n ctx level col) := by
  cases n with
  | text d =>
    unfold printNode
    exact printTextNode_POst s d ctx level col h
  | elem a data attrs children =>
    unfold printNode
    simp only [noParagraphN, Bool.and_eq_true, Bool.not_eq_true' ] at hn
    exact printElementNode_POst s a data attrs children ctx level col h
      hn.1 hn.2
  | comment d =>
    unfold printNode
    exact printCommentNode_POst s d level h
  | doctype d =>
    unfold printNode
    exact printDoctypeNode_POst s d h
termination_by (sizeOf n, 3)

theorem printElementNode_POst (s : Sink) (a : GoAtom) (data : List Char)
    (attrs : List (List Char × List Char)) (children : List HNode)
    (ctx : Ctx) (level col : Nat) (h : SinkOK s)
    (ha : isParagraphAtom a = false) (hc : noParagraphL children = true) :
    POst s (printElementNode s a data attrs children ctx level col) := by
  unfold printElementNode
  split
  · -- the verbatim (`pre`) case
    split
    · next s1 e heq =>
      have hP := printIndent_POst s level h
      rw [heq] at hP
      exact hP
    · next s1 c1 heq =>
      have hP := printIndent_POst s level h
      rw [heq] at hP
      obtain ⟨hOK1, hE1, hF1⟩ := hP.1 s1 c1 rfl
      refine POst_chain hE1 hF1 ?_
      split
      · next s2 e heq2 =>
        have hP2 := printOpeningTag_POst s1 data attrs c1 hOK1
        rw [heq2] at hP2
        exact hP2
      · next s2 c2 heq2 =>
        have hP2 := printOpeningTag_POst s1 data attrs c1 hOK1
        rw [heq2] at hP2
        obtain ⟨hOK2, hE2, hF2⟩ := hP2.1 s2 c2 rfl
        refine POst_chain hE2 hF2 ?_
        split
        · next s3 e heq3 =>
          have hP3 := preSeq_POst s2 children level c2 hOK2
          rw [heq3] at hP3
          exact hP3
        · next s3 c3 heq3 =>
          have hP3 := preSeq_POst s2 children level c2 hOK2
          rw [heq3] at hP3
          obtain ⟨hOK3, hE3, hF3⟩ := hP3.1 s3 c3 rfl
          refine POst_chain hE3 hF3 ?_
          split
          · next s4 e heq4 =>
            have hP4 := printClosingTag_POst s3 data c3 hOK3
            rw [heq4] at hP4
            exact hP4
          · next s4 c4 heq4 =>
            have hP4 := printClosingTag_POst s3 data c3 hOK3
            rw [heq4] at hP4
            obtain ⟨hOK4, hE4, hF4⟩ := hP4.1 s4 c4 rfl
            exact POst_chain hE4 hF4 (printNewLine_POst s4 hOK4)
  · split
    · -- the paragraph case is excluded by the hypothesis
      next hPar =>
      rw [ha] at hPar
      exact absurd hPar (by decide)
    · split
      · -- the empty-element case
        split
        · next s1 e heq =>
          have hP := printIndent_POst s level h
          rw [heq] at hP
          exact hP
        · next s1 c1 heq =>
          have hP := printIndent_POst s level h
          rw [heq] at hP
          obtain ⟨hOK1, hE1, hF1⟩ := hP.1 s1 c1 rfl
          refine POst_chain hE1 hF1 ?_
          split
          · next s2 e heq2 =>
            have hP2 := printOpeningTag_POst s1 data attrs c1 hOK1
            rw [heq2] at hP2
            exact hP2
          · next s2 c2 heq2 =>
            have hP2 := printOpeningTag_POst s1 data attrs c1 hOK1
            rw [heq2] at hP2
            obtain ⟨hOK2, hE2, hF2⟩ := hP2.1 s2 c2 rfl
            exact POst_chain hE2 hF2 (printNewLine_POst s2 hOK2)
      · split
        · -- the external-source (`script src`) case
          split
          · next s1 e heq =>
            have hP := printIndent_POst s level h
            rw [heq] at hP
            exact hP
          · next s1 c1 heq =>
            have hP := printIndent_POst s level h
            rw [heq] at hP
            obtain ⟨hOK1, hE1, hF1⟩ := hP.1 s1 c1 rfl
            refine POst_chain hE1 hF1 ?_
            split
            · next s2 e heq2 =>
              have hP2 := printOpeningTag_POst s1 data attrs c1 hOK1
              rw [heq2] at hP2
              exact hP2
            · next s2 c2 heq2 =>
              have hP2 := printOpeningTag_POst s1 data attrs c1 hOK1
              rw [heq2] at hP2
              obtain ⟨hOK2, hE2, hF2⟩ := hP2.1 s2 c2 rfl
              refine POst_chain hE2 hF2 ?_
              split
              · next s3 e heq3 =>
                have hP3 := printClosingTag_POst s2 data c2 hOK2
                rw [heq3] at hP3
                exact hP3
              · next s3 c3 heq3 =>
                have hP3 := printClosingTag_POst s2 data c2 hOK2
                rw [heq3] at hP3
                obtain ⟨hOK3, hE3, hF3⟩ := hP3.1 s3 c3 rfl
                exact POst_chain hE3 hF3 (printNewLine_POst s3 hOK3)
        · -- the default case
          split
          · next s5 e heq =>
            have hP := printElementDefaultPrefix_POst s a data attrs children
              level col h hc
            rw [heq] at hP
            exact hP
          · next s5 c5 heq =>
            have hP := printElementDefaultPrefix_POst s a data attrs children
              level col h hc
            rw [heq] at hP
            obtain ⟨hOK5, hE5, hF5⟩ := hP.1 s5 c5 rfl
            refine POst_chain hE5 hF5 ?_
            split
            · exact printNewLine_POst s5 hOK5
            · exact POst_of_ok hOK5 rfl rfl
termination_by (sizeOf children, 2)

theorem printElementDefaultPrefix_POst (s : Sink) (a : GoAtom)
    (data : List Char) (attrs : List (List Char × List Char))
    (children : List HNode) (level col : Nat) (h : SinkOK s)
    (hc : noParagraphL children = true) :
    POst s (printElementDefaultPrefix s a data attrs children level col) := by
  unfold printElementDefaultPrefix
  split
  · next s1 e heq =>
    have hP := printIndent_POst s level h
    rw [heq] at hP
    exact hP
  · next s1 c1 heq =>
    have hP := printIndent_POst s level h
    rw [heq] at hP
    obtain ⟨hOK1, hE1, hF1⟩ := hP.1 s1 c1 rfl
    refine POst_chain hE1 hF1 ?_
    split
    · next s2 e heq2 =>
      have hP2 := printOpeningTag_POst s1 data attrs c1 hOK1
      rw [heq2] at hP2
      exact hP2
    · next s2 c2 heq2 =>
      have hP2 := printOpeningTag_POst s1 data attrs c1 hOK1
      rw [heq2] at hP2
      obtain ⟨hOK2, hE2, hF2⟩ := hP2.1 s2 c2 rfl
      refine POst_chain hE2 hF2 ?_
      split
      · next s3 e heq3 =>
        have hP3 : POst s2 (if ¬ hasSingleTextChild children then
            printNewLine s2 else (s2, Except.ok c2)) := by
          split
          · exact printNewLine_POst s2 hOK2
          · exact POst_of_ok hOK2 rfl rfl
        rw [heq3] at hP3
        exact hP3
      · next s3 c3 heq3 =>
        have hP3 : POst s2 (if ¬ hasSingleTextChild children then
            printNewLine s2 else (s2, Except.ok c2)) := by
          split
          · exact printNewLine_POst s2 hOK2
          · exact POst_of_ok hOK2 rfl rfl
        rw [heq3] at hP3
        obtain ⟨hOK3, hE3, hF3⟩ := hP3.1 s3 c3 rfl
        refine POst_chain hE3 hF3 ?_
        split
        · next s4 e heq4 =>
          have hP4 : POst s3 (if a = GoAtom.Html then
              printSeq s3 ⟨a, hasSingleTextChild children⟩ false children
                level c3
            else
              printSeq s3 ⟨a, hasSingleTextChild children⟩ false children
                (level + 1) c3) := by
            split
            · exact printSeq_POst s3 ⟨a, hasSingleTextChild children⟩ false
                children level c3 hOK3 hc
            · exact printSeq_POst s3 ⟨a, hasSingleTextChild children⟩ false
                children (level + 1) c3 hOK3 hc
          rw [heq4] at hP4
          exact hP4
        · next s4 c4 heq4 =>
          have hP4 : POst s3 (if a = GoAtom.Html then
              printSeq s3 ⟨a, hasSingleTextChild children⟩ false children
                level c3
            else
              printSeq s3 ⟨a, hasSingleTextChild children⟩ false children
                (level + 1) c3) := by
            split
            · exact printSeq_POst s3 ⟨a, hasSingleTextChild children⟩ false
                children level c3 hOK3 hc
            · exact printSeq_POst s3 ⟨a, hasSingleTextChild children⟩ false
                children (level + 1) c3 hOK3 hc
          rw [heq4] at hP4
          obtain ⟨hOK4, hE4, hF4⟩ := hP4.1 s4 c4 rfl
          refine POst_chain hE4 hF4 ?_
          split
          · next s5 e heq5 =>
            have hP5 : POst s4 (if isSpecialAtom a ||
                ¬ hasSingleTextChild children then
                printIndent s4 level else (s4, Except.ok c4)) := by
              split
              · exact printIndent_POst s4 level hOK4
              · exact POst_of_ok hOK4 rfl rfl
            rw [heq5] at hP5
            exact hP5
          · next s5 c5 heq5 =>
            have hP5 : POst s4 (if isSpecialAtom a ||
                ¬ hasSingleTextChild children then
                printIndent s4 level else (s4, Except.ok c4)) := by
              split
              · exact printIndent_POst s4 level hOK4
              · exact POst_of_ok hOK4 rfl rfl
            rw [heq5] at hP5
            obtain ⟨hOK5, hE5, hF5⟩ := hP5.1 s5 c5 rfl
            exact POst_chain hE5 hF5 (printClosingTag_POst s5 data c5 hOK5)
termination_by (sizeOf children, 1)

theorem printSeq_POst (s : Sink) (pinfo : PInfo) (hasPrev : Bool)
    (children : List HNode) (level col : Nat) (h : SinkOK s)
    (hc : noParagraphL children = true) :
    POst s (printSeq s pinfo hasPrev children level col) := by
  cases children with
  | nil =>
    unfold printSeq
    exact POst_of_ok h rfl rfl
  | cons c rest =>
    unfold printSeq
    simp only [noParagraphL, Bool.and_eq_true] at hc
    split
    · next s1 e heq =>
      have hP := printNode_POst s c ⟨some pinfo, hasPrev, rest.head?⟩ level col
        h hc.1
      rw [heq] at hP
      exact hP
    · next s1 c1 heq =>
      have hP := printNode_POst s c ⟨some pinfo, hasPrev, rest.head?⟩ level col
        h hc.1
      rw [heq] at hP
      obtain ⟨hOK1, hE1, hF1⟩ := hP.1 s1 c1 rfl
      exact POst_chain hE1 hF1
        (printSeq_POst s1 pinfo true rest level c1 hOK1 hc.2)
termination_by (sizeOf children, 0)

theorem printPreChild_POst (s : Sink) (n : HNode) (level col : Nat)
    (h : SinkOK s) : POst s (printPreChild s n level col) := by
  cases n with
  | text d =>
    unfold printPreChild
    exact printData_POst s d col h
  | elem a data attrs children =>
    unfold printPreChild
    split
    · next s1 e heq =>
      have hP := printOpeningTag_POst s data attrs col h
      rw [heq] at hP
      exact hP
    · next s1 c1 heq =>
      have hP := printOpeningTag_POst s data attrs col h
      rw [heq] at hP
      obtain ⟨hOK1, hE1, hF1⟩ := hP.1 s1 c1 rfl
      refine POst_chain hE1 hF1 ?_
      split
      · next s2 e heq2 =>
        have hP2 : POst s1 (if ¬ isEmptyAtom a then
            preSeq s1 children level c1 else (s1, Except.ok c1)) := by
          split
          · exact preSeq_POst s1 children level c1 hOK1
          · exact POst_of_ok hOK1 rfl rfl
        rw [heq2] at hP2
        exact hP2
      · next s2 c2 heq2 =>
        have hP2 : POst s1 (if ¬ isEmptyAtom a then
            preSeq s1 children level c1 else (s1, Except.ok c1)) := by
          split
          · exact preSeq_POst s1 children level c1 hOK1
          · exact POst_of_ok hOK1 rfl rfl
        rw [heq2] at hP2
        obtain ⟨hOK2, hE2, hF2⟩ := hP2.1 s2 c2 rfl
        refine POst_chain hE2 hF2 ?_
        split
        · exact printClosingTag_POst s2 data c2 hOK2
        · exact POst_of_ok hOK2 rfl rfl
  | comment d =>
    unfold printPreChild
    exact printCommentNode_POst s d level h
  | doctype d =>
    unfold printPreChild
    exact POst_of_ok h rfl rfl
termination_by (sizeOf n, 3)

theorem preSeq_POst (s : Sink) (children : List HNode) (level col : Nat)
    (h : SinkOK s) : POst s (preSeq s children level col) := by
  cases children with
  | nil =>
    unfold preSeq
    exact POst_of_ok h rfl rfl
  | cons c rest =>
    unfold preSeq
    split
    · next s1 e heq =>
      have hP := printPreChild_POst s c level col h
      rw [heq] at hP
      exact hP
    · next s1 c1 heq =>
      have hP := printPreChild_POst s c level col h
      rw [heq] at hP
      obtain ⟨hOK1, hE1, hF1⟩ := hP.1 s1 c1 rfl
      exact POst_chain hE1 hF1 (preSeq_POst s1 rest level c1 hOK1)
termination_by (sizeOf children, 0)

end

theorem rootSeq_POst (nodes : List HNode) :
    ∀ (s : Sink) (hasPrev : Bool) (col : Nat), SinkOK s →
    noParagraphL nodes = true → POst s (rootSeq s hasPrev nodes col) := by
  induction nodes with
  | nil =>
    intro s hasPrev col h _
    unfold rootSeq
    exact POst_of_ok h rfl rfl
  | cons n rest ih =>
    intro s hasPrev col h hn
    unfold rootSeq
    simp only [noParagraphL, Bool.and_eq_true] at hn
    split
    · next s1 e heq =>
      have hP := printNode_POst s n ⟨none, hasPrev, rest.head?⟩ 0 col h hn.1
      rw [heq] at hP
      exact hP
    · next s1 c1 heq =>
      have hP := printNode_POst s n ⟨none, hasPrev, rest.head?⟩ 0 col h hn.1
      rw [heq] at hP
      obtain ⟨hOK1, hE1, hF1⟩ := hP.1 s1 c1 rfl
      exact POst_chain hE1 hF1 (ih s1 true c1 hOK1 hn.2)

theorem Nodes_POst (s : Sink) (nodes : List HNode) (h : SinkOK s)
    (hn : noParagraphL nodes = true) : POst s (Nodes s nodes) :=
  rootSeq_POst nodes s false 0 h hn

/-! ### C6: propagation of sink write failures -/

/-- A sink whose fourth write call fails (error value 7). -/
def sinkC6 : Sink := ⟨[], 0, some 4, 7, false⟩

/-- A single paragraph with one text child. -/
def treeC6 : List HNode := [.elem .P "p".data [] [.text "hello world".data]]

/-- A sink whose second write call fails (error value 7). -/
def sinkC6w : Sink := ⟨[], 0, some 2, 7, false⟩

/-- A single paragraph-free element with one text child. -/
def treeC6w : List HNode := [.elem .Other "div".data [] [.text "hi".data]]

/-- C6: counterexample.  Rendering a paragraph over a sink whose fourth
write call fails returns `.ok` even though a write did fail: the paragraph
path sends the content through the lookahead writer and the word wrapper,
the wrapper ignores its writer's errors, and `paragraphElementContents`
discards the `Drain` error, so the failure is not propagated to the caller
of `Nodes`. -/
theorem claim_C6_counterexample :
    (Nodes sinkC6 treeC6).2 = Except.ok 0 ∧
    (Nodes sinkC6 treeC6).1.failed = true := by
  with_unfolding_all exact ⟨rfl, rfl⟩

/-- C6 (amended): on a paragraph-free node tree, a sink write failure stops
the traversal at the failing call (the failed sink records exactly the call
number at which it was set to fail, so no later write was attempted), and
the sink's error value is propagated unchanged to the caller of `Nodes`;
when no write fails the sink ends unfailed. -/
theorem claim_C6_write_errors (s : Sink) (nodes : List HNode)
    (h : SinkOK s) (hn : noParagraphL nodes = true) :
    (∀ s' c, Nodes s nodes = (s', .ok c) → s'.failed = false) ∧
    (∀ s' e, Nodes s nodes = (s', .error e) →
      e.val = s.errv ∧ s'.failed = true ∧
      ∀ k, s.failAt = some k → s'.calls = k) := by
  have hP := Nodes_POst s nodes h hn
  refine ⟨fun s' c hx => (hP.1 s' c hx).1.1, fun s' e hx => ?_⟩
  obtain ⟨ha, hb, _, _, he⟩ := hP.2 s' e hx
  exact ⟨ha, hb, he⟩

/-- C6 witness: on a paragraph-free `div` tree over a sink failing at its
second write call, `Nodes` returns that error and the sink stopped at call
number 2. -/
theorem claim_C6_write_errors_witness :
    (Nodes sinkC6w treeC6w).2 = Except.error ⟨7⟩ ∧
    (Nodes sinkC6w treeC6w).1.failed = true ∧
    (Nodes sinkC6w treeC6w).1.calls = 2 := by
  have h1 : SinkOK sinkC6w := by
    refine ⟨rfl, ?_⟩
    intro k hk
    injection hk with h2k
    show (0 : Nat) < k
    omega
  have h2 : noParagraphL treeC6w = true := by with_unfolding_all rfl
  have h2nd : (Nodes sinkC6w treeC6w).2 = Except.error ⟨7⟩ := by
    with_unfolding_all rfl
  have heq : Nodes sinkC6w treeC6w =
      ((Nodes sinkC6w treeC6w).1, Except.error ⟨7⟩) := by
    rw [← h2nd]
  have hc := (claim_C6_write_errors sinkC6w treeC6w h1 h2).2
    (Nodes sinkC6w treeC6w).1 ⟨7⟩ heq
  exact ⟨h2nd, hc.2.1, hc.2.2 2 rfl⟩

/-! ### C8: indentation before text nodes -/

theorem wres_write_none (s : Sink) (chunk : List Char) (c : Nat)
    (h : s.failAt = none) :
    wres (EWriter.ewrite s chunk) c =
      ({ s with
          calls := s.calls + 1
          written := s.written ++ chunk }, Except.ok c) := by
  show wres (Sink.write s chunk) c = _
  unfold Sink.write
  simp only []
  rw [if_neg (show ¬ s.failAt = some (s.calls + 1) by simp [h])]
  rfl

theorem printIndent_none (s : Sink) (level : Nat) (h : s.failAt = none) :
    printIndent s level =
      ({ s with
          calls := s.calls + 1
          written := s.written ++ indentAtLevel level }, Except.ok 0) := by
  unfold printIndent
  exact wres_write_none s (indentAtLevel level) 0 h

theorem printNewLine_none (s : Sink) (h : s.failAt = none) :
    printNewLine s =
      ({ s with
          calls := s.calls + 1
          written := s.written ++ ['\n'] }, Except.ok 0) := by
  unfold printNewLine
  exact wres_write_none s ['\n'] 0 h

/-- C8: counterexample.  A text node beginning with punctuation and having
no preceding sibling IS preceded by indentation: the code's guard prints
the indentation when `noPrevSibling` holds, whatever the first rune is. -/
theorem claim_C8_counterexample :
    goIsPunct (firstRune (trimSpaceU ".x".data)) = true ∧
    (printTextNode (⟨[], 0, none, 0, false⟩ : Sink) ".x".data
      ⟨some ⟨.Other, false⟩, false, none⟩ 1 0).1.written = "  .x\n".data := by
  decide

/-- C8 (amended): for a text node with non-empty trimmed content, printed
outside special-content elements and not as a single text child, over a
sink that never fails, the output is: the indentation exactly when the node
has no preceding sibling OR its first rune is not punctuation (so
indentation is suppressed exactly for a punctuation-initial text node with
a preceding sibling, not the spec's no-preceding-sibling case), then the
trimmed content, then a newline. -/
theorem claim_C8_indentation (s : Sink) (d : List Char) (ctx : Ctx)
    (level col : Nat) (hfail : s.failAt = none)
    (hsp : isChildOfSpecialContentElement ctx = false)
    (hsingle : isSingleTextChild ctx = false)
    (ht : ¬ trimSpaceU d = []) :
    (printTextNode s d ctx level col).1.written =
      s.written ++
      (if noPrevSibling ctx || ! goIsPunct (firstRune (trimSpaceU d)) then
        indentAtLevel level else []) ++
      trimSpaceU d ++ ['\n'] := by
  unfold printTextNode
  simp only []
  rw [if_neg ht]
  rw [hsp, hsingle]
  simp only [Bool.not_false, Bool.true_and]
  by_cases hcond :
      (noPrevSibling ctx || ! goIsPunct (firstRune (trimSpaceU d))) = true
  · rw [if_pos hcond, if_pos hcond]
    rw [printIndent_none s level hfail]
    simp only []
    rw [if_neg (show ¬ false = true by decide)]
    rw [wres_write_none
      { s with
          calls := s.calls + 1
          written := s.written ++ indentAtLevel level }
      (trimSpaceU d) 0 hfail]
    simp only [if_true]
    rw [printNewLine_none
      { s with
          calls := s.calls + 1 + 1
          written := s.written ++ indentAtLevel level ++ trimSpaceU d }
      hfail]
  · rw [if_neg hcond, if_neg hcond]
    simp only []
    rw [wres_write_none s (trimSpaceU d) col hfail]
    simp only [if_true]
    rw [printNewLine_none
      { s with
          calls := s.calls + 1
          written := s.written ++ trimSpaceU d }
      hfail]
    rw [if_neg (show ¬ false = true by decide)]
    simp only [List.append_assoc, List.nil_append]

/-- C8 witness: with a preceding sibling and a punctuation-initial text
node, the indentation is suppressed. -/
theorem claim_C8_indentation_witness :
    (printTextNode (⟨[], 0, none, 0, false⟩ : Sink) ".x".data
      ⟨some ⟨.Other, false⟩, true, none⟩ 1 0).1.written = ".x\n".data := by
  have h := claim_C8_indentation ⟨[], 0, none, 0, false⟩ ".x".data
    ⟨some ⟨.Other, false⟩, true, none⟩ 1 0 rfl rfl rfl (by decide)
  rw [h]
  decide

/-! ### C9: externally-sourced script elements -/

/-- The characters `printOpeningTag` writes for the attribute list. -/
def renderAttrs (attrs : List (List Char × List Char)) : List Char :=
  (attrs.map (fun a =>
    " ".data ++ a.1 ++ "=".data ++ ['"'] ++ escapeString a.2 ++ ['"'])).flatten

theorem openingTagAttrs_none (attrs : List (List Char × List Char)) :
    ∀ (s : Sink) (c : Nat), s.failAt = none →
    ∃ n m, openingTagAttrs s attrs c =
      ({ s with
          calls := n
          written := s.written ++ renderAttrs attrs }, Except.ok m) := by
  induction attrs with
  | nil =>
    intro s c h
    refine ⟨s.calls, c, ?_⟩
    unfold openingTagAttrs
    simp [renderAttrs]
  | cons a rest ih =>
    intro s c h
    unfold openingTagAttrs
    simp only []
    rw [wres_write_none s _ _ h]
    simp only []
    obtain ⟨n, m, hrec⟩ := ih
      { s with
          calls := s.calls + 1
          written := s.written ++
            (" ".data ++ a.1 ++ "=".data ++ ['"'] ++ escapeString a.2 ++ ['"']) }
      (c + a.1.length + (escapeString a.2).length) h
    refine ⟨n, m, ?_⟩
    rw [hrec]
    simp [renderAttrs, List.append_assoc]

theorem printOpeningTag_none (s : Sink) (data : List Char)
    (attrs : List (List Char × List Char)) (col : Nat) (h : s.failAt = none) :
    ∃ n m, printOpeningTag s data attrs col =
      ({ s with
          calls := n
          written := s.written ++ ("<".data ++ data) ++ renderAttrs attrs ++
            ['>'] }, Except.ok m) := by
  unfold printOpeningTag
  rw [wres_write_none s _ _ h]
  simp only []
  obtain ⟨n, m, hrec⟩ := openingTagAttrs_none attrs
    { s with
        calls := s.calls + 1
        written := s.written ++ ("<".data ++ data) }
    (col + data.length + 2) h
  rw [hrec]
  simp only []
  rw [wres_write_none
    { s with
        calls := n
        written := s.written ++ ("<".data ++ data) ++ renderAttrs attrs }
    ['>'] m h]
  exact ⟨n + 1, m, rfl⟩

theorem printClosingTag_none (s : Sink) (data : List Char) (col : Nat)
    (h : s.failAt = none) :
    printClosingTag s data col =
      ({ s with
          calls := s.calls + 1
          written := s.written ++ ("</".data ++ data ++ ">".data) },
        Except.ok (col + 2 + data.length)) := by
  unfold printClosingTag
  exact wres_write_none s _ _ h

/-- C9: a script element with a `src` attribute prints as indentation, the
opening tag with its attributes, the closing tag and a newline, and its
children are never printed (the output does not depend on them). -/
theorem claim_C9_script_src (s : Sink) (data : List Char)
    (attrs : List (List Char × List Char)) (children : List HNode) (ctx : Ctx)
    (level col : Nat) (hsrc : hasSrcAttribute attrs = true)
    (hfail : s.failAt = none) :
    (∃ n m, printElementNode s .Script data attrs children ctx level col =
      ({ s with
          calls := n
          written := s.written ++ indentAtLevel level ++ ("<".data ++ data) ++
            renderAttrs attrs ++ ['>'] ++ ("</".data ++ data ++ ">".data) ++
            ['\n'] }, Except.ok m)) ∧
    ∀ children2, printElementNode s .Script data attrs children2 ctx level col =
      printElementNode s .Script data attrs children ctx level col := by
  obtain ⟨n, m, hopen⟩ := printOpeningTag_none
    { s with
        calls := s.calls + 1
        written := s.written ++ indentAtLevel level }
    data attrs 0 hfail
  have hall : ∀ ch : List HNode,
      printElementNode s .Script data attrs ch ctx level col =
      ({ s with
          calls := n + 1 + 1
          written := s.written ++ indentAtLevel level ++ ("<".data ++ data) ++
            renderAttrs attrs ++ ['>'] ++ ("</".data ++ data ++ ">".data) ++
            ['\n'] }, Except.ok 0) := by
    intro ch
    unfold printElementNode
    rw [if_neg (show ¬ GoAtom.Script = GoAtom.Pre by decide)]
    rw [if_neg (show ¬ isParagraphAtom GoAtom.Script = true by decide)]
    rw [if_neg (show ¬ isEmptyAtom GoAtom.Script = true by decide)]
    rw [if_pos (show (GoAtom.Script = GoAtom.Script &&
      hasSrcAttribute attrs) = true by simp [hsrc])]
    rw [printIndent_none s level hfail]
    simp only []
    rw [hopen]
    simp only []
    rw [printClosingTag_none
      { s with
          calls := n
          written := s.written ++ indentAtLevel level ++ ("<".data ++ data) ++
            renderAttrs attrs ++ ['>'] }
      data m hfail]
    simp only []
    rw [printNewLine_none
      { s with
          calls := n + 1
          written := s.written ++ indentAtLevel level ++ ("<".data ++ data) ++
            renderAttrs attrs ++ ['>'] ++ ("</".data ++ data ++ ">".data) }
      hfail]
  exact ⟨⟨n + 1 + 1, 0, hall children⟩,
    fun ch2 => (hall ch2).trans (hall children).symm⟩

/-- C9 witness: a concrete externally-sourced script with a child renders
on one line and prints identically with the child removed. -/
theorem claim_C9_witness :
    (printElementNode (⟨[], 0, none, 0, false⟩ : Sink) .Script "script".data
        [("src".data, "x.js".data)] [.text "IGNORED".data]
        ⟨none, false, none⟩ 1 0).1.written =
      "  <script src=\"x.js\"></script>\n".data ∧
    printElementNode (⟨[], 0, none, 0, false⟩ : Sink) .Script "script".data
        [("src".data, "x.js".data)] [] ⟨none, false, none⟩ 1 0 =
      printElementNode (⟨[], 0, none, 0, false⟩ : Sink) .Script "script".data
        [("src".data, "x.js".data)] [.text "IGNORED".data]
        ⟨none, false, none⟩ 1 0 := by
  have h := claim_C9_script_src ⟨[], 0, none, 0, false⟩ "script".data
    [("src".data, "x.js".data)] [.text "IGNORED".data] ⟨none, false, none⟩ 1 0
    (by decide) rfl
  obtain ⟨⟨n, m, h1⟩, h2⟩ := h
  constructor
  · rw [h1]
    simp only []
    decide
  · exact h2 []

/-! ### C7: the default case's trailing newline -/

/-- C7: in the default element case, after the closing tag a trailing
newline is emitted if and only if the element has no next sibling, or the
next sibling is an element node, or the next sibling's data does not begin
with a punctuation rune; on a write error inside the prefix the error is
returned and no newline decision is made. -/
theorem claim_C7_trailing_newline (s : Sink) (a : GoAtom) (data : List Char)
    (attrs : List (List Char × List Char)) (children : List HNode) (ctx : Ctx)
    (level col : Nat) (hPre : ¬ a = GoAtom.Pre)
    (hPar : isParagraphAtom a = false) (hEmp : isEmptyAtom a = false)
    (hScr : ¬ ((a = GoAtom.Script && hasSrcAttribute attrs) = true)) :
    ((∀ s5 e, printElementDefaultPrefix s a data attrs children level col =
        (s5, Except.error e) →
        printElementNode s a data attrs children ctx level col =
          (s5, Except.error e)) ∧
     (∀ s5 c5, printElementDefaultPrefix s a data attrs children level col =
        (s5, Except.ok c5) →
        printElementNode s a data attrs children ctx level col =
          (if trailingNewLineCond ctx then printNewLine s5
           else (s5, Except.ok c5)))) ∧
    (trailingNewLineCond ctx = true ↔
      ctx.next = none ∨
      (∃ a2 d2 at2 ch2, ctx.next = some (.elem a2 d2 at2 ch2)) ∨
      (∀ m, ctx.next = some m → goIsPunct (firstRune (nodeData m)) = false)) := by
  constructor
  · constructor
    · intro s5 e hp
      unfold printElementNode
      rw [if_neg hPre]
      rw [if_neg (show ¬ isParagraphAtom a = true by simp [hPar])]
      rw [if_neg (show ¬ isEmptyAtom a = true by simp [hEmp])]
      rw [if_neg hScr]
      rw [hp]
    · intro s5 c5 hp
      unfold printElementNode
      rw [if_neg hPre]
      rw [if_neg (show ¬ isParagraphAtom a = true by simp [hPar])]
      rw [if_neg (show ¬ isEmptyAtom a = true by simp [hEmp])]
      rw [if_neg hScr]
      rw [hp]
  · unfold trailingNewLineCond noNextSibling nextSiblingIsNotPunctuation
      nextSiblingIsElementNode
    cases hn : ctx.next with
    | none => simp
    | some m =>
      cases m with
      | text d =>
        simp only [Option.isNone_some, Bool.false_or, Bool.or_eq_true,
          Bool.not_eq_true', nodeData]
        constructor
        · intro h0
          refine Or.inr (Or.inr ?_)
          intro m2 hm2
          obtain rfl := Option.some.inj hm2
          rcases h0 with h0 | h0
          · exact h0
          · exact absurd h0 (by decide)
        · intro h0
          rcases h0 with h0 | h0 | h0
          · exact absurd h0 (by simp)
          · obtain ⟨a2, d2, at2, ch2, h1⟩ := h0
            exact absurd (Option.some.inj h1) (by simp)
          · exact Or.inl (h0 (.text d) rfl)
      | elem a2 d2 at2 ch2 =>
        simp only [Option.isNone_some, Bool.false_or, Bool.or_eq_true]
        constructor
        · intro _
          exact Or.inr (Or.inl ⟨a2, d2, at2, ch2, rfl⟩)
        · intro _
          exact Or.inr trivial
      | comment d =>
        simp only [Option.isNone_some, Bool.false_or, Bool.or_eq_true,
          Bool.not_eq_true', nodeData]
        constructor
        · intro h0
          refine Or.inr (Or.inr ?_)
          intro m2 hm2
          obtain rfl := Option.some.inj hm2
          rcases h0 with h0 | h0
          · exact h0
          · exact absurd h0 (by decide)
        · intro h0
          rcases h0 with h0 | h0 | h0
          · exact absurd h0 (by simp)
          · obtain ⟨a2, d2, at2, ch2, h1⟩ := h0
            exact absurd (Option.some.inj h1) (by simp)
          · exact Or.inl (h0 (.comment d) rfl)
      | doctype d =>
        simp only [Option.isNone_some, Bool.false_or, Bool.or_eq_true,
          Bool.not_eq_true', nodeData]
        constructor
        · intro h0
          refine Or.inr (Or.inr ?_)
          intro m2 hm2
          obtain rfl := Option.some.inj hm2
          rcases h0 with h0 | h0
          · exact h0
          · exact absurd h0 (by decide)
        · intro h0
          rcases h0 with h0 | h0 | h0
          · exact absurd h0 (by simp)
          · obtain ⟨a2, d2, at2, ch2, h1⟩ := h0
            exact absurd (Option.some.inj h1) (by simp)
          · exact Or.inl (h0 (.doctype d) rfl)

/-- C7 witness: a `li` with a punctuation-initial text sibling gets no
trailing newline after its closing tag. -/
theorem claim_C7_witness :
    printElementNode (⟨[], 0, none, 0, false⟩ : Sink) .Other "li".data []
        [.text "x".data] ⟨none, false, some (.text ".".data)⟩ 0 0 =
      ((⟨"<li>x</li>".data, 5, none, 0, false⟩ : Sink), Except.ok 8) := by
  have h := claim_C7_trailing_newline ⟨[], 0, none, 0, false⟩ .Other "li".data
    [] [.text "x".data] ⟨none, false, some (.text ".".data)⟩ 0 0
    (by decide) (by decide) (by decide) (by decide)
  have hp : printElementDefaultPrefix ⟨[], 0, none, 0, false⟩ .Other "li".data
      [] [.text "x".data] 0 0 =
      ((⟨"<li>x</li>".data, 5, none, 0, false⟩ : Sink), Except.ok 8) := by
    with_unfolding_all rfl
  have h2 := h.1.2 ⟨"<li>x</li>".data, 5, none, 0, false⟩ 8 hp
  rw [h2]
  rw [if_neg (show ¬ trailingNewLineCond
    ⟨none, false, some (.text ".".data)⟩ = true by decide)]

end Formathtml
